import Mathlib

/-! # The master digester of cvs-fast-export (`revcvs.c`)

A shallow embedding of `revcvs.c`.  Pointers become indices:

* the commit slab `master->commits[0 .. ncommits)` is a `List CvsCommit`, a
  `cvs_commit *` is an index into it (`none` is `NULL`);
* every `rev_ref` ever allocated lives in the arena `CvsMaster.refs`, a
  `rev_ref *` is an index into it, and the singly linked list hanging off
  `cm->heads` through the `next` fields is the list `CvsMaster.heads` of such
  indices, in list order;
* atoms are strings and interned revision numbers are lists of integers, so
  pointer equality of interned values is equality of values.

A computation that dereferences `NULL`, or that walks a cyclic parent chain
for ever, has no result: the corresponding function returns `none`.  Walks
along `parent` carry a fuel one larger than the slab; a walk that is still
running after that many steps has visited a commit twice and, its exit test
depending on the commit alone, never ends in C either.
-/

set_option autoImplicit false

namespace RevCvs

/-! ## Input structures (declared in `cvs.h`) -/

/-- An interned string. -/
abbrev Atom := String

/-- A `cvs_number`: the first `c` entries of `n`. -/
abbrev CvsNumber := List Int

/-- A `cvs_version`; `branches` holds the `number` of every `cvs_branch`. -/
structure CvsVersion where
  number : CvsNumber
  date : Nat
  author : Option Atom
  commitid : Option Atom
  dead : Bool
  branches : List CvsNumber
deriving DecidableEq, Repr

/-- A `cvs_patch`, of which only the log message is read here. -/
structure CvsPatch where
  log : Option Atom
deriving DecidableEq, Repr

/-- A `node_t` of the parser's per-branch delta list.  Its `commit` slot is
written by the branch builder and read nowhere in this file. -/
structure Node where
  version : Option CvsVersion
  patch : Option CvsPatch
deriving DecidableEq, Repr

/-- A `cvs_symbol`. -/
structure CvsSymbol where
  symbol_name : Atom
  number : CvsNumber
deriving DecidableEq, Repr

/-- The part of a `cvs_file` the digester reads.  `find_version` stands for
`cvs_find_version` after `build_branches`: the delta list, in `next` order,
that the parser files under a lookup key. -/
structure CvsFile where
  export_name : Atom
  mode : Nat
  versions : List CvsVersion
  symbols : List CvsSymbol
  find_version : CvsNumber → List Node

/-! ## Graph structures -/

/-- A `cvs_commit`.  `dir` and `master` are the same for every commit of a
master and `hash` is mixed from an uninitialised local; none of the three is
read in this file and they are left out. -/
structure CvsCommit where
  number : CvsNumber
  date : Nat
  commitid : Option Atom
  author : Option Atom
  log : Option Atom
  dead : Bool
  tail : Bool
  tailed : Bool
  refcount : Nat
  serial : Nat
  parent : Option Nat
deriving DecidableEq, Repr

/-- A `rev_ref`, without its `next` field (see `CvsMaster.heads`). -/
structure RevRef where
  commit : Option Nat
  ref_name : Option Atom
  number : Option CvsNumber
  degree : Int
  parent : Option Nat
  tail : Bool
deriving DecidableEq, Repr

/-- A `cvs_master`: the arena of allocated heads and the linked list. -/
structure CvsMaster where
  refs : List RevRef
  heads : List Nat
deriving DecidableEq, Repr

/-- A `rev_master`; `commits` is the used part of the slab, so `ncommits` is
its length.  The slab is taken to be large enough (it is allocated with one
slot per version). -/
structure RevMaster where
  name : Atom
  fileop_name : Atom
  dir : Atom
  mode : Nat
  commits : List CvsCommit
deriving DecidableEq, Repr

/-! ## Services declared outside `revcvs.c` -/

/-- Modelled from the spec: `time_compare`, the time comparator; positive
when the first time is later. -/
def time_compare (a b : Nat) : Int := (a : Int) - (b : Int)

/-- Modelled from the spec: `cvs_number_compare`, the lexicographic total
order on revision numbers, as -1, 0 or 1. -/
def cvs_number_compare : CvsNumber → CvsNumber → Int
  | [], [] => 0
  | [], _ :: _ => -1
  | _ :: _, [] => 1
  | a :: as, b :: bs =>
    if a < b then -1 else if b < a then 1 else cvs_number_compare as bs

/-- Modelled from the spec: `cvs_is_trunk`; trunk numbers have degree 2. -/
def cvs_is_trunk (n : CvsNumber) : Bool := n.length == 2

/-- Modelled from the spec: `cvs_is_vendor`, the pattern `1.1.odd.n`. -/
def cvs_is_vendor (n : CvsNumber) : Bool :=
  match n with
  | [a, b, c, _] => a == 1 && b == 1 && c % 2 == 1
  | _ => false

/-- Modelled from the spec: `cvs_number_degree`; the length of a number is
its degree. -/
def cvs_number_degree (n : CvsNumber) : Int := n.length

/-- Modelled from the spec: `cvs_is_head`, whether a symbol's number is a
branch tag `a.b.0.n`: at least four elements, an even count, and a zero next
to last. -/
def cvs_is_head (n : CvsNumber) : Bool :=
  decide (2 < n.length) && n.length % 2 == 0 && n.getD (n.length - 2) 1 == 0

/-- The loop of `cvs_same_branch` over all elements but the last, for two
numbers of equal length; in the next-to-last position a zero stands for the
last element (`a.b.0.n` names the branch of `a.b.n.k`). -/
def same_branch_loop : CvsNumber → CvsNumber → Bool
  | [an, al], [bn, bl] =>
    (if an == 0 then al else an) == (if bn == 0 then bl else bn)
  | a :: as, b :: bs => a == b && same_branch_loop as bs
  | _, _ => true

/-- Modelled from the spec: `cvs_same_branch`.  A number of odd length is
first extended by a zero; numbers of different length are on different
branches; everything of length 2 is trunk. -/
def cvs_same_branch (a b : CvsNumber) : Bool :=
  let a1 := if a.length % 2 == 1 then a ++ [0] else a
  let b1 := if b.length % 2 == 1 then b ++ [0] else b
  if a1.length != b1.length then false
  else if a1.length == 2 then true
  else same_branch_loop a1 b1

/-- Modelled from the spec: `cvs_zero`, the canonical zero revision. -/
def cvs_zero : CvsNumber := []

/-- Modelled from the spec: `cvs_number_string`, the elements in decimal
joined by dots. -/
def cvs_number_string (n : CvsNumber) : String :=
  String.intercalate "." (n.map fun (i : Int) => toString i)

/-- Modelled from the spec: `lex_number ("1.1")`. -/
def lex_number_1_1 : CvsNumber := [1, 1]

/-- The head `rev_list_add_head` allocates: zeroed but for the commit, the
name and the degree. -/
def new_head (commit : Option Nat) (name : Option Atom) (degree : Int) :
    RevRef :=
  { commit := commit, ref_name := name, number := none, degree := degree,
    parent := none, tail := false }

/-- Modelled from the spec: `rev_list_add_head`, which allocates a zeroed
head with the given commit, name and degree and links it at the end of the
list. -/
def rev_list_add_head (cm : CvsMaster) (commit : Option Nat)
    (name : Option Atom) (degree : Int) : CvsMaster × Nat :=
  ({ refs := cm.refs ++ [new_head commit name degree],
     heads := cm.heads ++ [cm.refs.length] },
   cm.refs.length)

/-! ## `cvs_master_branch_build` -/

/-- The commit the builder fills in for a version: the slot comes zeroed from
`xcalloc`, so `log` stays `NULL` without a patch. -/
def new_commit (v : CvsVersion) (patch : Option CvsPatch) (head : Option Nat) :
    CvsCommit :=
  { number := v.number, date := v.date, commitid := v.commitid,
    author := v.author,
    log := match patch with
      | some pt => pt.log
      | none => none,
    dead := v.dead, tail := false, tailed := false, refcount := 0,
    serial := 0, parent := head }

/-- The lookup key of a branch: the last element replaced by -1. -/
def branch_key (branch : CvsNumber) : CvsNumber :=
  branch.set (branch.length - 1) (-1)

/-- The loop over the delta list: one commit per node with a version, each
the parent of the next. -/
def build_commits : List Node → List CvsCommit → Option Nat →
    List CvsCommit × Option Nat
  | [], commits, head => (commits, head)
  | node :: rest, commits, head =>
    match node.version with
    | none => build_commits rest commits head
    | some v =>
      build_commits rest (commits ++ [new_commit v node.patch head])
        (some commits.length)

/-- The date repair loop `for (c = head, gc = NULL; (p = c->parent); gc = c,
c = p)`. -/
def repair_dates : Nat → List CvsCommit → Nat → Option Nat →
    Option (List CvsCommit)
  | 0, _, _, _ => none
  | fuel + 1, commits, c, gc =>
    match commits[c]? with
    | none => none
    | some cc =>
      match cc.parent with
      | none => some commits
      | some p =>
        match commits[p]? with
        | none => none
        | some pc =>
          if time_compare pc.date cc.date > 0 then
            match gc with
            | none =>
              repair_dates fuel (commits.set p { pc with date := cc.date }) p
                (some c)
            | some g =>
              match commits[g]? with
              | none => none
              | some gcc =>
                if time_compare pc.date gcc.date ≤ 0 then
                  repair_dates fuel (commits.set c { cc with date := pc.date })
                    p (some c)
                else
                  repair_dates fuel (commits.set p { pc with date := cc.date })
                    p (some c)
          else repair_dates fuel commits p (some c)

/-- The function `cvs_master_branch_build`: the new master and the head of
the chain (`none` for `NULL`). -/
def cvs_master_branch_build (cvs : CvsFile) (master : RevMaster)
    (branch : CvsNumber) : Option (RevMaster × Option Nat) :=
  match build_commits (cvs.find_version (branch_key branch)) master.commits
      none with
  | (commits, none) => some ({ master with commits := commits }, none)
  | (commits, some head) =>
    match repair_dates (commits.length + 1) commits head none with
    | none => none
    | some commits1 => some ({ master with commits := commits1 }, some head)

/-! ## `cvs_master_find_revision` -/

/-- The inner loop of `cvs_master_find_revision`: down one chain from `c`,
stopping after a commit with `tail` set. -/
def find_in_chain (commits : List CvsCommit) (number : CvsNumber) :
    Nat → Option Nat → Option (Option Nat)
  | 0, _ => none
  | _ + 1, none => some none
  | fuel + 1, some c =>
    match commits[c]? with
    | none => none
    | some cc =>
      if cvs_number_compare cc.number number == 0 then some (some c)
      else if cc.tail then some none
      else find_in_chain commits number fuel cc.parent

/-- The outer loop of `cvs_master_find_revision` over the heads. -/
def find_revision_loop (refs : List RevRef) (commits : List CvsCommit)
    (number : CvsNumber) : List Nat → Option (Option Nat)
  | [] => some none
  | h :: rest =>
    match refs[h]? with
    | none => none
    | some r =>
      if r.tail then find_revision_loop refs commits number rest
      else
        match find_in_chain commits number (commits.length + 1) r.commit with
        | none => none
        | some (some c) => some (some c)
        | some none => find_revision_loop refs commits number rest

/-- The function `cvs_master_find_revision`. -/
def cvs_master_find_revision (cm : CvsMaster) (commits : List CvsCommit)
    (number : CvsNumber) : Option (Option Nat) :=
  find_revision_loop cm.refs commits number cm.heads

/-! ## `cvs_master_patch_vendor_branch` -/

/-- The walk `for (vlast = c; vlast; vlast = vlast->parent) if
(!vlast->parent) break;` to the commit without parent. -/
def chain_root (commits : List CvsCommit) : Nat → Nat → Option Nat
  | 0, _ => none
  | fuel + 1, c =>
    match commits[c]? with
    | none => none
    | some cc =>
      match cc.parent with
      | none => some c
      | some p => chain_root commits fuel p

/-- The name invented for an unnamed vendor branch whose first commit has the
number `n`: `import-` and the number without its last element. -/
def import_name (n : CvsNumber) : Atom :=
  "import-" ++ cvs_number_string n.dropLast

/-- The first loop of `cvs_master_patch_vendor_branch` over the heads; the
result is the arena and `nvendor`. -/
def patch_vendor_loop (commits : List CvsCommit) (trunk : Nat) :
    List Nat → List RevRef → Option Nat → Option (List RevRef × Option Nat)
  | [], refs, nvendor => some (refs, nvendor)
  | v :: rest, refs, nvendor =>
    match refs[v]? with
    | none => none
    | some r =>
      match r.commit with
      | none => patch_vendor_loop commits trunk rest refs nvendor
      | some tip =>
        match commits[tip]? with
        | none => none
        | some tc =>
          if cvs_is_vendor tc.number then
            match r.ref_name with
            | some name =>
              patch_vendor_loop commits trunk rest
                (refs.set v { r with ref_name := some name,
                                     parent := some trunk,
                                     degree := tc.number.length,
                                     number := some tc.number })
                (some v)
            | none =>
              match chain_root commits (commits.length + 1) tip with
              | none => none
              | some vlast =>
                match commits[vlast]? with
                | none => none
                | some vc =>
                  patch_vendor_loop commits trunk rest
                    (refs.set v { r with ref_name := some (import_name vc.number),
                                         parent := some trunk,
                                         degree := tc.number.length,
                                         number := some tc.number })
                    (some v)
          else patch_vendor_loop commits trunk rest refs nvendor

/-- The loop `for (vendor = cm->heads; vendor; vendor = vendor->next) if
(vendor->next == nvendor) vendor->next = nvendor->next;`: it unlinks
`nvendor` unless it is the first head. -/
def unlink_head (nvendor : Nat) : List Nat → List Nat
  | [] => []
  | first :: rest => first :: rest.erase nvendor

/-- The function `cvs_master_patch_vendor_branch`. -/
def cvs_master_patch_vendor_branch (cm : CvsMaster)
    (commits : List CvsCommit) : Option (CvsMaster × List CvsCommit) :=
  match cm.heads with
  | [] => none
  | trunk :: _ =>
    match cm.refs[trunk]? with
    | none => none
    | some t0 =>
      if t0.ref_name ≠ some "master" then none
      else
        match patch_vendor_loop commits trunk cm.heads cm.refs none with
        | none => none
        | some (refs, none) => some ({ cm with refs := refs }, commits)
        | some (refs, some nv) =>
          match refs[trunk]? with
          | none => none
          | some t =>
            match t.commit with
            | none => none
            | some oldtip =>
              match commits[oldtip]? with
              | none => none
              | some oc =>
                match oc.parent with
                | some _ => some ({ cm with refs := refs }, commits)
                | none =>
                  match refs[nv]? with
                  | none => none
                  | some nr =>
                    match nr.commit with
                    | none => none
                    | some ntip =>
                      match commits[ntip]? with
                      | none => none
                      | some nc =>
                        match chain_root commits (commits.length + 1) ntip with
                        | none => none
                        | some vlast =>
                          match commits[vlast]? with
                          | none => none
                          | some vc =>
                            some
                              ({ refs := refs.set trunk
                                   { t with commit := some ntip,
                                            degree := nc.number.length,
                                            number := some nc.number },
                                 heads := unlink_head nv cm.heads },
                               commits.set vlast
                                 { vc with parent := some oldtip })

/-! ## `cvs_master_graft_branches` -/

/-- The walk `for (c = h->commit; c && c->parent; c = c->parent) if (c->tail)
{ c = NULL; break; }` to the last commit of a branch. -/
def graft_root (commits : List CvsCommit) : Nat → Option Nat →
    Option (Option Nat)
  | 0, _ => none
  | _ + 1, none => some none
  | fuel + 1, some c =>
    match commits[c]? with
    | none => none
    | some cc =>
      match cc.parent with
      | none => some (some c)
      | some p =>
        if cc.tail then some none else graft_root commits fuel (some p)

/-- The loop over the versions for the branch root `c`: the first branch
record with the number of `c` sets its parent and tail; the scan goes on to
the next version while `c` has no parent. -/
def graft_versions (cm : CvsMaster) (c : Nat) :
    List CvsVersion → List CvsCommit → Option (List CvsCommit)
  | [], commits => some commits
  | cv :: rest, commits =>
    match commits[c]? with
    | none => none
    | some cc =>
      if cv.branches.any (fun cb => cvs_number_compare cb cc.number == 0) then
        match cvs_master_find_revision cm commits cv.number with
        | none => none
        | some (some k) =>
          some (commits.set c { cc with parent := some k, tail := true })
        | some none =>
          graft_versions cm c rest
            (commits.set c { cc with parent := none, tail := true })
      else
        match cc.parent with
        | some _ => some commits
        | none => graft_versions cm c rest commits

/-- The loop of `cvs_master_graft_branches` over the heads. -/
def graft_loop (cvs : CvsFile) (cm : CvsMaster) (first : Nat) :
    List Nat → List CvsCommit → Option (List CvsCommit)
  | [], commits => some commits
  | h :: rest, commits =>
    if h = first then graft_loop cvs cm first rest commits
    else
      match cm.refs[h]? with
      | none => none
      | some r =>
        if r.tail then graft_loop cvs cm first rest commits
        else
          match graft_root commits (commits.length + 1) r.commit with
          | none => none
          | some none => graft_loop cvs cm first rest commits
          | some (some c) =>
            match graft_versions cm c cvs.versions commits with
            | none => none
            | some commits1 => graft_loop cvs cm first rest commits1

/-- The function `cvs_master_graft_branches`. -/
def cvs_master_graft_branches (cvs : CvsFile) (cm : CvsMaster)
    (commits : List CvsCommit) : Option (List CvsCommit) :=
  match cm.heads with
  | [] => some commits
  | first :: _ => graft_loop cvs cm first cm.heads commits

/-! ## `cvs_master_find_branch` -/

/-- The inner loop of `cvs_master_find_branch`: the first head whose number
is on the branch of `k`. -/
def find_branch_heads (refs : List RevRef) (k : CvsNumber) :
    List Nat → Option (Option Nat)
  | [] => some none
  | h :: rest =>
    match refs[h]? with
    | none => none
    | some r =>
      match r.number with
      | none => none
      | some hn =>
        if cvs_same_branch hn k then some (some h)
        else find_branch_heads refs k rest

/-- The loop `while (n.c >= 2)` of `cvs_master_find_branch`, two elements
dropped per round; the first argument counts the rounds left. -/
def find_branch_loop (cm : CvsMaster) : Nat → CvsNumber → Option (Option Nat)
  | 0, _ => some none
  | rounds + 1, n =>
    match find_branch_heads cm.refs n cm.heads with
    | none => none
    | some (some h) => some (some h)
    | some none => find_branch_loop cm rounds (n.take (n.length - 2))

/-- The function `cvs_master_find_branch`. -/
def cvs_master_find_branch (cm : CvsMaster) (number : CvsNumber) :
    Option (Option Nat) :=
  find_branch_loop cm (number.length / 2) number

/-! ## `cvs_master_set_refs` -/

/-- The search of the symbol loop for the first head whose tip commit is on
the branch of the symbol. -/
def find_symbol_head (refs : List RevRef) (commits : List CvsCommit)
    (number : CvsNumber) : List Nat → Option (Option Nat)
  | [] => some none
  | h :: rest =>
    match refs[h]? with
    | none => none
    | some r =>
      match r.commit with
      | none => none
      | some tip =>
        match commits[tip]? with
        | none => none
        | some tc =>
          if cvs_same_branch tc.number number then some (some h)
          else find_symbol_head refs commits number rest

/-- The loop `while (n.c >= 4)` of the symbol loop, two elements dropped per
round before each lookup; the first argument counts the rounds left. -/
def find_branch_point (cm : CvsMaster) (commits : List CvsCommit) :
    Nat → CvsNumber → Option (Option Nat)
  | 0, _ => some none
  | rounds + 1, n =>
    match cvs_master_find_revision cm commits (n.take (n.length - 2)) with
    | none => none
    | some (some c) => some (some c)
    | some none => find_branch_point cm commits rounds (n.take (n.length - 2))

/-- Storing `number` in the head `h`. -/
def set_head_number (cm : CvsMaster) (h : Nat) (number : CvsNumber) :
    Option CvsMaster :=
  match cm.refs[h]? with
  | none => none
  | some r => some { cm with refs := cm.refs.set h { r with number := some number } }

/-- One round of the symbol loop of `cvs_master_set_refs`.  A symbol that is
not a head symbol is handed to `tag_commit`, which leaves the graph alone. -/
def set_refs_symbol (commits : List CvsCommit) (cm : CvsMaster)
    (s : CvsSymbol) : Option CvsMaster :=
  if cvs_is_head s.number then
    match find_symbol_head cm.refs commits s.number cm.heads with
    | none => none
    | some (some h) =>
      match cm.refs[h]? with
      | none => none
      | some r =>
        match r.ref_name with
        | none =>
          set_head_number
            { cm with refs := (cm.refs.set h
                { r with ref_name := some s.symbol_name,
                         degree := cvs_number_degree s.number }) }
            h s.number
        | some _ =>
          match rev_list_add_head cm r.commit (some s.symbol_name)
              (cvs_number_degree s.number) with
          | (cm1, h1) => set_head_number cm1 h1 s.number
    | some none =>
      match find_branch_point cm commits ((s.number.length - 2) / 2)
          s.number with
      | none => none
      | some none => some cm
      | some (some c) =>
        match rev_list_add_head cm (some c) (some s.symbol_name)
            (cvs_number_degree s.number) with
        | (cm1, h1) => set_head_number cm1 h1 s.number
  else
    match cvs_master_find_revision cm commits s.number with
    | none => none
    | some _ => some cm

/-- The symbol loop of `cvs_master_set_refs`. -/
def set_refs_symbols (commits : List CvsCommit) :
    List CvsSymbol → CvsMaster → Option CvsMaster
  | [], cm => some cm
  | s :: rest, cm =>
    match set_refs_symbol commits cm s with
    | none => none
    | some cm1 => set_refs_symbols commits rest cm1

/-- The walk `for (c = h->commit; c; c = c->parent) if (!c->dead) break;` to
the first commit that is not dead. -/
def first_live (commits : List CvsCommit) : Nat → Option Nat →
    Option (Option Nat)
  | 0, _ => none
  | _ + 1, none => some none
  | fuel + 1, some c =>
    match commits[c]? with
    | none => none
    | some cc =>
      if !cc.dead then some (some c) else first_live commits fuel cc.parent

/-- The branch form of a revision number: the last element moves up by one
place and a zero takes the place before it.  There is none for a number of
fewer than two elements. -/
def branch_form (n : CvsNumber) : Option CvsNumber :=
  if n.length < 2 then none
  else some ((n.set (n.length - 1) (n.getD (n.length - 2) 0)).set
    (n.length - 2) 0)

/-- The loop of `cvs_master_set_refs` that numbers the unnamed heads. -/
def fix_unnamed (commits : List CvsCommit) :
    List Nat → List RevRef → Option (List RevRef)
  | [], refs => some refs
  | h :: rest, refs =>
    match refs[h]? with
    | none => none
    | some r =>
      match r.ref_name with
      | some _ => fix_unnamed commits rest refs
      | none =>
        match first_live commits (commits.length + 1) r.commit with
        | none => none
        | some none =>
          match r.commit with
          | none => none
          | some _ =>
            fix_unnamed commits rest
              (refs.set h { r with number := some cvs_zero })
        | some (some c) =>
          match commits[c]? with
          | none => none
          | some cc =>
            match branch_form cc.number with
            | none => none
            | some n =>
              fix_unnamed commits rest
                (refs.set h { r with number := some n,
                                     degree := cvs_number_degree n })

/-- Whether the head `h` carries the zero number. -/
def zero_marked (refs : List RevRef) (h : Nat) : Bool :=
  match refs[h]? with
  | some r => r.number == some cvs_zero
  | none => false

/-- The loop `for (ph = &cm->heads; *ph; ph = &(h2->next)) { h2 = *ph; if
((*ph)->number == zero) *ph = (*ph)->next; }`.  After a head is unlinked
`ph` points into the unlinked head, so the head that follows it stays in the
list whatever its number; the loop then goes on from the head after that. -/
def discard_zero (refs : List RevRef) : List Nat → List Nat
  | [] => []
  | h :: rest =>
    if zero_marked refs h then
      match rest with
      | [] => []
      | x :: rest1 => x :: discard_zero refs rest1
    else h :: discard_zero refs rest

/-- The name made up for an unnamed head with a parent. -/
def unnamed_branch_name (parent_name : Atom) (commitid : Option Atom) : Atom :=
  match commitid with
  | some id => parent_name ++ "-UNNAMED-BRANCH-" ++ id
  | none => parent_name ++ "-UNNAMED-BRANCH"

/-- What `sprintf` and `warn` write for a name under `%s`.  The code hands
over `ref_name` unchecked; for a head without name the C library of the
program writes `(null)` and the run goes on. -/
def printed_name (name : Option Atom) : Atom :=
  match name with
  | some nm => nm
  | none => "(null)"

/-- The naming step at the end of one round of the linking loop: a head with
a parent and without name is named after its parent, whether the parent has
a name or not; the buffers are taken to be large enough. -/
def name_unnamed (commits : List CvsCommit) (cm : CvsMaster) (h : Nat) :
    Option CvsMaster :=
  match cm.refs[h]? with
  | none => none
  | some r =>
    match r.parent, r.ref_name with
    | some ph, none =>
      match cm.refs[ph]? with
      | none => none
      | some pr =>
        match r.commit with
        | none => none
        | some tip =>
          match commits[tip]? with
          | none => none
          | some tc =>
            some { cm with refs := (cm.refs.set h
              { r with ref_name := some (unnamed_branch_name
                  (printed_name pr.ref_name) tc.commitid) }) }
    | _, _ => some cm

/-- One round of the loop of `cvs_master_set_refs` that links the heads in a
tree. -/
def link_head (commits : List CvsCommit) (cm : CvsMaster) (h : Nat) :
    Option CvsMaster :=
  match cm.refs[h]? with
  | none => none
  | some r =>
    if r.number = some cvs_zero then some cm
    else
      let number := r.number.getD cvs_zero
      let cm1 : CvsMaster :=
        { cm with refs := cm.refs.set h { r with number := some number } }
      if 4 ≤ number.length then
        match cvs_master_find_branch cm1 (number.take (number.length - 2)) with
        | none => none
        | some ph =>
          name_unnamed commits
            { cm1 with refs := (cm1.refs.set h
                { r with number := some number, parent := ph }) } h
      else name_unnamed commits cm1 h

/-- The linking loop of `cvs_master_set_refs`. -/
def link_heads (commits : List CvsCommit) :
    List Nat → CvsMaster → Option CvsMaster
  | [], cm => some cm
  | h :: rest, cm =>
    match link_head commits cm h with
    | none => none
    | some cm1 => link_heads commits rest cm1

/-- The function `cvs_master_set_refs`. -/
def cvs_master_set_refs (cvs : CvsFile) (cm : CvsMaster)
    (commits : List CvsCommit) : Option CvsMaster :=
  match set_refs_symbols commits cvs.symbols cm with
  | none => none
  | some cm1 =>
    match fix_unnamed commits cm1.heads cm1.refs with
    | none => none
    | some refs2 =>
      let heads3 := discard_zero refs2 cm1.heads
      link_heads commits heads3 { refs := refs2, heads := heads3 }

/-! ## `cvs_master_sort_heads` -/

/-- The function `cvs_find_symbol` (the list scan): the first symbol with the
given name. -/
def cvs_find_symbol (cvs : CvsFile) (name : Option Atom) : Option CvsSymbol :=
  match name with
  | none => none
  | some nm => cvs.symbols.find? (fun s => s.symbol_name == nm)

/-- The function `rev_ref_compare` on the names of two heads. -/
def rev_ref_compare_names (cvs : CvsFile) (n1 n2 : Option Atom) : Int :=
  match cvs_find_symbol cvs n1, cvs_find_symbol cvs n2 with
  | none, none => 0
  | none, some _ => -1
  | some _, none => 1
  | some s1, some s2 => cvs_number_compare s1.number s2.number

/-- The function `rev_ref_compare` on two heads of the arena. -/
def rev_ref_compare (cvs : CvsFile) (refs : List RevRef) (r1 r2 : Nat) : Int :=
  rev_ref_compare_names cvs ((refs[r1]?).bind RevRef.ref_name)
    ((refs[r2]?).bind RevRef.ref_name)

/-- The merge `while (psize || (qsize && q))` of a run `p` with the run `q`
that follows it; an element of `q` goes first only when the head of `p`
compares greater.  The first argument bounds the rounds by the number of
elements. -/
def merge_runs (cvs : CvsFile) (refs : List RevRef) :
    Nat → List Nat → List Nat → List Nat
  | 0, _, _ => []
  | _ + 1, [], [] => []
  | fuel + 1, [], q :: qs => q :: merge_runs cvs refs fuel [] qs
  | fuel + 1, p :: ps, [] => p :: merge_runs cvs refs fuel ps []
  | fuel + 1, p :: ps, q :: qs =>
    if rev_ref_compare cvs refs p q > 0 then
      q :: merge_runs cvs refs fuel (p :: ps) qs
    else p :: merge_runs cvs refs fuel ps (q :: qs)

/-- One pass `while (p)` over the list with run width `k`: the merged list
and `passmerges`.  The run `p` takes `k` elements but never the last one of
the list (`if (!q->next) break`), the run `q` the up to `k` elements after
it.  The first argument bounds the merges by the number of elements. -/
def merge_pass (cvs : CvsFile) (refs : List RevRef) (k : Nat) :
    Nat → List Nat → List Nat × Nat
  | 0, _ => ([], 0)
  | _ + 1, [] => ([], 0)
  | fuel + 1, x :: xs =>
    let psize := min k xs.length
    let q := (x :: xs).drop psize
    match merge_pass cvs refs k fuel (q.drop k) with
    | (l, passmerges) =>
      (merge_runs cvs refs (psize + (q.take k).length) ((x :: xs).take psize)
         (q.take k) ++ l,
       passmerges + 1)

/-- The outer loop `for (;;)` of the sort: passes with doubling run width
until a pass makes at most one merge. -/
def sort_loop (cvs : CvsFile) (refs : List RevRef) :
    Nat → Nat → List Nat → Option (List Nat)
  | 0, _, _ => none
  | fuel + 1, k, p =>
    match merge_pass cvs refs k p.length p with
    | (l, passmerges) =>
      if passmerges ≤ 1 then some l else sort_loop cvs refs fuel (2 * k) l

/-- The function `cvs_master_sort_heads`. -/
def cvs_master_sort_heads (cvs : CvsFile) (cm : CvsMaster) :
    Option CvsMaster :=
  match sort_loop cvs cm.refs (cm.heads.length + 1) 1 cm.heads with
  | none => none
  | some l => some { cm with heads := l }

/-! ## `rev_list_set_tail` -/

/-- The commits met from `c` along `parent`, `c` first. -/
def chain (commits : List CvsCommit) : Nat → Option Nat → List Nat
  | 0, _ => []
  | _ + 1, none => []
  | fuel + 1, some c =>
    c :: chain commits fuel ((commits[c]?).bind CvsCommit.parent)

/-- The first commit of a chain whose parent lies among `other`. -/
def boundary (commits : List CvsCommit) (other : List Nat) :
    List Nat → Option Nat
  | [] => none
  | c :: rest =>
    match (commits[c]?).bind CvsCommit.parent with
    | none => none
    | some p => if p ∈ other then some c else boundary commits other rest

/-- Setting the tail flag of a commit. -/
def set_commit_tail (commits : List CvsCommit) (c : Nat) : List CvsCommit :=
  match commits[c]? with
  | none => commits
  | some cc => commits.set c { cc with tail := true }

/-- The loop of `rev_list_set_tail` over the heads. -/
def set_tail_loop (refs : List RevRef) :
    List Nat → List CvsCommit → List CvsCommit
  | [], commits => commits
  | h :: rest, commits =>
    match (refs[h]?).bind RevRef.parent with
    | none => set_tail_loop refs rest commits
    | some ph =>
      match boundary commits
          (chain commits (commits.length + 1)
            ((refs[ph]?).bind RevRef.commit))
          (chain commits (commits.length + 1)
            ((refs[h]?).bind RevRef.commit)) with
      | none => set_tail_loop refs rest commits
      | some c => set_tail_loop refs rest (set_commit_tail commits c)

/-- Modelled from the spec: `rev_list_set_tail`, which finalises tails: for
any head whose parent's chain holds the commit under the root of the head's
own part of its chain, the link across that boundary is marked as a tail
edge. -/
def rev_list_set_tail (cm : CvsMaster) (commits : List CvsCommit) :
    List CvsCommit :=
  set_tail_loop cm.refs cm.heads commits

/-! ## `fileop_name`, `dir_name` and `build_rev_master` -/

/-- The size of the path buffers (`PATH_MAX` of `limits.h`). -/
def PATH_MAX : Nat := 4096

/-- The function `fileop_name`.  A string is a sequence of bytes, one `Char`
each.  When the last ten bytes are `.cvsignore` the path is copied into a
buffer of `PATH_MAX` bytes and three bytes are overwritten; the copy is a
terminated string only when the path is shorter than `PATH_MAX - 1`. -/
def fileop_name (rectified : Atom) : Option Atom :=
  let rlen := rectified.length
  if 10 ≤ rlen ∧ rectified.data.drop (rlen - 10) = ".cvsignore".data then
    if rlen < PATH_MAX - 1 then
      some (String.mk (((rectified.data.set (rlen - 9) 'g').set (rlen - 8)
        'i').set (rlen - 7) 't'))
    else none
  else some rectified

/-- The position of the last `/` of a path (`strrchr`). -/
def last_slash : List Char → Option Nat
  | [] => none
  | c :: rest =>
    match last_slash rest with
    | some i => some (i + 1)
    | none => if c = '/' then some 0 else none

/-- The function `dir_name`: the path up to its last `/`, copied through a
buffer of `PATH_MAX` bytes, or the empty atom. -/
def dir_name (filename : Atom) : Option Atom :=
  match last_slash filename.data with
  | some i =>
    if i < PATH_MAX then some (String.mk (filename.data.take i)) else none
  | none => some ""

/-- The function `build_rev_master`.  The directory record that `atom_dir`
interns is stood for by its name. -/
def build_rev_master (cvs : CvsFile) (master : RevMaster) :
    Option RevMaster :=
  match fileop_name cvs.export_name, dir_name cvs.export_name with
  | some f, some d =>
    some { master with name := cvs.export_name, fileop_name := f, dir := d,
                       mode := cvs.mode, commits := [] }
  | _, _ => none

/-! ## `cvs_master_digest` -/

/-- The loop that locates the first revision on the trunk. -/
def find_ctrunk : List CvsVersion → Option CvsVersion → Option CvsVersion
  | [], ctrunk => ctrunk
  | cv :: rest, ctrunk =>
    if cvs_is_trunk cv.number then
      match ctrunk with
      | none => find_ctrunk rest (some cv)
      | some ct =>
        if cvs_number_compare cv.number ct.number < 0 then
          find_ctrunk rest (some cv)
        else find_ctrunk rest (some ct)
    else find_ctrunk rest ctrunk

/-- The number the trunk is built from. -/
def trunk_number (cvs : CvsFile) : CvsNumber :=
  match find_ctrunk cvs.versions none with
  | some ct => ct.number
  | none => lex_number_1_1

/-- The inner loop over the branch records of one version: each branch is
built and registered as an unnamed head, whether it has a commit or not. -/
def build_version_branches (cvs : CvsFile) :
    List CvsNumber → CvsMaster → RevMaster → Option (CvsMaster × RevMaster)
  | [], cm, master => some (cm, master)
  | cb :: rest, cm, master =>
    match cvs_master_branch_build cvs master cb with
    | none => none
    | some (master1, branch) =>
      build_version_branches cvs rest (rev_list_add_head cm branch none 0).1
        master1

/-- The loop over the versions that builds every branch. -/
def build_all_branches (cvs : CvsFile) :
    List CvsVersion → CvsMaster → RevMaster → Option (CvsMaster × RevMaster)
  | [], cm, master => some (cm, master)
  | cv :: rest, cm, master =>
    match build_version_branches cvs cv.branches cm master with
    | none => none
    | some (cm1, master1) => build_all_branches cvs rest cm1 master1

/-- What `cvs_master_digest` leaves: the returned commit (`none` for `NULL`),
the head list and the master. -/
structure Digest where
  ret : Option Nat
  cm : CvsMaster
  master : RevMaster
deriving DecidableEq, Repr

/-- The first half of `cvs_master_digest`, up to the point where every branch
is built and registered; `none` in the first component of the result is the
early `return NULL`. -/
def digest_build (cvs : CvsFile) (cm : CvsMaster) (master : RevMaster) :
    Option (Option Nat × CvsMaster × RevMaster) :=
  match build_rev_master cvs master with
  | none => none
  | some master0 =>
    match cvs_master_branch_build cvs master0 (trunk_number cvs) with
    | none => none
    | some (master1, none) => some (none, cm, master1)
    | some (master1, some trunk) =>
      match rev_list_add_head cm (some trunk) (some "master") 2 with
      | (cm1, t) =>
        match set_head_number cm1 t (trunk_number cvs) with
        | none => none
        | some cm2 =>
          match build_all_branches cvs cvs.versions cm2 master1 with
          | none => none
          | some (cm3, master3) => some (some trunk, cm3, master3)

/-- The second half of `cvs_master_digest`: the four passes and
`rev_list_set_tail`. -/
def digest_passes (cvs : CvsFile) (cm : CvsMaster) (commits : List CvsCommit) :
    Option (CvsMaster × List CvsCommit) :=
  match cvs_master_patch_vendor_branch cm commits with
  | none => none
  | some (cm1, commits1) =>
    match cvs_master_graft_branches cvs cm1 commits1 with
    | none => none
    | some commits2 =>
      match cvs_master_set_refs cvs cm1 commits2 with
      | none => none
      | some cm3 =>
        match cvs_master_sort_heads cvs cm3 with
        | none => none
        | some cm4 => some (cm4, rev_list_set_tail cm4 commits2)

/-- The function `cvs_master_digest`. -/
def cvs_master_digest (cvs : CvsFile) (cm : CvsMaster) (master : RevMaster) :
    Option Digest :=
  match digest_build cvs cm master with
  | none => none
  | some (none, cm1, master1) =>
    some { ret := none, cm := cm1, master := master1 }
  | some (some trunk, cm1, master1) =>
    match digest_passes cvs cm1 master1.commits with
    | none => none
    | some (cm2, commits2) =>
      some { ret := some trunk, cm := cm2,
             master := { master1 with commits := commits2 } }

/-! ## Reachability along `parent` -/

/-- The commit `b` is met when following `parent` links from `a` (`a` itself
included). -/
inductive Reach (commits : List CvsCommit) : Nat → Nat → Prop
  | refl (a : Nat) : Reach commits a a
  | step (a p b : Nat) (ca : CvsCommit) : commits[a]? = some ca →
      ca.parent = some p → Reach commits p b → Reach commits a b

/-- Above slot `n0` every parent link points to a lower slot that is still at
or above `n0`. -/
def DownFrom (n0 : Nat) (commits : List CvsCommit) : Prop :=
  ∀ i ci p, n0 ≤ i → commits[i]? = some ci → ci.parent = some p →
    n0 ≤ p ∧ p < i

/-- Forgetting the date of a commit. -/
def erase_date (c : CvsCommit) : CvsCommit := { c with date := 0 }

/-- The slab `cs1` differs from `cs` in dates only. -/
def DatesOnly (cs cs1 : List CvsCommit) : Prop :=
  cs1.map erase_date = cs.map erase_date

/-! ## Concrete masters -/

/-- A version record without author and commit id. -/
def version_at (number : CvsNumber) (date : Nat) (dead : Bool)
    (branches : List CvsNumber) : CvsVersion :=
  { number := number, date := date, author := none, commitid := none,
    dead := dead, branches := branches }

/-- The delta-list node of a version, without a patch. -/
def node_of (v : CvsVersion) : Node := { version := some v, patch := none }

/-- A fresh `cvs_master`. -/
def empty_cm : CvsMaster := { refs := [], heads := [] }

/-- A fresh `rev_master`. -/
def empty_master : RevMaster :=
  { name := "", fileop_name := "", dir := "", mode := 0, commits := [] }

/-- A trunk of three revisions, `1.1` at 10, `1.2` at 30 and `1.3` at 20, in
the order of an RCS file, newest first; no branches, no symbols. -/
def skew_file : CvsFile :=
  { export_name := "skew", mode := 0,
    versions := [version_at [1, 3] 20 false [], version_at [1, 2] 30 false [],
                 version_at [1, 1] 10 false []],
    symbols := [],
    find_version := fun key =>
      if key = [1, -1] then
        [node_of (version_at [1, 1] 10 false []),
         node_of (version_at [1, 2] 30 false []),
         node_of (version_at [1, 3] 20 false [])]
      else [] }

/-- The commit of a version as the builder leaves it, with the given date
and parent. -/
def commit_at (number : CvsNumber) (date : Nat) (parent : Option Nat) :
    CvsCommit :=
  { number := number, date := date, commitid := none, author := none,
    log := none, dead := false, tail := false, tailed := false, refcount := 0,
    serial := 0, parent := parent }

/-- The slab of `skew_file` after its trunk is built. -/
def skew_built : RevMaster :=
  { empty_master with
    commits := [commit_at [1, 1] 10 none, commit_at [1, 2] 20 (some 0),
                commit_at [1, 3] 20 (some 1)] }

/-- Every parent link of the slab is date-ordered. -/
def Mono (cs : List CvsCommit) : Prop :=
  ∀ (i : Nat) (ci : CvsCommit) (p : Nat), cs[i]? = some ci →
    ci.parent = some p → ∃ pc, cs[p]? = some pc ∧ pc.date ≤ ci.date

/-- Forgetting the parent link and the tail flag of a commit. -/
def erase_link (c : CvsCommit) : CvsCommit :=
  { c with parent := none, tail := false }

/-- The slab `cs1` differs from `cs` in parent links and tail flags only, and
keeps every parent link `cs` has. -/
def Grows (cs cs1 : List CvsCommit) : Prop :=
  cs1.map erase_link = cs.map erase_link ∧
  ∀ (i : Nat) (ci ci1 : CvsCommit) (p : Nat), cs[i]? = some ci →
    cs1[i]? = some ci1 → ci.parent = some p → ci1.parent = some p

/-- The links crossed when walking from a tip along `parent` and stopping at
a commit whose tail flag is set, as (child, parent) pairs. -/
def branch_links (commits : List CvsCommit) : Nat → Option Nat →
    List (Nat × Nat)
  | 0, _ => []
  | _ + 1, none => []
  | fuel + 1, some c =>
    match commits[c]? with
    | none => []
    | some cc =>
      if cc.tail then []
      else
        match cc.parent with
        | none => []
        | some p => (c, p) :: branch_links commits fuel (some p)

/-- Whether the parent of a link is dated no later than the child. -/
def link_ordered (commits : List CvsCommit) (l : Nat × Nat) : Bool :=
  match commits[l.1]?, commits[l.2]? with
  | some c, some p => decide (p.date ≤ c.date)
  | _, _ => false

/-- Whether along the branch of every head the dates do not decrease from
root to tip. -/
def heads_date_ordered (d : Digest) : Bool :=
  d.cm.heads.all fun h =>
    match d.cm.refs[h]? with
    | none => false
    | some r =>
      (branch_links d.master.commits (d.master.commits.length + 1)
        r.commit).all (link_ordered d.master.commits)

/-- A trunk `1.1` dated 100 with the vendor branch `1.1.1.1` dated 50 and
`1.1.1.2` dated 60; no `1.2`, no symbols. -/
def vendor_early_file : CvsFile :=
  { export_name := "vendor", mode := 0,
    versions := [version_at [1, 1] 100 false [[1, 1, 1, 1]],
                 version_at [1, 1, 1, 1] 50 false [],
                 version_at [1, 1, 1, 2] 60 false []],
    symbols := [],
    find_version := fun key =>
      if key = [1, -1] then
        [node_of (version_at [1, 1] 100 false [[1, 1, 1, 1]])]
      else if key = [1, 1, 1, -1] then
        [node_of (version_at [1, 1, 1, 1] 50 false []),
         node_of (version_at [1, 1, 1, 2] 60 false [])]
      else [] }

/-- The tip commit of the head `h` of the arena. -/
def head_commit (refs : List RevRef) (h : Nat) : Option Nat :=
  (refs[h]?).bind RevRef.commit

/-- Whether `h` is a vendor head: its tip commit has a vendor number. -/
def is_vendor_head (refs : List RevRef) (commits : List CvsCommit) (h : Nat) :
    Bool :=
  match head_commit refs h with
  | none => false
  | some tip =>
    match commits[tip]? with
    | none => false
    | some tc => cvs_is_vendor tc.number

/-- The last vendor head of a list, or `acc` when there is none. -/
def last_vendor_head (refs : List RevRef) (commits : List CvsCommit) :
    List Nat → Option Nat → Option Nat
  | [], acc => acc
  | h :: rest, acc =>
    last_vendor_head refs commits rest
      (if is_vendor_head refs commits h then some h else acc)

/-- A head as `rev_list_add_head` leaves it, with a number. -/
def head_at (commit : Nat) (name : Option Atom) (number : Option CvsNumber)
    (degree : Int) : RevRef :=
  { commit := some commit, ref_name := name, number := number,
    degree := degree, parent := none, tail := false }

/-- The heads of `vendor_early_file` when all branches are built. -/
def vendor_early_cm : CvsMaster :=
  { refs := [head_at 0 (some "master") (some [1, 1]) 2, head_at 2 none none 0],
    heads := [0, 1] }

/-- The slab of `vendor_early_file` when all branches are built. -/
def vendor_early_commits : List CvsCommit :=
  [commit_at [1, 1] 100 none, commit_at [1, 1, 1, 1] 50 none,
   commit_at [1, 1, 1, 2] 60 (some 1)]

/-- The names of the heads of the finished list, in list order. -/
def head_names (d : Digest) : List (Option Atom) :=
  d.cm.heads.map fun h => (d.cm.refs[h]?).bind RevRef.ref_name

/-- The numbers of the heads of the finished list, in list order. -/
def head_numbers (d : Digest) : List (Option CvsNumber) :=
  d.cm.heads.map fun h => (d.cm.refs[h]?).bind RevRef.number

/-- The parent heads of the heads of the finished list, in list order. -/
def head_parents (d : Digest) : List (Option Nat) :=
  d.cm.heads.map fun h => (d.cm.refs[h]?).bind RevRef.parent

/-- A live trunk `1.1` with the branch `1.1.2.1`, `1.1.2.2`, both dead; no
symbols. -/
def all_dead_file : CvsFile :=
  { export_name := "dead", mode := 0,
    versions := [version_at [1, 1] 10 false [[1, 1, 2, 1]],
                 version_at [1, 1, 2, 1] 20 true [],
                 version_at [1, 1, 2, 2] 30 true []],
    symbols := [],
    find_version := fun key =>
      if key = [1, -1] then
        [node_of (version_at [1, 1] 10 false [[1, 1, 2, 1]])]
      else if key = [1, 1, 2, -1] then
        [node_of (version_at [1, 1, 2, 1] 20 true []),
         node_of (version_at [1, 1, 2, 2] 30 true [])]
      else [] }

/-- A trunk `1.1` with the vendor branch `1.1.1.1` and a live, untagged
branch `1.1.2.1`; no `1.2`, no symbols. -/
def orphan_file : CvsFile :=
  { export_name := "orphan", mode := 0,
    versions := [version_at [1, 1] 10 false [[1, 1, 1, 1], [1, 1, 2, 1]],
                 version_at [1, 1, 1, 1] 10 false [],
                 version_at [1, 1, 2, 1] 30 false []],
    symbols := [],
    find_version := fun key =>
      if key = [1, -1] then
        [node_of (version_at [1, 1] 10 false [[1, 1, 1, 1], [1, 1, 2, 1]])]
      else if key = [1, 1, 1, -1] then
        [node_of (version_at [1, 1, 1, 1] 10 false [])]
      else if key = [1, 1, 2, -1] then
        [node_of (version_at [1, 1, 2, 1] 30 false [])]
      else [] }

/-- A trunk `1.1`, `1.2` with the vendor branch `1.1.1.1` and one symbol, the
tag `master` on `1.1`. -/
def master_tag_file : CvsFile :=
  { export_name := "tag", mode := 0,
    versions := [version_at [1, 2] 20 false [],
                 version_at [1, 1] 10 false [[1, 1, 1, 1]],
                 version_at [1, 1, 1, 1] 10 false []],
    symbols := [{ symbol_name := "master", number := [1, 1] }],
    find_version := fun key =>
      if key = [1, -1] then
        [node_of (version_at [1, 1] 10 false [[1, 1, 1, 1]]),
         node_of (version_at [1, 2] 20 false [])]
      else if key = [1, 1, 1, -1] then
        [node_of (version_at [1, 1, 1, 1] 10 false [])]
      else [] }

/-- A trunk `1.1`, `1.2`, the branch `1.2.2.1` tagged `BR = 1.2.0.2`, and an
untagged branch `1.2.2.1.2.1` off it; versions in the order of an RCS file. -/
def nested_file : CvsFile :=
  { export_name := "nested", mode := 0,
    versions := [version_at [1, 2] 20 false [[1, 2, 2, 1]],
                 version_at [1, 1] 10 false [],
                 version_at [1, 2, 2, 1] 30 false [[1, 2, 2, 1, 2, 1]],
                 version_at [1, 2, 2, 1, 2, 1] 40 false []],
    symbols := [{ symbol_name := "BR", number := [1, 2, 0, 2] }],
    find_version := fun key =>
      if key = [1, -1] then
        [node_of (version_at [1, 1] 10 false []),
         node_of (version_at [1, 2] 20 false [[1, 2, 2, 1]])]
      else if key = [1, 2, 2, -1] then
        [node_of (version_at [1, 2, 2, 1] 30 false [[1, 2, 2, 1, 2, 1]])]
      else if key = [1, 2, 2, 1, 2, -1] then
        [node_of (version_at [1, 2, 2, 1, 2, 1] 40 false [])]
      else [] }

/-- A trunk `1.1` whose branch record `1.1.2.1` has no delta. -/
def missing_branch_file : CvsFile :=
  { export_name := "missing", mode := 0,
    versions := [version_at [1, 1] 10 false [[1, 1, 2, 1]]],
    symbols := [],
    find_version := fun key =>
      if key = [1, -1] then
        [node_of (version_at [1, 1] 10 false [[1, 1, 2, 1]])]
      else [] }

/-- The head registered for the trunk: `master`, degree 2, numbered with the
trunk number. -/
def trunk_head (cvs : CvsFile) (t : Nat) : RevRef :=
  { new_head (some t) (some "master") 2 with number := some (trunk_number cvs) }

/-- The names a head can be given: the name of a symbol, the name invented
for a vendor branch, or the name made up for an unnamed branch. -/
def MadeName (cvs : CvsFile) (nm : Atom) : Prop :=
  (∃ s ∈ cvs.symbols, s.symbol_name = nm) ∨ (∃ n, nm = import_name n) ∨
  (∃ pn id, nm = unnamed_branch_name pn id)

/-- A head with a parent head has a name. -/
def ParentNamed (r : RevRef) : Prop := r.parent ≠ none → r.ref_name ≠ none

/-- A head carries a number other than the zero revision. -/
def Numbered (r : RevRef) : Prop := ∃ n, r.number = some n ∧ n ≠ cvs_zero

/-- What the passes may do to a head: a name is never changed, an unnamed head
may get a made name; a head with a parent is named afterwards if that held
before; a named head with a proper number keeps a proper number. -/
def RefChange (cvs : CvsFile) (r r1 : RevRef) : Prop :=
  (r1.ref_name = r.ref_name ∨
    (r.ref_name = none ∧ ∃ nm, r1.ref_name = some nm ∧ MadeName cvs nm)) ∧
  (ParentNamed r → ParentNamed r1) ∧
  (r.ref_name ≠ none → Numbered r → Numbered r1)

/-- A head allocated by a pass, as it is or changed later: named if it has a
parent, and without a name or with a made one. -/
def FreshRef (cvs : CvsFile) (r1 : RevRef) : Prop :=
  ParentNamed r1 ∧
  (r1.ref_name = none ∨ ∃ nm, r1.ref_name = some nm ∧ MadeName cvs nm)

/-- The arena `refs1` comes from `refs` by allowed changes and allocations. -/
def ArenaStep (cvs : CvsFile) (refs refs1 : List RevRef) : Prop :=
  refs.length ≤ refs1.length ∧
  ∀ (i : Nat) (r1 : RevRef), refs1[i]? = some r1 →
    (∃ r, refs[i]? = some r ∧ RefChange cvs r r1) ∨
    (refs.length ≤ i ∧ FreshRef cvs r1)

/-- The digest of a master from a fresh head list and master record, or an
empty record when there is none. -/
def digest_or_empty (cvs : CvsFile) : Digest :=
  (cvs_master_digest cvs empty_cm empty_master).getD
    { ret := none, cm := empty_cm, master := empty_master }

/-- Every parent link of a commit without tail flag points to a lower slot. -/
def TailDown (cs : List CvsCommit) : Prop :=
  ∀ (i : Nat) (ci : CvsCommit) (p : Nat), cs[i]? = some ci → ci.tail = false →
    ci.parent = some p → p < i

/-- The commit `b` is met when walking from `a` along `parent` without
crossing a commit whose tail flag is set (the walk of
`cvs_master_find_revision`). -/
inductive FWalk (cs : List CvsCommit) : Nat → Nat → Prop
  | refl (a : Nat) : FWalk cs a a
  | step (a p b : Nat) (ca : CvsCommit) : cs[a]? = some ca →
      ca.tail = false → ca.parent = some p → FWalk cs p b → FWalk cs a b

/-- The slab `cs1` comes from `cs` by grafting roots: a commit is as it was,
or it had no parent and now has its tail flag set and some parent or none. -/
def Grafted (cs cs1 : List CvsCommit) : Prop :=
  cs1.length = cs.length ∧
  ∀ (i : Nat) (ci : CvsCommit), cs[i]? = some ci →
    cs1[i]? = some ci ∨
    (ci.parent = none ∧
      ∃ q, cs1[i]? = some { ci with parent := q, tail := true })

/-- The heads are allocated, carry no tail flag, and their tips lie in the
slab. -/
def HeadsValid (cm : CvsMaster) (n : Nat) : Prop :=
  ∀ g ∈ cm.heads, ∃ r, cm.refs[g]? = some r ∧ r.tail = false ∧
    ∀ tip, r.commit = some tip → tip < n

/-- A trunk `1.1`, `1.2` and the branch `1.2.2.1`, `1.2.2.2` recorded on
`1.2`; no symbols; versions in the order of an RCS file. -/
def grafted_file : CvsFile :=
  { export_name := "grafted", mode := 0,
    versions := [version_at [1, 2] 20 false [[1, 2, 2, 1]],
                 version_at [1, 1] 10 false [],
                 version_at [1, 2, 2, 1] 30 false [],
                 version_at [1, 2, 2, 2] 40 false []],
    symbols := [],
    find_version := fun key =>
      if key = [1, -1] then
        [node_of (version_at [1, 1] 10 false []),
         node_of (version_at [1, 2] 20 false [[1, 2, 2, 1]])]
      else if key = [1, 2, 2, -1] then
        [node_of (version_at [1, 2, 2, 1] 30 false []),
         node_of (version_at [1, 2, 2, 2] 40 false [])]
      else [] }

/-- The heads of `grafted_file` when all branches are built. -/
def grafted_cm : CvsMaster :=
  { refs := [head_at 1 (some "master") (some [1, 1]) 2, head_at 3 none none 0],
    heads := [0, 1] }

/-- The slab of `grafted_file` when all branches are built. -/
def grafted_commits : List CvsCommit :=
  [commit_at [1, 1] 10 none, commit_at [1, 2] 20 (some 0),
   commit_at [1, 2, 2, 1] 30 none, commit_at [1, 2, 2, 2] 40 (some 2)]

/-- A dead trunk `1.1` with the two branches `1.1.2.1` and `1.1.4.1`, both dead;
no symbols. -/
def dead_pair_file : CvsFile :=
  { export_name := "pair", mode := 0,
    versions := [version_at [1, 1] 10 true [[1, 1, 2, 1], [1, 1, 4, 1]],
                 version_at [1, 1, 2, 1] 20 true [],
                 version_at [1, 1, 4, 1] 30 true []],
    symbols := [],
    find_version := fun key =>
      if key = [1, -1] then
        [node_of (version_at [1, 1] 10 true [[1, 1, 2, 1], [1, 1, 4, 1]])]
      else if key = [1, 1, 2, -1] then
        [node_of (version_at [1, 1, 2, 1] 20 true [])]
      else if key = [1, 1, 4, -1] then
        [node_of (version_at [1, 1, 4, 1] 30 true [])]
      else [] }

/-- The heads of `dead_pair_file` after the loop that numbers the unnamed
heads: both branch heads carry the zero number. -/
def dead_pair_refs : List RevRef :=
  [head_at 0 (some "master") (some [1, 1]) 2,
   head_at 1 none (some cvs_zero) 0, head_at 2 none (some cvs_zero) 0]

/-- A master whose version `1.2` carries the branch record `1.2.2.1` but is not
on the delta list of the trunk, which holds `1.1` only. -/
def lost_point_file : CvsFile :=
  { export_name := "lost", mode := 0,
    versions := [version_at [1, 2] 20 false [[1, 2, 2, 1]],
                 version_at [1, 1] 10 false [],
                 version_at [1, 2, 2, 1] 30 false []],
    symbols := [],
    find_version := fun key =>
      if key = [1, -1] then
        [node_of (version_at [1, 1] 10 false [])]
      else if key = [1, 2, 2, -1] then
        [node_of (version_at [1, 2, 2, 1] 30 false [])]
      else [] }

/-- The heads of `lost_point_file` when all branches are built. -/
def lost_point_cm : CvsMaster :=
  { refs := [head_at 0 (some "master") (some [1, 1]) 2, head_at 1 none none 0],
    heads := [0, 1] }

/-- The slab of `lost_point_file` when all branches are built. -/
def lost_point_commits : List CvsCommit :=
  [commit_at [1, 1] 10 none, commit_at [1, 2, 2, 1] 30 none]

/-- Every commit with its tail flag set has a parent in the slab. -/
def TailParent (cs : List CvsCommit) : Prop :=
  ∀ (i : Nat) (ci : CvsCommit), cs[i]? = some ci → ci.tail = true →
    ∃ p pc, ci.parent = some p ∧ cs[p]? = some pc

/-! ## `atom_dir` -/

/-- A `master_dir`: the name of the directory and its parent directory, an
index into the arena of directory records. -/
structure MasterDir where
  name : Atom
  parent : Option Nat
deriving DecidableEq, Repr

/-- The number of hash buckets, `DIR_BUCKETS`. -/
def DIR_BUCKETS : Nat := 24593

/-- The table `dir_buckets`: the arena of the records allocated so far (a
`master_dir *` is an index into it) and for each bucket its chain, the
records linked through `next` in list order. -/
structure DirTable where
  dirs : List MasterDir
  buckets : Nat → List Nat

/-- The table before the first call: every bucket is empty. -/
def empty_table : DirTable := { dirs := [], buckets := fun _ => [] }

/-- The scan `while ((b = *head))` of one chain for a record with the name
`dirname`; atoms are compared by pointer, which is equality of the strings. -/
def find_dir (dirs : List MasterDir) (dirname : Atom) :
    List Nat → Option (Option Nat)
  | [] => some none
  | b :: rest =>
    match dirs[b]? with
    | none => none
    | some d =>
      if d.name = dirname then some (some b) else find_dir dirs dirname rest

/-- The function `atom_dir` with a bound on the depth of its recursion.  The
macro `HASH_VALUE` is the parameter `hash`.  On a miss the new record is
linked at the end of its chain before the parent directory is looked up; its
`parent` field is written when that call has returned. -/
def atom_dir_fuel (hash : Atom → Nat) :
    Nat → DirTable → Atom → Option (DirTable × Nat)
  | 0, _, _ => none
  | fuel + 1, t, dirname =>
    match find_dir t.dirs dirname (t.buckets (hash dirname % DIR_BUCKETS)) with
    | none => none
    | some (some b) => some (t, b)
    | some none =>
      let b := t.dirs.length
      let t1 : DirTable :=
        { dirs := t.dirs ++ [{ name := dirname, parent := none }],
          buckets := fun i =>
            if i = hash dirname % DIR_BUCKETS then t.buckets i ++ [b]
            else t.buckets i }
      if dirname.length > 0 then
        match dir_name dirname with
        | none => none
        | some d =>
          match atom_dir_fuel hash fuel t1 d with
          | none => none
          | some (t2, p) =>
            match t2.dirs[b]? with
            | none => none
            | some bd =>
              some ({ t2 with dirs := t2.dirs.set b { bd with parent := some p } },
                    b)
      else some (t1, b)

/-- The function `atom_dir`: the parent of a name is shorter than the name, so
the recursion is no deeper than the length of the name. -/
def atom_dir (hash : Atom → Nat) (t : DirTable) (dirname : Atom) :
    Option (DirTable × Nat) :=
  atom_dir_fuel hash (dirname.length + 1) t dirname

/-- A sequence of calls of `atom_dir`, with the records they return. -/
def atom_dir_calls (hash : Atom → Nat) :
    List Atom → DirTable → Option (DirTable × List Nat)
  | [], t => some (t, [])
  | n :: rest, t =>
    match atom_dir hash t n with
    | none => none
    | some (t1, r) =>
      match atom_dir_calls hash rest t1 with
      | none => none
      | some (t2, rs) => some (t2, r :: rs)

/-- The record `b` is met when following `parent` links from `a`. -/
inductive DirReach (dirs : List MasterDir) : Nat → Nat → Prop
  | refl (a : Nat) : DirReach dirs a a
  | step (a p b : Nat) (da : MasterDir) : dirs[a]? = some da →
      da.parent = some p → DirReach dirs p b → DirReach dirs a b

/-- The chains hold exactly the records of the arena, each in the bucket of
its name, and no two records have the same name. -/
def TableOk (hash : Atom → Nat) (t : DirTable) : Prop :=
  (∀ (k b : Nat), b ∈ t.buckets k →
    ∃ d, t.dirs[b]? = some d ∧ hash d.name % DIR_BUCKETS = k) ∧
  (∀ (i : Nat) (d : MasterDir), t.dirs[i]? = some d →
    i ∈ t.buckets (hash d.name % DIR_BUCKETS)) ∧
  (∀ (i j : Nat) (di dj : MasterDir), t.dirs[i]? = some di →
    t.dirs[j]? = some dj → di.name = dj.name → i = j)

/-- The record `i` has the parent link it should have: none for the empty
name, and else the record named `dir_name` of its name. -/
def GoodDir (dirs : List MasterDir) (i : Nat) : Prop :=
  ∀ (d : MasterDir), dirs[i]? = some d →
    (d.name = "" → d.parent = none) ∧
    (d.name ≠ "" → ∃ p dp, d.parent = some p ∧ dirs[p]? = some dp ∧
      dir_name d.name = some dp.name)

/-- Every record of the arena has the parent link it should have. -/
def AllGood (t : DirTable) : Prop := ∀ (i : Nat), GoodDir t.dirs i

/-- The order of the sort: `a` may stand before `b`, `rev_ref_compare` of the
two is not positive. -/
@[reducible] def head_le (cvs : CvsFile) (refs : List RevRef) (a b : Nat) : Prop :=
  rev_ref_compare cvs refs a b ≤ 0

/-- The reference sort of the head list: the insertion sort, which is stable,
under `rev_ref_compare`. -/
def reference_sort (cvs : CvsFile) (refs : List RevRef) (heads : List Nat) :
    List Nat :=
  heads.insertionSort (head_le cvs refs)

/-- The list `cur` is what the passes with run width up to `k` make of
`input`: the chunks of `k` elements of `input`, each sorted by the reference
sort. -/
inductive Runs (cvs : CvsFile) (refs : List RevRef) (k : Nat) :
    List Nat → List Nat → Prop
  | nil : Runs cvs refs k [] []
  | last (l : List Nat) : l ≠ [] → l.length ≤ k →
      Runs cvs refs k l (reference_sort cvs refs l)
  | cons (l rest cur : List Nat) : l.length = k → rest ≠ [] →
      Runs cvs refs k rest cur →
      Runs cvs refs k (l ++ rest) (reference_sort cvs refs l ++ cur)

/-- The nodes of a delta list that carry a version record, in the order they
are met, each with the patch of its node. -/
def versioned (nodes : List Node) : List (CvsVersion × Option CvsPatch) :=
  nodes.filterMap fun node => node.version.map fun v => (v, node.patch)

/-- From slot `n0` on the slab is one chain: the commit in slot `n0` has no
parent and every later one has the commit in the slot before it as parent. -/
def Consecutive (n0 : Nat) (cs : List CvsCommit) : Prop :=
  ∀ (i : Nat) (ci : CvsCommit), n0 ≤ i → cs[i]? = some ci →
    ci.parent = if i = n0 then none else some (i - 1)

/-- If the commit in slot `i` is dated later in `cs` than in `cs0`, it has a
parent and a child in the chain from `n0`, it carries the date of its parent,
and the child is dated no earlier. -/
def RaisedOk (n0 : Nat) (cs0 cs : List CvsCommit) (i : Nat) : Prop :=
  ∀ (ci c0 : CvsCommit), cs[i]? = some ci → cs0[i]? = some c0 →
    c0.date < ci.date →
    n0 < i ∧ ∃ gm pm, cs[i + 1]? = some gm ∧ cs[i - 1]? = some pm ∧
      ci.date = pm.date ∧ pm.date ≤ gm.date

/-- A trunk of three revisions, `1.1` at 30, `1.2` at 10 and `1.3` at 40: the
date of `1.2` is the odd one out. -/
def odd_date_file : CvsFile :=
  { export_name := "odd", mode := 0,
    versions := [version_at [1, 3] 40 false [], version_at [1, 2] 10 false [],
                 version_at [1, 1] 30 false []],
    symbols := [],
    find_version := fun key =>
      if key = [1, -1] then
        [node_of (version_at [1, 1] 30 false []),
         node_of (version_at [1, 2] 10 false []),
         node_of (version_at [1, 3] 40 false [])]
      else [] }

/-- The version records of the trunk of `odd_date_file`, in the order of its
delta list. -/
def odd_date_records : List (CvsVersion × Option CvsPatch) :=
  [(version_at [1, 1] 30 false [], none), (version_at [1, 2] 10 false [], none),
   (version_at [1, 3] 40 false [], none)]

/-- The version records of the trunk of `skew_file`, in the order of its delta
list. -/
def skew_records : List (CvsVersion × Option CvsPatch) :=
  [(version_at [1, 1] 10 false [], none), (version_at [1, 2] 30 false [], none),
   (version_at [1, 3] 20 false [], none)]

/-- The version records of the trunk of `grafted_file`, in the order of its
delta list. -/
def grafted_trunk_records : List (CvsVersion × Option CvsPatch) :=
  [(version_at [1, 1] 10 false [], none),
   (version_at [1, 2] 20 false [[1, 2, 2, 1]], none)]

/-- A trunk `1.1` whose branch record `1.1.2.1` has no delta, with the head
symbol `BR = 1.1.0.2` naming that branch. -/
def tipless_branch_file : CvsFile :=
  { export_name := "tipless", mode := 0,
    versions := [version_at [1, 1] 10 false [[1, 1, 2, 1]]],
    symbols := [{ symbol_name := "BR", number := [1, 1, 0, 2] }],
    find_version := fun key =>
      if key = [1, -1] then
        [node_of (version_at [1, 1] 10 false [[1, 1, 2, 1]])]
      else [] }

/-- The master of `tipless_branch_file` when its trunk is built. -/
def tipless_master : RevMaster :=
  { name := "tipless", fileop_name := "tipless", dir := "", mode := 0,
    commits := [commit_at [1, 1] 10 none] }

/-- The heads of `tipless_branch_file` when all branches are built: the trunk
and the head registered for the branch record `1.1.2.1`, whose tip is
`NULL`. -/
def tipless_cm : CvsMaster :=
  { refs := [head_at 0 (some "master") (some [1, 1]) 2, new_head none none 0],
    heads := [0, 1] }

/-- A trunk `1.1` with the vendor branch `1.1.1.1`, a live, untagged branch
`1.1.2.1` and a live, untagged branch `1.1.2.1.2.1` off it; no `1.2`, no
symbols. -/
def orphan_child_file : CvsFile :=
  { export_name := "child", mode := 0,
    versions := [version_at [1, 1] 10 false [[1, 1, 1, 1], [1, 1, 2, 1]],
                 version_at [1, 1, 1, 1] 10 false [],
                 version_at [1, 1, 2, 1] 30 false [[1, 1, 2, 1, 2, 1]],
                 version_at [1, 1, 2, 1, 2, 1] 40 false []],
    symbols := [],
    find_version := fun key =>
      if key = [1, -1] then
        [node_of (version_at [1, 1] 10 false [[1, 1, 1, 1], [1, 1, 2, 1]])]
      else if key = [1, 1, 1, -1] then
        [node_of (version_at [1, 1, 1, 1] 10 false [])]
      else if key = [1, 1, 2, -1] then
        [node_of (version_at [1, 1, 2, 1] 30 false [[1, 1, 2, 1, 2, 1]])]
      else if key = [1, 1, 2, 1, 2, -1] then
        [node_of (version_at [1, 1, 2, 1, 2, 1] 40 false [])]
      else [] }

/-- The head `h` carries a number, and when it has no name although its
number is not the zero number and has four elements or more, it has no parent
and `cvs_master_find_branch` finds no head for the number cut by two
elements. -/
def NamedOrOrphan (cm : CvsMaster) (h : Nat) : Prop :=
  ∃ r n, cm.refs[h]? = some r ∧ r.number = some n ∧
    (r.ref_name = none → n ≠ cvs_zero → 4 ≤ n.length →
      r.parent = none ∧
      cvs_master_find_branch cm (n.take (n.length - 2)) = some none)

/-- The heads of `cm1` keep the numbers they have in `cm`. -/
def NumbersKept (cm cm1 : CvsMaster) : Prop :=
  ∀ (i : Nat) (r : RevRef) (n : CvsNumber), cm.refs[i]? = some r →
    r.number = some n → ∃ r1, cm1.refs[i]? = some r1 ∧ r1.number = some n

/-! # Lemmas and theorems -/

/-! ## Lemmas on the branch builder -/

theorem time_compare_pos (a b : Nat) : time_compare a b > 0 ↔ b < a := by
  unfold time_compare; omega

theorem time_compare_nonpos (a b : Nat) : time_compare a b ≤ 0 ↔ a ≤ b := by
  unfold time_compare; omega

theorem dates_only_refl (cs : List CvsCommit) : DatesOnly cs cs := rfl

theorem dates_only_trans {a b c : List CvsCommit} (h1 : DatesOnly a b)
    (h2 : DatesOnly b c) : DatesOnly a c := by
  unfold DatesOnly at *; rw [h2, h1]

theorem dates_only_length {cs cs1 : List CvsCommit} (h : DatesOnly cs cs1) :
    cs1.length = cs.length := by
  have := congrArg List.length h
  simpa using this

theorem dates_only_get {cs cs1 : List CvsCommit} (h : DatesOnly cs cs1)
    (i : Nat) : cs1[i]?.map erase_date = cs[i]?.map erase_date := by
  have := congrArg (fun l => l[i]?) h
  simpa using this

theorem dates_only_get_some {cs cs1 : List CvsCommit} (h : DatesOnly cs cs1)
    {i : Nat} {c1 : CvsCommit} (h1 : cs1[i]? = some c1) :
    ∃ c, cs[i]? = some c ∧ erase_date c = erase_date c1 := by
  have := dates_only_get h i
  rw [h1] at this
  cases hc : cs[i]? with
  | none => rw [hc] at this; simp at this
  | some c => rw [hc] at this; simp at this; exact ⟨c, rfl, this.symm⟩

theorem dates_only_symm {cs cs1 : List CvsCommit} (h : DatesOnly cs cs1) :
    DatesOnly cs1 cs := by
  unfold DatesOnly at *; exact h.symm

theorem erase_date_parent {c c1 : CvsCommit}
    (h : erase_date c = erase_date c1) : c.parent = c1.parent := by
  have := congrArg CvsCommit.parent h
  simpa [erase_date] using this

theorem dates_only_set_same {cs : List CvsCommit} {i : Nat} {c c1 : CvsCommit}
    (h : cs[i]? = some c) (he : erase_date c1 = erase_date c) :
    DatesOnly cs (cs.set i c1) := by
  unfold DatesOnly
  rw [List.map_set, he]
  have hi : (cs.map erase_date)[i]? = some (erase_date c) := by simp [h]
  apply List.ext_getElem?
  intro j
  by_cases hij : i = j
  · subst hij
    rw [hi, List.getElem?_set_self]
    exact (List.getElem?_eq_some.mp hi).1
  · rw [List.getElem?_set_ne hij]

theorem dates_only_set_date {cs : List CvsCommit} {i : Nat} {c : CvsCommit}
    (h : cs[i]? = some c) (d : Nat) :
    DatesOnly cs (cs.set i { c with date := d }) :=
  dates_only_set_same h rfl

theorem down_from_dates_only {n0 : Nat} {cs cs1 : List CvsCommit}
    (hd : DownFrom n0 cs) (h : DatesOnly cs cs1) : DownFrom n0 cs1 := by
  intro i ci p hi hci hp
  obtain ⟨c, hc, he⟩ := dates_only_get_some h hci
  exact hd i c p hi hc (by rw [erase_date_parent he]; exact hp)

theorem build_commits_down (n0 : Nat) : ∀ (nodes : List Node)
    (commits : List CvsCommit) (head : Option Nat),
    n0 ≤ commits.length → DownFrom n0 commits →
    (∀ h, head = some h → n0 ≤ h ∧ h < commits.length) →
    n0 ≤ (build_commits nodes commits head).1.length ∧
    DownFrom n0 (build_commits nodes commits head).1 ∧
    (∀ h, (build_commits nodes commits head).2 = some h →
      n0 ≤ h ∧ h < (build_commits nodes commits head).1.length) := by
  intro nodes
  induction nodes with
  | nil => intro commits head hn hd hh; exact ⟨hn, hd, hh⟩
  | cons node rest ih =>
    intro commits head hn hd hh
    unfold build_commits
    cases hv : node.version with
    | none => simpa using ih commits head hn hd hh
    | some v =>
      simp only
      apply ih
      · simp; omega
      · intro i ci p hi hci hp
        by_cases hlt : i < commits.length
        · rw [List.getElem?_append_left hlt] at hci
          exact hd i ci p hi hci hp
        · have hge : commits.length ≤ i := Nat.le_of_not_lt hlt
          rw [List.getElem?_append_right hge] at hci
          have hi0 : i - commits.length = 0 := by
            by_contra hne
            have : ([new_commit v node.patch head])[i - commits.length]? = none := by
              apply List.getElem?_eq_none
              simp; omega
            rw [this] at hci; cases hci
          rw [hi0] at hci
          simp at hci
          subst hci
          have := hh p (by simpa [new_commit] using hp)
          omega
      · intro h hh'
        simp at hh'
        subst hh'
        simp; omega

theorem getElem?_lt_of_some {α : Type} {l : List α} {i : Nat} {a : α}
    (h : l[i]? = some a) : i < l.length :=
  (List.getElem?_eq_some.mp h).1

theorem repair_dates_spec (n0 : Nat) : ∀ (fuel : Nat) (cs : List CvsCommit)
    (c : Nat) (gc : Option Nat),
    DownFrom n0 cs → n0 ≤ c → c < cs.length → c < fuel →
    (∀ g, gc = some g → ∃ gcc cc, cs[g]? = some gcc ∧ cs[c]? = some cc ∧
      cc.date ≤ gcc.date) →
    ∃ cs1, repair_dates fuel cs c gc = some cs1 ∧ DatesOnly cs cs1 ∧
      (∀ i, c < i → cs1[i]? = cs[i]?) ∧
      (∀ i, i < n0 → cs1[i]? = cs[i]?) ∧
      (∀ g gcc, gc = some g → cs[g]? = some gcc →
        ∃ cc1, cs1[c]? = some cc1 ∧ cc1.date ≤ gcc.date) ∧
      (∀ x cx p, Reach cs1 c x → cs1[x]? = some cx → cx.parent = some p →
        ∃ px, cs1[p]? = some px ∧ px.date ≤ cx.date) := by
  intro fuel
  induction fuel with
  | zero => intro cs c gc _ _ _ h; omega
  | succ fuel ih =>
    intro cs c gc hd hn hc hf hg
    obtain ⟨cc, hcc⟩ : ∃ cc, cs[c]? = some cc :=
      ⟨cs[c], List.getElem?_eq_getElem hc⟩
    unfold repair_dates
    simp only [hcc]
    cases hpar : cc.parent with
    | none =>
      simp only []
      refine ⟨cs, rfl, dates_only_refl cs, fun _ _ => rfl, fun _ _ => rfl, ?_, ?_⟩
      · intro g gcc hgc hgcc
        obtain ⟨gcc', cc', h1, h2, h3⟩ := hg g hgc
        rw [hgcc] at h1; rw [hcc] at h2
        cases h1; cases h2
        exact ⟨cc, hcc, h3⟩
      · intro x cx p hr hx hp
        cases hr with
        | refl => rw [hcc] at hx; cases hx; rw [hpar] at hp; cases hp
        | step _ p' _ ca h1 h2 _ =>
          rw [hcc] at h1; cases h1; rw [hpar] at h2; cases h2
    | some p =>
      have hp := hd c cc p hn hcc hpar
      have hpl : p < cs.length := by omega
      obtain ⟨pc, hpc⟩ : ∃ pc, cs[p]? = some pc :=
        ⟨cs[p], List.getElem?_eq_getElem hpl⟩
      have hpne : p ≠ c := by omega
      -- the common continuation
      have key : ∀ (cs' : List CvsCommit) (cc' pc' : CvsCommit),
          DatesOnly cs cs' → (∀ i, c < i → cs'[i]? = cs[i]?) →
          (∀ i, i < n0 → cs'[i]? = cs[i]?) →
          cs'[c]? = some cc' → cs'[p]? = some pc' → pc'.date ≤ cc'.date →
          (∀ g gcc, gc = some g → cs[g]? = some gcc → cc'.date ≤ gcc.date) →
          ∃ cs1, repair_dates fuel cs' p (some c) = some cs1 ∧
            DatesOnly cs cs1 ∧
            (∀ i, c < i → cs1[i]? = cs[i]?) ∧
            (∀ i, i < n0 → cs1[i]? = cs[i]?) ∧
            (∀ g gcc, gc = some g → cs[g]? = some gcc →
              ∃ cc1, cs1[c]? = some cc1 ∧ cc1.date ≤ gcc.date) ∧
            (∀ x cx q, Reach cs1 c x → cs1[x]? = some cx →
              cx.parent = some q → ∃ px, cs1[q]? = some px ∧
              px.date ≤ cx.date) := by
        intro cs' cc' pc' hdo hfr hfr0 hc' hp' hle hgle
        have hpar' : cc'.parent = some p := by
          obtain ⟨c0, h0, he⟩ := dates_only_get_some hdo hc'
          rw [hcc] at h0; cases h0
          rw [← erase_date_parent he]; exact hpar
        obtain ⟨cs1, hr, hdo1, hf1, hf0, hg1, hm1⟩ :=
          ih cs' p (some c) (down_from_dates_only hd hdo) hp.1
            (by rw [dates_only_length hdo]; exact hpl) (by omega)
            (by
              intro g hgc; cases hgc
              exact ⟨cc', pc', hc', hp', hle⟩)
        have hc1 : cs1[c]? = some cc' := by
          rw [hf1 c hp.2]; exact hc'
        refine ⟨cs1, hr, dates_only_trans hdo hdo1, ?_, ?_, ?_, ?_⟩
        · intro i hi; rw [hf1 i (by omega)]; exact hfr i hi
        · intro i hi; rw [hf0 i hi]; exact hfr0 i hi
        · intro g gcc hgc hgcc
          exact ⟨cc', hc1, hgle g gcc hgc hgcc⟩
        · intro x cx q hreach hx hq
          cases hreach with
          | refl =>
            rw [hc1] at hx; cases hx
            rw [hpar'] at hq; cases hq
            exact hg1 c cc' rfl hc'
          | step _ p' _ ca h1 h2 h3 =>
            rw [hc1] at h1; cases h1
            rw [hpar'] at h2; cases h2
            exact hm1 x cx q h3 hx hq
      simp only [hpc]
      by_cases hgt : time_compare pc.date cc.date > 0
      · rw [if_pos hgt]
        have hlt : cc.date < pc.date := (time_compare_pos _ _).mp hgt
        -- pushing the parent back
        have pushp : ∃ cs1, repair_dates fuel
              (cs.set p { pc with date := cc.date }) p (some c) = some cs1 ∧
            DatesOnly cs cs1 ∧
            (∀ i, c < i → cs1[i]? = cs[i]?) ∧
            (∀ i, i < n0 → cs1[i]? = cs[i]?) ∧
            (∀ g gcc, gc = some g → cs[g]? = some gcc →
              ∃ cc1, cs1[c]? = some cc1 ∧ cc1.date ≤ gcc.date) ∧
            (∀ x cx q, Reach cs1 c x → cs1[x]? = some cx →
              cx.parent = some q → ∃ px, cs1[q]? = some px ∧
              px.date ≤ cx.date) := by
          apply key _ cc { pc with date := cc.date } (dates_only_set_date hpc _)
          · intro i hi; rw [List.getElem?_set_ne (by omega)]
          · intro i hi; rw [List.getElem?_set_ne (by omega)]
          · rw [List.getElem?_set_ne hpne]; exact hcc
          · rw [List.getElem?_set_self hpl]
          · exact Nat.le_refl _
          · intro g gcc hgc hgcc
            obtain ⟨gcc', cc', h1, h2, h3⟩ := hg g hgc
            rw [hgcc] at h1; rw [hcc] at h2
            cases h1; cases h2; exact h3
        cases hgc : gc with
        | none => subst hgc; exact pushp
        | some g =>
          subst hgc
          obtain ⟨gcc, cc', h1, h2, h3⟩ := hg g rfl
          rw [hcc] at h2; cases h2
          simp only [h1]
          by_cases hle : time_compare pc.date gcc.date ≤ 0
          · rw [if_pos hle]
            have hle' : pc.date ≤ gcc.date := (time_compare_nonpos _ _).mp hle
            apply key _ _ pc (dates_only_set_same hcc (by simp [erase_date, hpar]))
            · intro i hi; rw [List.getElem?_set_ne (by omega)]
            · intro i hi; rw [List.getElem?_set_ne (by omega)]
            · rw [List.getElem?_set_self hc]
            · rw [List.getElem?_set_ne (Ne.symm hpne)]; exact hpc
            · exact Nat.le_refl _
            · intro g' gcc' hgc hgcc
              cases hgc
              rw [h1] at hgcc; cases hgcc; exact hle'
          · rw [if_neg hle]; exact pushp
      · rw [if_neg hgt]
        have hle : pc.date ≤ cc.date := by
          have := (time_compare_pos pc.date cc.date).not.mp hgt
          omega
        apply key cs cc pc (dates_only_refl cs) (fun _ _ => rfl) (fun _ _ => rfl)
          hcc hpc hle
        intro g gcc hgc hgcc
        obtain ⟨gcc', cc', h1, h2, h3⟩ := hg g hgc
        rw [hgcc] at h1; rw [hcc] at h2
        cases h1; cases h2; exact h3

theorem build_commits_prefix : ∀ (nodes : List Node)
    (commits : List CvsCommit) (head : Option Nat) (i : Nat),
    i < commits.length →
    (build_commits nodes commits head).1[i]? = commits[i]? := by
  intro nodes
  induction nodes with
  | nil => intro commits head i _; rfl
  | cons node rest ih =>
    intro commits head i hi
    unfold build_commits
    cases hv : node.version with
    | none => simpa using ih commits head i hi
    | some v =>
      simp only
      rw [ih _ _ i (by simp; omega), List.getElem?_append_left hi]

/-- Claim C1.  `cvs_master_branch_build` always returns, and in the chain it
returns every commit with a parent is dated no earlier than that parent,
whatever the dates of the versions were. -/
theorem build_branch_dates_monotone (cvs : CvsFile) (master : RevMaster)
    (branch : CvsNumber) :
    (∃ r, cvs_master_branch_build cvs master branch = some r) ∧
    ∀ (m1 : RevMaster) (h c p : Nat) (cc : CvsCommit),
      cvs_master_branch_build cvs master branch = some (m1, some h) →
      Reach m1.commits h c → m1.commits[c]? = some cc → cc.parent = some p →
      ∃ pc, m1.commits[p]? = some pc ∧ pc.date ≤ cc.date := by
  have hb := build_commits_down master.commits.length
    (cvs.find_version (branch_key branch)) master.commits none (Nat.le_refl _)
    (by
      intro i ci p hi hci
      have := getElem?_lt_of_some hci
      omega)
    (by intro h hh; cases hh)
  unfold cvs_master_branch_build
  cases hbc : build_commits (cvs.find_version (branch_key branch))
      master.commits none with
  | mk commits head =>
    rw [hbc] at hb
    cases head with
    | none => exact ⟨⟨_, rfl⟩, by intro m1 h c p cc hh; cases hh⟩
    | some head =>
      obtain ⟨hlen, hdown, hhead⟩ := hb
      obtain ⟨hh1, hh2⟩ := hhead head rfl
      obtain ⟨cs1, hr, hdo, hf1, hf0, hg1, hm1⟩ :=
        repair_dates_spec master.commits.length (commits.length + 1) commits
          head none hdown hh1 hh2 (by simp at hh2 ⊢; omega)
          (by intro g hg; cases hg)
      simp only [hr]
      refine ⟨⟨_, rfl⟩, ?_⟩
      intro m1 h c p cc heq hreach hc hp
      simp only [Option.some.injEq, Prod.mk.injEq] at heq
      obtain ⟨rfl, rfl⟩ := heq
      exact hm1 c cc p hreach hc hp

/-- Witness of C1 on the trunk of `skew_file`: the tip `1.3` and its parent
`1.2`. -/
theorem build_branch_dates_monotone_witness :
    cvs_master_branch_build skew_file empty_master [1, 1]
      = some (skew_built, some 2) ∧
    ∃ pc, skew_built.commits[1]? = some pc ∧ pc.date ≤ 20 :=
  ⟨by decide,
   (build_branch_dates_monotone skew_file empty_master [1, 1]).2 skew_built
     2 2 1 (commit_at [1, 3] 20 (some 1)) (by decide) (Reach.refl 2)
     (by decide) (by decide)⟩

/-! ## The clock-skew scenario -/

/-- Claim C3 as stated fails: after the digest of `skew_file` the dates of
`1.1`, `1.2`, `1.3` are not 10, 30, 30. -/
theorem clock_skew_not_10_30_30 :
    (cvs_master_digest skew_file empty_cm empty_master).map
        (fun d => d.master.commits.map (fun c => (c.number, c.date)))
      ≠ some [([1, 1], 10), ([1, 2], 30), ([1, 3], 30)] := by
  decide

/-- Claim C3 as amended: after the digest of `skew_file` the dates of `1.1`,
`1.2`, `1.3` are 10, 20, 20; the older `1.2` is pushed back to the date of
the tip. -/
theorem clock_skew_dates :
    (cvs_master_digest skew_file empty_cm empty_master).map
        (fun d => d.master.commits.map (fun c => (c.number, c.date)))
      = some [([1, 1], 10), ([1, 2], 20), ([1, 3], 20)] := by
  decide

/-! ## The slab after the branches are built -/

theorem reach_append {cs : List CvsCommit} (ext : List CvsCommit) {a b : Nat}
    (h : Reach cs a b) : Reach (cs ++ ext) a b := by
  induction h with
  | refl a => exact Reach.refl a
  | step a p b ca h1 h2 _ ih =>
    refine Reach.step a p b ca ?_ h2 ih
    rw [List.getElem?_append_left (getElem?_lt_of_some h1)]; exact h1

theorem reach_dates_only {cs cs1 : List CvsCommit} (hd : DatesOnly cs cs1)
    {a b : Nat} (h : Reach cs a b) : Reach cs1 a b := by
  induction h with
  | refl a => exact Reach.refl a
  | step a p b ca h1 h2 _ ih =>
    obtain ⟨c1, hc1, he⟩ := dates_only_get_some (dates_only_symm hd) h1
    exact Reach.step a p b c1 hc1 (by rw [erase_date_parent he]; exact h2) ih

theorem build_commits_reach (n0 : Nat) : ∀ (nodes : List Node)
    (commits : List CvsCommit) (head : Option Nat),
    (∀ i, n0 ≤ i → i < commits.length →
      ∃ h, head = some h ∧ Reach commits h i) →
    ∀ i, n0 ≤ i → i < (build_commits nodes commits head).1.length →
      ∃ h, (build_commits nodes commits head).2 = some h ∧
        Reach (build_commits nodes commits head).1 h i := by
  intro nodes
  induction nodes with
  | nil => intro commits head hr; exact hr
  | cons node rest ih =>
    intro commits head hr
    unfold build_commits
    cases hv : node.version with
    | none => simpa using ih commits head hr
    | some v =>
      simp only
      apply ih
      intro i hi hlt
      refine ⟨commits.length, rfl, ?_⟩
      by_cases hil : i < commits.length
      · obtain ⟨h, hh, hreach⟩ := hr i hi hil
        refine Reach.step _ h _ (new_commit v node.patch head) ?_ ?_
          (reach_append _ hreach)
        · simp
        · simp [new_commit, hh]
      · have : i = commits.length := by simp at hlt; omega
        subst this
        exact Reach.refl _

theorem branch_build_spec (cvs : CvsFile) (master : RevMaster)
    (branch : CvsNumber) :
    ∃ cs head, cvs_master_branch_build cvs master branch
        = some ({ master with commits := cs }, head) ∧
      master.commits.length ≤ cs.length ∧
      (∀ i, i < master.commits.length → cs[i]? = master.commits[i]?) ∧
      (∀ h, head = some h → h < cs.length) ∧
      (∀ i ci p, master.commits.length ≤ i → cs[i]? = some ci →
        ci.parent = some p → ∃ pc, cs[p]? = some pc ∧ pc.date ≤ ci.date) := by
  have hvac : DownFrom master.commits.length master.commits := by
    intro i ci p hi hci
    have := getElem?_lt_of_some hci
    omega
  have hb := build_commits_down master.commits.length
    (cvs.find_version (branch_key branch)) master.commits none (Nat.le_refl _)
    hvac (by intro h hh; cases hh)
  have hp := build_commits_prefix (cvs.find_version (branch_key branch))
    master.commits none
  have hre := build_commits_reach master.commits.length
    (cvs.find_version (branch_key branch)) master.commits none
    (by intro i h1 h2; omega)
  unfold cvs_master_branch_build
  cases hbc : build_commits (cvs.find_version (branch_key branch))
      master.commits none with
  | mk commits head =>
    rw [hbc] at hb hp hre
    obtain ⟨hlen, hdown, hhead⟩ := hb
    cases head with
    | none =>
      refine ⟨commits, none, rfl, hlen, hp, (by intro h hh; cases hh), ?_⟩
      intro i ci p hi hci _
      obtain ⟨h, hh, _⟩ := hre i hi (getElem?_lt_of_some hci)
      cases hh
    | some head =>
      obtain ⟨hh1, hh2⟩ := hhead head rfl
      obtain ⟨cs1, hr, hdo, hf1, hf0, hg1, hm1⟩ :=
        repair_dates_spec master.commits.length (commits.length + 1) commits
          head none hdown hh1 hh2 (by simp at hh2 ⊢; omega)
          (by intro g hg; cases hg)
      simp only [hr]
      refine ⟨cs1, some head, rfl, by rw [dates_only_length hdo]; exact hlen, ?_, ?_, ?_⟩
      · intro i hi; rw [hf0 i hi]; exact hp i hi
      · intro h hh; cases hh; rw [dates_only_length hdo]; exact hh2
      · intro i ci p hi hci hpar
        have hil : i < commits.length := by
          rw [← dates_only_length hdo]; exact getElem?_lt_of_some hci
        obtain ⟨h, hh, hreach⟩ := hre i hi hil
        cases hh
        exact hm1 i ci p (reach_dates_only hdo hreach) hci hpar

theorem branch_build_mono (cvs : CvsFile) (master m1 : RevMaster)
    (branch : CvsNumber) (head : Option Nat)
    (h : cvs_master_branch_build cvs master branch = some (m1, head))
    (hm : Mono master.commits) :
    Mono m1.commits ∧ (∀ h, head = some h → h < m1.commits.length) := by
  obtain ⟨cs, head', heq, hlen, hpre, hhead, hnew⟩ :=
    branch_build_spec cvs master branch
  rw [heq] at h
  simp only [Option.some.injEq, Prod.mk.injEq] at h
  obtain ⟨rfl, rfl⟩ := h
  refine ⟨?_, hhead⟩
  intro i ci p hci hpar
  simp only at hci ⊢
  by_cases hi : i < master.commits.length
  · rw [hpre i hi] at hci
    obtain ⟨pc, hpc, hle⟩ := hm i ci p hci hpar
    refine ⟨pc, ?_, hle⟩
    rw [hpre p (getElem?_lt_of_some hpc)]; exact hpc
  · exact hnew i ci p (Nat.le_of_not_lt hi) hci hpar

/-! ## The passes keep the links of the builder -/

theorem map_set_of_eq {α β : Type} (f : α → β) {l : List α} {i : Nat}
    {a a1 : α} (h : l[i]? = some a) (he : f a1 = f a) :
    (l.set i a1).map f = l.map f := by
  rw [List.map_set, he]
  have hi : (l.map f)[i]? = some (f a) := by simp [h]
  apply List.ext_getElem?
  intro j
  by_cases hij : i = j
  · subst hij
    rw [hi, List.getElem?_set_self]
    exact (List.getElem?_eq_some.mp hi).1
  · rw [List.getElem?_set_ne hij]

theorem grows_refl (cs : List CvsCommit) : Grows cs cs :=
  ⟨rfl, by intro i ci ci1 p h h1 hp; rw [h] at h1; cases h1; exact hp⟩

theorem grows_get_some {cs cs1 : List CvsCommit} (h : Grows cs cs1)
    {i : Nat} {c : CvsCommit} (hc : cs[i]? = some c) :
    ∃ c1, cs1[i]? = some c1 ∧ erase_link c1 = erase_link c := by
  have := congrArg (fun l => l[i]?) h.1
  simp only [List.getElem?_map, hc, Option.map_some'] at this
  cases hc1 : cs1[i]? with
  | none => rw [hc1] at this; simp at this
  | some c1 => rw [hc1] at this; simp at this; exact ⟨c1, rfl, this⟩

theorem grows_trans {a b c : List CvsCommit} (h1 : Grows a b)
    (h2 : Grows b c) : Grows a c := by
  refine ⟨by rw [h2.1, h1.1], ?_⟩
  intro i ci ci1 p ha hc hp
  obtain ⟨cb, hb, _⟩ := grows_get_some h1 ha
  exact h2.2 i cb ci1 p hb hc (h1.2 i ci cb p ha hb hp)

theorem grows_set {cs : List CvsCommit} {i : Nat} {c c1 : CvsCommit}
    (h : cs[i]? = some c) (he : erase_link c1 = erase_link c)
    (hp : ∀ p, c.parent = some p → c1.parent = some p) :
    Grows cs (cs.set i c1) := by
  refine ⟨map_set_of_eq erase_link h he, ?_⟩
  intro j cj cj1 p hj hj1 hpar
  by_cases hij : i = j
  · subst hij
    rw [List.getElem?_set_self (getElem?_lt_of_some h)] at hj1
    rw [h] at hj
    cases hj; cases hj1
    exact hp p hpar
  · rw [List.getElem?_set_ne hij, hj] at hj1
    cases hj1; exact hpar

theorem erase_link_date {c c1 : CvsCommit}
    (h : erase_link c1 = erase_link c) : c1.date = c.date := by
  have := congrArg CvsCommit.date h
  simpa [erase_link] using this

theorem mono_of_grows {cs cs1 : List CvsCommit} (hm : Mono cs)
    (hg : Grows cs cs1) (i : Nat) (ci : CvsCommit) (p : Nat)
    (hci : cs[i]? = some ci) (hp : ci.parent = some p) :
    ∃ ci1 pc1, cs1[i]? = some ci1 ∧ ci1.parent = some p ∧
      cs1[p]? = some pc1 ∧ pc1.date ≤ ci1.date := by
  obtain ⟨pc, hpc, hle⟩ := hm i ci p hci hp
  obtain ⟨ci1, hci1, he1⟩ := grows_get_some hg hci
  obtain ⟨pc1, hpc1, he2⟩ := grows_get_some hg hpc
  refine ⟨ci1, pc1, hci1, hg.2 i ci ci1 p hci hci1 hp, hpc1, ?_⟩
  rw [erase_link_date he1, erase_link_date he2]; exact hle

theorem chain_root_spec (cs : List CvsCommit) : ∀ (fuel c r : Nat),
    chain_root cs fuel c = some r →
    Reach cs c r ∧ ∃ rc, cs[r]? = some rc ∧ rc.parent = none := by
  intro fuel
  induction fuel with
  | zero => intro c r h; simp [chain_root] at h
  | succ fuel ih =>
    intro c r h
    unfold chain_root at h
    cases hc : cs[c]? with
    | none => rw [hc] at h; simp at h
    | some cc =>
      rw [hc] at h
      cases hp : cc.parent with
      | none =>
        simp only [hp] at h
        cases h
        exact ⟨Reach.refl c, cc, hc, hp⟩
      | some p =>
        simp only [hp] at h
        obtain ⟨h1, h2⟩ := ih p r h
        exact ⟨Reach.step c p r cc hc hp h1, h2⟩

theorem patch_vendor_grows (cm cm1 : CvsMaster) (cs cs1 : List CvsCommit)
    (h : cvs_master_patch_vendor_branch cm cs = some (cm1, cs1)) :
    Grows cs cs1 := by
  unfold cvs_master_patch_vendor_branch at h
  repeat' split at h
  all_goals first
    | (cases h; done)
    | (simp only [Option.some.injEq, Prod.mk.injEq] at h
       obtain ⟨-, rfl⟩ := h
       first
         | exact grows_refl _
         | (rename_i hroot _ vc hvc
            obtain ⟨-, rc, hrc, hpar⟩ := chain_root_spec _ _ _ _ hroot
            rw [hvc] at hrc; cases hrc
            exact grows_set hvc (by simp [erase_link])
              (by intro p hp; rw [hpar] at hp; cases hp)))

theorem graft_root_spec (cs : List CvsCommit) : ∀ (fuel : Nat)
    (start : Option Nat) (c : Nat),
    graft_root cs fuel start = some (some c) →
    ∃ cc, cs[c]? = some cc ∧ cc.parent = none := by
  intro fuel
  induction fuel with
  | zero => intro start c h; simp [graft_root] at h
  | succ fuel ih =>
    intro start c h
    cases start with
    | none => simp [graft_root] at h
    | some s =>
      unfold graft_root at h
      cases hs : cs[s]? with
      | none => rw [hs] at h; simp at h
      | some sc =>
        rw [hs] at h
        cases hp : sc.parent with
        | none =>
          simp only [hp, Option.some.injEq] at h
          subst h
          exact ⟨sc, hs, hp⟩
        | some p =>
          simp only [hp] at h
          split at h
          · cases h
          · exact ih (some p) c h

theorem graft_versions_grows (cm : CvsMaster) (c : Nat) :
    ∀ (versions : List CvsVersion) (cs cs1 : List CvsCommit),
    (∃ cc, cs[c]? = some cc ∧ cc.parent = none) →
    graft_versions cm c versions cs = some cs1 → Grows cs cs1 := by
  intro versions
  induction versions with
  | nil =>
    intro cs cs1 _ h
    simp only [graft_versions, Option.some.injEq] at h
    subst h; exact grows_refl _
  | cons cv rest ih =>
    intro cs cs1 hroot h
    obtain ⟨cc, hcc, hpar⟩ := hroot
    unfold graft_versions at h
    simp only [hcc] at h
    split at h
    · split at h
      · cases h
      · simp only [Option.some.injEq] at h
        subst h
        exact grows_set hcc (by simp [erase_link])
          (by intro p hp; rw [hpar] at hp; cases hp)
      · have hg : Grows cs (cs.set c { cc with parent := none, tail := true }) :=
          grows_set hcc (by simp [erase_link])
            (by intro p hp; rw [hpar] at hp; cases hp)
        refine grows_trans hg (ih _ cs1
          ⟨{ cc with parent := none, tail := true }, ?_, rfl⟩ h)
        rw [List.getElem?_set_self (getElem?_lt_of_some hcc)]
    · simp only [hpar] at h
      exact ih cs cs1 ⟨cc, hcc, hpar⟩ h

theorem graft_loop_grows (cvs : CvsFile) (cm : CvsMaster) (first : Nat) :
    ∀ (heads : List Nat) (cs cs1 : List CvsCommit),
    graft_loop cvs cm first heads cs = some cs1 → Grows cs cs1 := by
  intro heads
  induction heads with
  | nil =>
    intro cs cs1 h
    simp only [graft_loop, Option.some.injEq] at h
    subst h; exact grows_refl _
  | cons hd rest ih =>
    intro cs cs1 h
    unfold graft_loop at h
    split at h
    · exact ih cs cs1 h
    · split at h
      · cases h
      · split at h
        · exact ih cs cs1 h
        · split at h
          · cases h
          · exact ih cs cs1 h
          · rename_i c hroot
            split at h
            · cases h
            · rename_i cs2 hgv
              exact grows_trans (graft_versions_grows cm c _ cs cs2
                (graft_root_spec cs _ _ c hroot) hgv) (ih cs2 cs1 h)

theorem graft_branches_grows (cvs : CvsFile) (cm : CvsMaster)
    (cs cs1 : List CvsCommit)
    (h : cvs_master_graft_branches cvs cm cs = some cs1) : Grows cs cs1 := by
  unfold cvs_master_graft_branches at h
  split at h
  · simp only [Option.some.injEq] at h
    subst h; exact grows_refl _
  · exact graft_loop_grows cvs cm _ _ cs cs1 h

theorem set_commit_tail_grows (cs : List CvsCommit) (c : Nat) :
    Grows cs (set_commit_tail cs c) := by
  unfold set_commit_tail
  split
  · exact grows_refl _
  · rename_i cc hcc
    exact grows_set hcc (by simp [erase_link]) (by intro p hp; exact hp)

theorem set_tail_loop_grows (refs : List RevRef) : ∀ (heads : List Nat)
    (cs : List CvsCommit), Grows cs (set_tail_loop refs heads cs) := by
  intro heads
  induction heads with
  | nil => intro cs; exact grows_refl _
  | cons h rest ih =>
    intro cs
    unfold set_tail_loop
    split
    · exact ih cs
    · split
      · exact ih cs
      · exact grows_trans (set_commit_tail_grows cs _) (ih _)

theorem digest_passes_grows (cvs : CvsFile) (cm cm1 : CvsMaster)
    (cs cs1 : List CvsCommit)
    (h : digest_passes cvs cm cs = some (cm1, cs1)) : Grows cs cs1 := by
  unfold digest_passes at h
  repeat' split at h
  all_goals first
    | (cases h; done)
    | (simp only [Option.some.injEq, Prod.mk.injEq] at h
       obtain ⟨-, rfl⟩ := h
       rename_i hpv _ _ hgr _ _ _ _ _ _
       exact grows_trans (patch_vendor_grows _ _ _ _ hpv)
         (grows_trans (graft_branches_grows _ _ _ _ hgr)
           (set_tail_loop_grows _ _ _)))

/-! ## The vendor-branch rewriter -/

theorem head_commit_set (refs : List RevRef) (v : Nat) (r r1 : RevRef)
    (hr : refs[v]? = some r) (hc : r1.commit = r.commit) (h : Nat) :
    head_commit (refs.set v r1) h = head_commit refs h := by
  unfold head_commit
  by_cases hv : v = h
  · subst hv
    rw [List.getElem?_set_self (getElem?_lt_of_some hr), hr]
    simp [hc]
  · rw [List.getElem?_set_ne hv]

theorem is_vendor_head_congr {refs refs1 : List RevRef}
    (commits : List CvsCommit)
    (h : ∀ x, head_commit refs1 x = head_commit refs x) (x : Nat) :
    is_vendor_head refs1 commits x = is_vendor_head refs commits x := by
  unfold is_vendor_head; rw [h x]

theorem last_vendor_head_congr {refs refs1 : List RevRef}
    (commits : List CvsCommit)
    (h : ∀ x, head_commit refs1 x = head_commit refs x) :
    ∀ (heads : List Nat) (acc : Option Nat),
    last_vendor_head refs1 commits heads acc
      = last_vendor_head refs commits heads acc := by
  intro heads
  induction heads with
  | nil => intro acc; rfl
  | cons x rest ih =>
    intro acc
    unfold last_vendor_head
    rw [is_vendor_head_congr commits h x, ih]

theorem chain_root_total (cs : List CvsCommit) (hdown : DownFrom 0 cs) :
    ∀ (fuel c : Nat), c < fuel → c < cs.length →
    ∃ r, chain_root cs fuel c = some r := by
  intro fuel
  induction fuel with
  | zero => intro c h; omega
  | succ fuel ih =>
    intro c hf hc
    unfold chain_root
    rw [List.getElem?_eq_getElem hc]
    cases hp : (cs[c]).parent with
    | none => exact ⟨c, by simp [hp]⟩
    | some p =>
      have := hdown c cs[c] p (Nat.zero_le _) (List.getElem?_eq_getElem hc) hp
      simp only [hp]
      exact ih p (by omega) (by omega)

theorem patch_vendor_loop_spec (cs : List CvsCommit) (trunk : Nat)
    (hdown : DownFrom 0 cs) : ∀ (heads : List Nat) (refs : List RevRef)
    (nv0 : Option Nat),
    (∀ h ∈ heads, h < refs.length ∧
      ∀ tip, head_commit refs h = some tip → tip < cs.length) →
    ∃ refs1, patch_vendor_loop cs trunk heads refs nv0
        = some (refs1, last_vendor_head refs cs heads nv0) ∧
      refs1.length = refs.length ∧
      ∀ h, head_commit refs1 h = head_commit refs h := by
  intro heads
  induction heads with
  | nil => intro refs nv0 _; exact ⟨refs, rfl, rfl, fun _ => rfl⟩
  | cons v rest ih =>
    intro refs nv0 hvalid
    obtain ⟨hv, htipv⟩ := hvalid v (List.mem_cons_self _ _)
    have hrest : ∀ h ∈ rest, h < refs.length ∧
        ∀ tip, head_commit refs h = some tip → tip < cs.length :=
      fun h hh => hvalid h (List.mem_cons_of_mem _ hh)
    have hr : refs[v]? = some refs[v] := List.getElem?_eq_getElem hv
    -- the step taken when `v` is rewritten to `r1`
    have hstep : ∀ (r1 : RevRef) (nv1 : Option Nat),
        r1.commit = (refs[v]).commit →
        ∃ refs1, patch_vendor_loop cs trunk rest (refs.set v r1) nv1
            = some (refs1, last_vendor_head refs cs rest nv1) ∧
          refs1.length = refs.length ∧
          ∀ h, head_commit refs1 h = head_commit refs h := by
      intro r1 nv1 hc
      have hcongr := head_commit_set refs v refs[v] r1 hr hc
      obtain ⟨refs1, h1, h2, h3⟩ := ih (refs.set v r1) nv1 (by
        intro h hh
        rw [List.length_set, hcongr h]
        exact hrest h hh)
      refine ⟨refs1, ?_, by rw [h2, List.length_set], ?_⟩
      · rw [h1, last_vendor_head_congr cs hcongr]
      · intro h; rw [h3, hcongr]
    have hfold : last_vendor_head refs cs (v :: rest) nv0
        = last_vendor_head refs cs rest
            (if is_vendor_head refs cs v then some v else nv0) := rfl
    rw [hfold]
    unfold patch_vendor_loop
    simp only [hr]
    cases hcm : (refs[v]).commit with
    | none =>
      have hisv : is_vendor_head refs cs v = false := by
        simp [is_vendor_head, head_commit, hr, hcm]
      rw [hisv]
      simpa using ih refs nv0 hrest
    | some tip =>
      have htl : tip < cs.length := htipv tip (by simp [head_commit, hr, hcm])
      have htc : cs[tip]? = some cs[tip] := List.getElem?_eq_getElem htl
      have hisv : is_vendor_head refs cs v = cvs_is_vendor (cs[tip]).number := by
        simp [is_vendor_head, head_commit, hr, hcm, htc]
      rw [hisv]
      simp only [htc]
      by_cases hven : cvs_is_vendor (cs[tip]).number = true
      · simp only [hven, if_true]
        cases hnm : (refs[v]).ref_name with
        | some name =>
          refine hstep _ _ ?_
          exact hcm.symm
        | none =>
          obtain ⟨vlast, hvl⟩ := chain_root_total cs hdown (cs.length + 1) tip
            (by omega) htl
          obtain ⟨-, rc, hrc, -⟩ := chain_root_spec cs _ _ _ hvl
          simp only [hvl, hrc]
          refine hstep _ _ ?_
          exact hcm.symm
      · simp only [hven, Bool.false_eq_true, if_false]
        simpa using ih refs nv0 hrest

theorem last_vendor_head_append (refs : List RevRef) (cs : List CvsCommit) :
    ∀ (l1 l2 : List Nat) (acc : Option Nat),
    last_vendor_head refs cs (l1 ++ l2) acc
      = last_vendor_head refs cs l2 (last_vendor_head refs cs l1 acc) := by
  intro l1
  induction l1 with
  | nil => intro l2 acc; rfl
  | cons x rest ih => intro l2 acc; exact ih l2 _

theorem last_vendor_head_none (refs : List RevRef) (cs : List CvsCommit) :
    ∀ (l : List Nat) (acc : Option Nat),
    (∀ h ∈ l, is_vendor_head refs cs h = false) →
    last_vendor_head refs cs l acc = acc := by
  intro l
  induction l with
  | nil => intro acc _; rfl
  | cons x rest ih =>
    intro acc h
    unfold last_vendor_head
    rw [h x (List.mem_cons_self _ _)]
    exact ih acc (fun y hy => h y (List.mem_cons_of_mem _ hy))

theorem last_vendor_head_split (refs : List RevRef) (cs : List CvsCommit)
    (heads pre post : List Nat) (nv : Nat) (acc : Option Nat)
    (hsplit : heads = pre ++ nv :: post)
    (hven : is_vendor_head refs cs nv = true)
    (hpost : ∀ h ∈ post, is_vendor_head refs cs h = false) :
    last_vendor_head refs cs heads acc = some nv := by
  subst hsplit
  rw [last_vendor_head_append]
  unfold last_vendor_head
  rw [hven, last_vendor_head_none refs cs post _ hpost]
  rfl

/-- Claim C6 at its own example: after the digest of `all_dead_file` two heads
remain, `master` and an unnamed head numbered `0.1` for the branch whose
revisions are all dead. -/
theorem all_dead_branch_kept :
    (cvs_master_digest all_dead_file empty_cm empty_master).map
        (fun d => (head_names d, head_numbers d))
      = some ([some "master", none], [some [1, 1], some [0, 1]]) := by
  decide

/-- Claim C7 as stated fails: after the digest of `orphan_file` the head of
the branch `1.1.2` is in the finished list without a name. -/
theorem orphan_head_unnamed :
    (cvs_master_digest orphan_file empty_cm empty_master).map
        (fun d => (head_names d, head_numbers d, head_parents d))
      = some ([some "master", none],
              [some [1, 1, 1, 1], some [1, 1, 0, 2]], [none, none]) := by
  decide!

/-- Claim C8 on `master_tag_file`, whose tag `master` sits on `1.1`: after the
digest exactly one head is named `master`, and it is not the first of the
list; the first head is the vendor head `import-1.1.1`, the trunk comes
second. -/
theorem master_tag_trunk_second :
    (cvs_master_digest master_tag_file empty_cm empty_master).map head_names
      = some [some "import-1.1.1", some "master"] := by
  decide

/-- Claim C9 on `nested_file`: after `cvs_master_set_refs` and
`cvs_master_sort_heads` the list is head 0 (`master`), head 2
(`BR-UNNAMED-BRANCH`), head 1 (`BR`), and the parent of head 2 is head 1,
which comes after it. -/
theorem unnamed_child_before_parent :
    (cvs_master_digest nested_file empty_cm empty_master).map
        (fun d => (d.cm.heads, head_names d, head_parents d))
      = some ([0, 2, 1],
              [some "master", some "BR-UNNAMED-BRANCH", some "BR"],
              [none, some 1, some 0]) := by
  decide!

/-- Claim C10 on `missing_branch_file`: the trunk is built and the head
`master` is registered for it, so the digest should return the trunk tip,
yet `cvs_master_digest` has no result (the head registered for the branch
record without delta has no tip, and the pass over the unnamed heads
dereferences it). -/
theorem missing_branch_no_result :
    (digest_build missing_branch_file empty_cm empty_master).map
        (fun b => (b.1, b.2.1.heads)) = some (some 0, [0, 1]) ∧
    (digest_build missing_branch_file empty_cm empty_master).map
        (fun b => b.2.1.refs)
      = some [{ commit := some 0, ref_name := some "master",
                number := some [1, 1], degree := 2, parent := none,
                tail := false },
              { commit := none, ref_name := none, number := none,
                degree := 0, parent := none, tail := false }] ∧
    cvs_master_digest missing_branch_file empty_cm empty_master = none := by
  decide


theorem version_branches_mono (cvs : CvsFile) : ∀ (branches : List CvsNumber)
    (cm cm1 : CvsMaster) (master m1 : RevMaster),
    build_version_branches cvs branches cm master = some (cm1, m1) →
    Mono master.commits → Mono m1.commits := by
  intro branches
  induction branches with
  | nil =>
    intro cm cm1 master m1 h hm
    simp only [build_version_branches, Option.some.injEq, Prod.mk.injEq] at h
    obtain ⟨-, rfl⟩ := h; exact hm
  | cons cb rest ih =>
    intro cm cm1 master m1 h hm
    unfold build_version_branches at h
    split at h
    · cases h
    · rename_i m2 br hb
      exact ih _ cm1 m2 m1 h (branch_build_mono cvs master m2 cb br hb hm).1

theorem all_branches_mono (cvs : CvsFile) : ∀ (versions : List CvsVersion)
    (cm cm1 : CvsMaster) (master m1 : RevMaster),
    build_all_branches cvs versions cm master = some (cm1, m1) →
    Mono master.commits → Mono m1.commits := by
  intro versions
  induction versions with
  | nil =>
    intro cm cm1 master m1 h hm
    simp only [build_all_branches, Option.some.injEq, Prod.mk.injEq] at h
    obtain ⟨-, rfl⟩ := h; exact hm
  | cons cv rest ih =>
    intro cm cm1 master m1 h hm
    unfold build_all_branches at h
    split at h
    · cases h
    · rename_i cm2 m2 hb
      exact ih cm2 cm1 m2 m1 h (version_branches_mono cvs _ cm cm2 master m2 hb hm)

theorem digest_build_mono (cvs : CvsFile) (cm cm1 : CvsMaster)
    (master m1 : RevMaster) (ret : Option Nat)
    (h : digest_build cvs cm master = some (ret, cm1, m1)) :
    Mono m1.commits := by
  unfold digest_build at h
  split at h
  · cases h
  · rename_i m0 hm0
    have hm0' : Mono m0.commits := by
      unfold build_rev_master at hm0
      split at hm0
      · simp only [Option.some.injEq] at hm0
        subst hm0
        intro i ci p hci
        simp at hci
      · cases hm0
    split at h
    · cases h
    · rename_i m2 hb
      simp only [Option.some.injEq, Prod.mk.injEq] at h
      obtain ⟨-, -, rfl⟩ := h
      exact (branch_build_mono cvs m0 _ _ none hb hm0').1
    · rename_i m2 trunk hb
      have hm2 := (branch_build_mono cvs m0 _ _ _ hb hm0').1
      split at h
      rename_i cm2 t hadd
      split at h
      · cases h
      · split at h
        · cases h
        · rename_i cm3 m3 hall
          simp only [Option.some.injEq, Prod.mk.injEq] at h
          obtain ⟨-, -, rfl⟩ := h
          exact all_branches_mono cvs _ _ _ _ _ hall hm2

/-- Claim C2 as amended.  In the graph left by `cvs_master_digest` every
parent link is date-ordered, except possibly a link put after the build
phase under a commit that the branch builder left without parent (the root of
a chain: the vendor splice, which sets no tail flag, and the grafts, which set
it). -/
theorem digest_links_ordered (cvs : CvsFile) (cm cm1 : CvsMaster)
    (master m1 : RevMaster) (t : Nat) (d : Digest)
    (hb : digest_build cvs cm master = some (some t, cm1, m1))
    (hd : cvs_master_digest cvs cm master = some d)
    (i p : Nat) (ci1 : CvsCommit)
    (hci : d.master.commits[i]? = some ci1) (hp : ci1.parent = some p) :
    (∃ ci, m1.commits[i]? = some ci ∧ ci.parent = none) ∨
    (∃ pc1, d.master.commits[p]? = some pc1 ∧ pc1.date ≤ ci1.date) := by
  have hm := digest_build_mono cvs cm cm1 master m1 _ hb
  unfold cvs_master_digest at hd
  rw [hb] at hd
  simp only at hd
  split at hd
  · cases hd
  · rename_i cm2 cs2 hpass
    simp only [Option.some.injEq] at hd
    subst hd
    simp only at hci ⊢
    have hg := digest_passes_grows cvs cm1 cm2 m1.commits cs2 hpass
    have hlen : cs2.length = m1.commits.length := by
      have := congrArg List.length hg.1
      simpa using this
    have hil : i < m1.commits.length := by
      rw [← hlen]; exact getElem?_lt_of_some hci
    obtain ⟨ci, hci0⟩ : ∃ ci, m1.commits[i]? = some ci :=
      ⟨_, List.getElem?_eq_getElem hil⟩
    cases hpar : ci.parent with
    | none => exact Or.inl ⟨ci, hci0, hpar⟩
    | some p0 =>
      right
      obtain ⟨ci2, pc1, h1, h2, h3, h4⟩ := mono_of_grows hm hg i ci p0 hci0 hpar
      rw [hci] at h1; cases h1
      rw [hp] at h2; cases h2
      exact ⟨pc1, h3, h4⟩

/-- Witness of the amended C2 on `vendor_early_file`: the link from `1.1.1.2`
to `1.1.1.1`, which the builder made. -/
theorem digest_links_ordered_witness :
    (∃ ci, vendor_early_commits[2]? = some ci ∧ ci.parent = none) ∨
    (∃ pc1, [commit_at [1, 1] 100 none, commit_at [1, 1, 1, 1] 50 (some 0),
        commit_at [1, 1, 1, 2] 60 (some 1)][1]? = some pc1 ∧ pc1.date ≤ 60) :=
  digest_links_ordered vendor_early_file empty_cm vendor_early_cm
    empty_master
    { name := "vendor", fileop_name := "vendor", dir := "", mode := 0,
      commits := vendor_early_commits } 0
    { ret := some 0,
      cm := { refs := [{ commit := some 2, ref_name := some "master",
                         number := some [1, 1, 1, 2], degree := 4,
                         parent := none, tail := false },
                       { commit := some 2, ref_name := some "import-1.1.1",
                         number := some [1, 1, 1, 2], degree := 4,
                         parent := some 0, tail := false }],
              heads := [0] },
      master := { name := "vendor", fileop_name := "vendor", dir := "",
                  mode := 0,
                  commits := [commit_at [1, 1] 100 none,
                              commit_at [1, 1, 1, 1] 50 (some 0),
                              commit_at [1, 1, 1, 2] 60 (some 1)] } }
    (by decide) (by decide!) 2 1 (commit_at [1, 1, 1, 2] 60 (some 1))
    (by decide) (by decide)

/-- Claim C2 as stated fails: after the digest of `vendor_early_file` the
trunk chain is `1.1.1.2`, `1.1.1.1`, `1.1` without any tail flag, and `1.1`
(dated 100) is the parent of `1.1.1.1` (dated 50). -/
theorem vendor_splice_dates_unordered :
    (cvs_master_digest vendor_early_file empty_cm empty_master).map
      heads_date_ordered = some false := by
  decide!

/-! ## The build phase of the digest -/

theorem build_commits_head_some : ∀ (nodes : List Node)
    (commits : List CvsCommit) (h : Nat),
    ∃ h1, (build_commits nodes commits (some h)).2 = some h1 := by
  intro nodes
  induction nodes with
  | nil => intro commits h; exact ⟨h, rfl⟩
  | cons node rest ih =>
    intro commits h
    unfold build_commits
    cases node.version with
    | none => exact ih commits h
    | some v => exact ih _ _

theorem build_commits_head_none : ∀ (nodes : List Node)
    (commits : List CvsCommit),
    (build_commits nodes commits none).2 = none ↔
      ∀ node ∈ nodes, node.version = none := by
  intro nodes
  induction nodes with
  | nil => intro commits; simp [build_commits]
  | cons node rest ih =>
    intro commits
    unfold build_commits
    cases hv : node.version with
    | none =>
      simp only [List.mem_cons, forall_eq_or_imp, hv, true_and]
      exact ih commits
    | some v =>
      simp only [List.mem_cons, forall_eq_or_imp, hv]
      obtain ⟨h1, hh⟩ := build_commits_head_some rest
        (commits ++ [new_commit v node.patch none]) commits.length
      rw [hh]
      simp

theorem branch_build_none_iff (cvs : CvsFile) (master m1 : RevMaster)
    (branch : CvsNumber) (head : Option Nat)
    (h : cvs_master_branch_build cvs master branch = some (m1, head)) :
    head = none ↔
      ∀ node ∈ cvs.find_version (branch_key branch), node.version = none := by
  rw [← build_commits_head_none _ master.commits]
  unfold cvs_master_branch_build at h
  split at h
  · rename_i cs hb
    simp only [Option.some.injEq, Prod.mk.injEq] at h
    rw [hb, ← h.2]
  · rename_i cs hd hb
    split at h
    · cases h
    · simp only [Option.some.injEq, Prod.mk.injEq] at h
      rw [hb, ← h.2]

/-- The heads that `rev_list_add_head (cm, branch, NULL, 0)` registers. -/
theorem version_branches_spec (cvs : CvsFile) : ∀ (branches : List CvsNumber)
    (cm : CvsMaster) (master : RevMaster),
    ∃ cm1 m1 news, build_version_branches cvs branches cm master
        = some (cm1, m1) ∧
      cm1.refs = cm.refs ++ news ∧
      cm1.heads = cm.heads ++ List.range' cm.refs.length news.length ∧
      ∀ r ∈ news, r.ref_name = none ∧ r.number = none ∧ r.parent = none ∧
        r.tail = false := by
  intro branches
  induction branches with
  | nil =>
    intro cm master
    exact ⟨cm, master, [], rfl, by simp, by simp, by simp⟩
  | cons cb rest ih =>
    intro cm master
    obtain ⟨cs, head, hb, -⟩ := branch_build_spec cvs master cb
    unfold build_version_branches
    simp only [hb]
    obtain ⟨cm1, m1, news, h1, h2, h3, h4⟩ :=
      ih (rev_list_add_head cm head none 0).1 { master with commits := cs }
    refine ⟨cm1, m1, new_head head none 0 :: news, h1, ?_, ?_, ?_⟩
    · rw [h2]; simp [rev_list_add_head]
    · rw [h3]; simp [rev_list_add_head, List.range'_succ]
    · intro r hr
      rcases List.mem_cons.mp hr with rfl | hr
      · exact ⟨rfl, rfl, rfl, rfl⟩
      · exact h4 r hr

theorem all_branches_spec (cvs : CvsFile) : ∀ (versions : List CvsVersion)
    (cm : CvsMaster) (master : RevMaster),
    ∃ cm1 m1 news, build_all_branches cvs versions cm master
        = some (cm1, m1) ∧
      cm1.refs = cm.refs ++ news ∧
      cm1.heads = cm.heads ++ List.range' cm.refs.length news.length ∧
      ∀ r ∈ news, r.ref_name = none ∧ r.number = none ∧ r.parent = none ∧
        r.tail = false := by
  intro versions
  induction versions with
  | nil =>
    intro cm master
    exact ⟨cm, master, [], rfl, by simp, by simp, by simp⟩
  | cons cv rest ih =>
    intro cm master
    obtain ⟨cm1, m1, news1, h1, h2, h3, h4⟩ :=
      version_branches_spec cvs cv.branches cm master
    obtain ⟨cm2, m2, news2, g1, g2, g3, g4⟩ := ih cm1 m1
    unfold build_all_branches
    simp only [h1]
    refine ⟨cm2, m2, news1 ++ news2, g1, ?_, ?_, ?_⟩
    · rw [g2, h2, List.append_assoc]
    · rw [g3, h3, h2, List.append_assoc, List.length_append,
        List.length_append, List.range'_append_1, Nat.add_comm]
    · intro r hr
      rcases List.mem_append.mp hr with hr | hr
      · exact h4 r hr
      · exact g4 r hr

theorem digest_build_spec (cvs : CvsFile) (cm : CvsMaster)
    (master m0 : RevMaster) (hm0 : build_rev_master cvs master = some m0) :
    ∃ m1 trunk, cvs_master_branch_build cvs m0 (trunk_number cvs)
        = some (m1, trunk) ∧
      (trunk = none → digest_build cvs cm master = some (none, cm, m1)) ∧
      (∀ t, trunk = some t → ∃ cm3 m3 news,
        digest_build cvs cm master = some (some t, cm3, m3) ∧
        cm3.refs = cm.refs ++ trunk_head cvs t :: news ∧
        cm3.heads = cm.heads ++
          cm.refs.length :: List.range' (cm.refs.length + 1) news.length ∧
        ∀ r ∈ news, r.ref_name = none ∧ r.number = none ∧ r.parent = none ∧
          r.tail = false) := by
  obtain ⟨cs, trunk, hb, -⟩ := branch_build_spec cvs m0 (trunk_number cvs)
  refine ⟨_, trunk, hb, ?_, ?_⟩
  · intro ht
    subst ht
    unfold digest_build
    simp only [hm0, hb]
  · intro t ht
    subst ht
    unfold digest_build
    simp only [hm0, hb, rev_list_add_head, set_head_number]
    rw [List.getElem?_append_right (Nat.le_refl _)]
    simp only [Nat.sub_self, List.getElem?_cons_zero]
    obtain ⟨cm3, m3, news, h1, h2, h3, h4⟩ := all_branches_spec cvs cvs.versions
      { refs := (cm.refs ++ [new_head (some t) (some "master") 2]).set
          cm.refs.length (trunk_head cvs t),
        heads := cm.heads ++ [cm.refs.length] }
      { m0 with commits := cs }
    have hset : (cm.refs ++ [new_head (some t) (some "master") 2]).set
        cm.refs.length (trunk_head cvs t) = cm.refs ++ [trunk_head cvs t] := by
      rw [List.set_append_right _ _ (Nat.le_refl _)]
      simp
    rw [hset] at h1 h2 h3
    refine ⟨cm3, m3, news, ?_, ?_, ?_, h4⟩
    · have hset' : (cm.refs ++ [new_head (some t) (some "master") 2]).set
          cm.refs.length
          { new_head (some t) (some "master") 2 with
            number := some (trunk_number cvs) } = cm.refs ++ [trunk_head cvs t] :=
        hset
      rw [hset', h1]
    · rw [h2]; simp
    · rw [h3]; simp [List.range'_succ]

/-- The early return of the digest.  Once the master metadata is built, the
trunk build returns; it yields no commit exactly when no node under the trunk lookup key
carries a version, and then `cvs_master_digest` returns `NULL` and leaves the
head list alone.  In every other case the head `master` of degree 2 is
registered for the trunk tip at the end of the build phase, and whenever
`cvs_master_digest` has a result, the returned value is that trunk tip. -/
theorem digest_none_iff_no_trunk (cvs : CvsFile) (cm : CvsMaster)
    (master m0 : RevMaster) (hm0 : build_rev_master cvs master = some m0) :
    ∃ m1 trunk, cvs_master_branch_build cvs m0 (trunk_number cvs)
        = some (m1, trunk) ∧
      (trunk = none ↔
        ∀ node ∈ cvs.find_version (branch_key (trunk_number cvs)),
          node.version = none) ∧
      (trunk = none → cvs_master_digest cvs cm master
        = some { ret := none, cm := cm, master := m1 }) ∧
      (∀ t, trunk = some t →
        (∃ cm3 m3, digest_build cvs cm master = some (some t, cm3, m3) ∧
          cm3.refs[cm.refs.length]? = some (trunk_head cvs t) ∧
          cm.refs.length ∈ cm3.heads) ∧
        ∀ d, cvs_master_digest cvs cm master = some d → d.ret = some t) := by
  obtain ⟨m1, trunk, hb, hnone, hsome⟩ := digest_build_spec cvs cm master m0 hm0
  refine ⟨m1, trunk, hb, branch_build_none_iff cvs m0 m1 _ trunk hb, ?_, ?_⟩
  · intro ht
    unfold cvs_master_digest
    rw [hnone ht]
  · intro t ht
    obtain ⟨cm3, m3, news, h1, h2, h3, -⟩ := hsome t ht
    refine ⟨⟨cm3, m3, h1, ?_, ?_⟩, ?_⟩
    · rw [h2, List.getElem?_append_right (Nat.le_refl _)]
      simp
    · rw [h3]; simp
    · intro d hd
      unfold cvs_master_digest at hd
      rw [h1] at hd
      simp only at hd
      split at hd
      · cases hd
      · simp only [Option.some.injEq] at hd
        rw [← hd]

/-- The digest of `skew_file` returns the trunk tip, commit 2. -/
theorem digest_none_iff_no_trunk_witness :
    (cvs_master_digest skew_file empty_cm empty_master).map Digest.ret
      = some (some 2) ∧
    ∃ m1 trunk, cvs_master_branch_build skew_file
        { empty_master with name := "skew", fileop_name := "skew" }
        (trunk_number skew_file) = some (m1, trunk) ∧
      (trunk = none ↔
        ∀ node ∈ skew_file.find_version (branch_key (trunk_number skew_file)),
          node.version = none) ∧
      (trunk = none → cvs_master_digest skew_file empty_cm empty_master
        = some { ret := none, cm := empty_cm, master := m1 }) ∧
      (∀ t, trunk = some t →
        (∃ cm3 m3, digest_build skew_file empty_cm empty_master
            = some (some t, cm3, m3) ∧
          cm3.refs[empty_cm.refs.length]? = some (trunk_head skew_file t) ∧
          empty_cm.refs.length ∈ cm3.heads) ∧
        ∀ d, cvs_master_digest skew_file empty_cm empty_master = some d →
          d.ret = some t) :=
  ⟨by decide,
   digest_none_iff_no_trunk skew_file empty_cm empty_master
     { empty_master with name := "skew", fileop_name := "skew" } (by decide)⟩

/-! ## How the passes change the heads -/

theorem ref_change_refl (cvs : CvsFile) (r : RevRef) : RefChange cvs r r :=
  ⟨Or.inl rfl, id, fun _ h => h⟩

theorem ref_change_trans {cvs : CvsFile} {a b c : RevRef}
    (h1 : RefChange cvs a b) (h2 : RefChange cvs b c) : RefChange cvs a c := by
  obtain ⟨n1, p1, z1⟩ := h1
  obtain ⟨n2, p2, z2⟩ := h2
  refine ⟨?_, fun h => p2 (p1 h), ?_⟩
  · rcases n1 with e1 | ⟨e1, nm1, e1', m1⟩
    · rcases n2 with e2 | ⟨e2, nm2, e2', m2⟩
      · exact Or.inl (e2.trans e1)
      · exact Or.inr ⟨e1 ▸ e2, nm2, e2', m2⟩
    · rcases n2 with e2 | ⟨e2, nm2, e2', m2⟩
      · exact Or.inr ⟨e1, nm1, e2.trans e1', m1⟩
      · rw [e1'] at e2; cases e2
  · intro hn hz
    have hb : b.ref_name ≠ none := by
      rcases n1 with e1 | ⟨e1, _⟩
      · rw [e1]; exact hn
      · exact absurd e1 hn
    exact z2 hb (z1 hn hz)

theorem arena_step_refl (cvs : CvsFile) (refs : List RevRef) :
    ArenaStep cvs refs refs :=
  ⟨Nat.le_refl _, fun _ r1 h => Or.inl ⟨r1, h, ref_change_refl cvs r1⟩⟩

theorem fresh_of_change {cvs : CvsFile} {r r1 : RevRef} (hf : FreshRef cvs r)
    (hc : RefChange cvs r r1) : FreshRef cvs r1 := by
  refine ⟨hc.2.1 hf.1, ?_⟩
  rcases hc.1 with e | ⟨_, nm, e, m⟩
  · rw [e]; exact hf.2
  · exact Or.inr ⟨nm, e, m⟩

theorem arena_step_trans {cvs : CvsFile} {a b c : List RevRef}
    (h1 : ArenaStep cvs a b) (h2 : ArenaStep cvs b c) :
    ArenaStep cvs a c := by
  refine ⟨Nat.le_trans h1.1 h2.1, ?_⟩
  intro i r1 hr1
  rcases h2.2 i r1 hr1 with ⟨rb, hrb, hc2⟩ | ⟨hi, hf⟩
  · rcases h1.2 i rb hrb with ⟨ra, hra, hc1⟩ | ⟨hi, hf⟩
    · exact Or.inl ⟨ra, hra, ref_change_trans hc1 hc2⟩
    · exact Or.inr ⟨hi, fresh_of_change hf hc2⟩
  · exact Or.inr ⟨Nat.le_trans h1.1 hi, hf⟩

theorem arena_step_set {cvs : CvsFile} {refs : List RevRef} {v : Nat}
    {r r1 : RevRef} (h : refs[v]? = some r) (hc : RefChange cvs r r1) :
    ArenaStep cvs refs (refs.set v r1) := by
  refine ⟨by simp, ?_⟩
  intro i x hx
  left
  by_cases hvi : v = i
  · subst hvi
    rw [List.getElem?_set_self (getElem?_lt_of_some h)] at hx
    cases hx
    exact ⟨r, h, hc⟩
  · rw [List.getElem?_set_ne hvi] at hx
    exact ⟨x, hx, ref_change_refl cvs x⟩

theorem arena_step_push {cvs : CvsFile} (refs : List RevRef) {r1 : RevRef}
    (hf : FreshRef cvs r1) : ArenaStep cvs refs (refs ++ [r1]) := by
  refine ⟨by simp, ?_⟩
  intro i x hx
  by_cases hi : i < refs.length
  · rw [List.getElem?_append_left hi] at hx
    exact Or.inl ⟨x, hx, ref_change_refl cvs x⟩
  · have hge : refs.length ≤ i := Nat.le_of_not_lt hi
    rw [List.getElem?_append_right hge] at hx
    have h0 : i - refs.length = 0 := by
      by_contra hne
      have : ([r1])[i - refs.length]? = none := by
        apply List.getElem?_eq_none
        simp; omega
      rw [this] at hx; cases hx
    rw [h0] at hx
    simp at hx
    subst hx
    exact Or.inr ⟨hge, hf⟩

theorem vendor_ne_zero {n : CvsNumber} (h : cvs_is_vendor n = true) :
    n ≠ cvs_zero := by
  intro hn
  subst hn
  simp [cvs_is_vendor, cvs_zero] at h

theorem patch_vendor_loop_step (cvs : CvsFile) (cs : List CvsCommit)
    (trunk : Nat) : ∀ (heads : List Nat) (refs : List RevRef)
    (nv : Option Nat) (refs1 : List RevRef) (nv1 : Option Nat),
    patch_vendor_loop cs trunk heads refs nv = some (refs1, nv1) →
    ArenaStep cvs refs refs1 ∧ refs1.length = refs.length ∧
    (∀ h, head_commit refs1 h = head_commit refs h) ∧
    (nv1 = nv ∨ ∃ v, nv1 = some v ∧ is_vendor_head refs cs v = true) := by
  intro heads
  induction heads with
  | nil =>
    intro refs nv refs1 nv1 h
    simp only [patch_vendor_loop, Option.some.injEq, Prod.mk.injEq] at h
    obtain ⟨rfl, rfl⟩ := h
    exact ⟨arena_step_refl cvs _, rfl, fun _ => rfl, Or.inl rfl⟩
  | cons v rest ih =>
    intro refs nv refs1 nv1 h
    unfold patch_vendor_loop at h
    cases hr : refs[v]? with
    | none => rw [hr] at h; cases h
    | some r =>
      rw [hr] at h
      simp only at h
      cases hcm : r.commit with
      | none =>
        rw [hcm] at h
        exact ih refs nv refs1 nv1 h
      | some tip =>
        rw [hcm] at h
        simp only at h
        cases htc : cs[tip]? with
        | none => rw [htc] at h; cases h
        | some tc =>
          rw [htc] at h
          simp only at h
          by_cases hven : cvs_is_vendor tc.number = true
          · rw [if_pos hven] at h
            have hisv : is_vendor_head refs cs v = true := by
              simp [is_vendor_head, head_commit, hr, hcm, htc, hven]
            -- the step for a rewritten head
            have hstep : ∀ (r1 : RevRef), r1.commit = r.commit →
                RefChange cvs r r1 →
                patch_vendor_loop cs trunk rest (refs.set v r1) (some v)
                  = some (refs1, nv1) →
                ArenaStep cvs refs refs1 ∧ refs1.length = refs.length ∧
                (∀ h, head_commit refs1 h = head_commit refs h) ∧
                (nv1 = nv ∨ ∃ v, nv1 = some v ∧
                  is_vendor_head refs cs v = true) := by
              intro r1 hc hch hrun
              obtain ⟨h1, h2, h3, h4⟩ := ih _ _ _ _ hrun
              have hcongr := head_commit_set refs v r r1 hr hc
              refine ⟨arena_step_trans (arena_step_set hr hch) h1,
                by rw [h2, List.length_set], fun x => by rw [h3, hcongr], ?_⟩
              right
              rcases h4 with e | ⟨w, e, hw⟩
              · exact ⟨v, e, hisv⟩
              · exact ⟨w, e, by rw [← is_vendor_head_congr cs hcongr]; exact hw⟩
            cases hnm : r.ref_name with
            | some name =>
              rw [hnm] at h
              refine hstep _ ?_ ?_ h
              · exact hcm.symm
              · exact ⟨Or.inl hnm.symm, fun _ _ => by simp,
                  fun _ _ => ⟨tc.number, rfl, vendor_ne_zero hven⟩⟩
            | none =>
              rw [hnm] at h
              simp only at h
              split at h
              · cases h
              · split at h
                · cases h
                · refine hstep _ ?_ ?_ h
                  · exact hcm.symm
                  · exact ⟨Or.inr ⟨hnm, _, rfl, Or.inr (Or.inl ⟨_, rfl⟩)⟩,
                      fun _ _ => by simp,
                      fun _ _ => ⟨tc.number, rfl, vendor_ne_zero hven⟩⟩
          · rw [if_neg hven] at h
            exact ih refs nv refs1 nv1 h

theorem patch_vendor_step (cvs : CvsFile) (cm cm1 : CvsMaster)
    (cs cs1 : List CvsCommit)
    (h : cvs_master_patch_vendor_branch cm cs = some (cm1, cs1)) :
    ArenaStep cvs cm.refs cm1.refs ∧
    (cm1.heads = cm.heads ∨ ∃ nv, cm1.heads = unlink_head nv cm.heads) := by
  unfold cvs_master_patch_vendor_branch at h
  split at h
  · cases h
  · rename_i trunk rest hheads
    split at h
    · cases h
    · rename_i t0 ht0
      split at h
      · cases h
      · split at h
        · cases h
        · rename_i refs hloop
          obtain ⟨hstep, -, -, -⟩ := patch_vendor_loop_step cvs cs trunk _ _ _ _ _ hloop
          simp only [Option.some.injEq, Prod.mk.injEq] at h
          obtain ⟨rfl, -⟩ := h
          exact ⟨hstep, Or.inl rfl⟩
        · rename_i refs nv hloop
          obtain ⟨hstep, hlen, hcommit, hnv⟩ :=
            patch_vendor_loop_step cvs cs trunk _ _ _ _ _ hloop
          have hisv : is_vendor_head cm.refs cs nv = true := by
            rcases hnv with e | ⟨w, e, hw⟩
            · cases e
            · cases e; exact hw
          split at h
          · cases h
          · rename_i t ht
            split at h
            · cases h
            · split at h
              · cases h
              · split at h
                · simp only [Option.some.injEq, Prod.mk.injEq] at h
                  obtain ⟨rfl, -⟩ := h
                  exact ⟨hstep, Or.inl rfl⟩
                · split at h
                  · cases h
                  · rename_i nr hnr
                    split at h
                    · cases h
                    · rename_i ntip hntip
                      split at h
                      · cases h
                      · rename_i nc hnc
                        split at h
                        · cases h
                        · split at h
                          · cases h
                          · simp only [Option.some.injEq, Prod.mk.injEq] at h
                            obtain ⟨rfl, -⟩ := h
                            have hvn : cvs_is_vendor nc.number = true := by
                              have := hcommit nv
                              rw [← is_vendor_head_congr cs hcommit] at hisv
                              simpa [is_vendor_head, head_commit, hnr, hntip,
                                hnc] using hisv
                            refine ⟨arena_step_trans hstep
                              (arena_step_set ht ⟨Or.inl rfl, id,
                                fun _ _ => ⟨nc.number, rfl,
                                  vendor_ne_zero hvn⟩⟩), Or.inr ⟨nv, rfl⟩⟩

theorem head_ne_zero {n : CvsNumber} (h : cvs_is_head n = true) :
    n ≠ cvs_zero := by
  intro hn
  subst hn
  simp [cvs_is_head, cvs_zero] at h

theorem set_head_number_spec {cm cm1 : CvsMaster} {h : Nat} {n : CvsNumber}
    (hs : set_head_number cm h n = some cm1) :
    cm1.heads = cm.heads ∧ ∃ r, cm.refs[h]? = some r ∧
      cm1.refs = cm.refs.set h { r with number := some n } := by
  unfold set_head_number at hs
  split at hs
  · cases hs
  · rename_i r hr
    simp only [Option.some.injEq] at hs
    subst hs
    exact ⟨rfl, r, hr, rfl⟩

theorem set_head_number_step (cvs : CvsFile) {cm cm1 : CvsMaster} {h : Nat}
    {n : CvsNumber} (hn : n ≠ cvs_zero)
    (hs : set_head_number cm h n = some cm1) :
    cm1.heads = cm.heads ∧ ArenaStep cvs cm.refs cm1.refs := by
  obtain ⟨h1, r, hr, h2⟩ := set_head_number_spec hs
  refine ⟨h1, ?_⟩
  rw [h2]
  exact arena_step_set hr ⟨Or.inl rfl, id, fun _ _ => ⟨n, rfl, hn⟩⟩

theorem add_head_step (cvs : CvsFile) (cm : CvsMaster) (commit : Option Nat)
    (s : CvsSymbol) (hs : s ∈ cvs.symbols) (degree : Int) :
    ArenaStep cvs cm.refs
      (rev_list_add_head cm commit (some s.symbol_name) degree).1.refs ∧
    (rev_list_add_head cm commit (some s.symbol_name) degree).1.heads
      = cm.heads ++ [cm.refs.length] :=
  ⟨arena_step_push cm.refs
     ⟨fun h => absurd rfl h, Or.inr ⟨s.symbol_name, rfl, Or.inl ⟨s, hs, rfl⟩⟩⟩,
   rfl⟩

theorem set_refs_symbol_step (cvs : CvsFile) (cs : List CvsCommit)
    (cm cm1 : CvsMaster) (s : CvsSymbol) (hs : s ∈ cvs.symbols)
    (h : set_refs_symbol cs cm s = some cm1) :
    ArenaStep cvs cm.refs cm1.refs ∧
    ∃ news, cm1.heads = cm.heads ++ news ∧ ∀ x ∈ news, cm.refs.length ≤ x := by
  unfold set_refs_symbol at h
  split at h
  · rename_i hhead
    have hz := head_ne_zero hhead
    split at h
    · cases h
    · rename_i hd hfind
      split at h
      · cases h
      · rename_i r hr
        split at h
        · rename_i hnm
          obtain ⟨h1, h2⟩ := set_head_number_step cvs hz h
          refine ⟨arena_step_trans (arena_step_set hr
            ⟨Or.inr ⟨hnm, s.symbol_name, rfl, Or.inl ⟨s, hs, rfl⟩⟩,
             fun _ _ => by simp, fun hne => absurd hnm hne⟩) h2,
            [], by simpa using h1, by simp⟩
        · obtain ⟨h1, h2⟩ := set_head_number_step cvs hz h
          obtain ⟨a1, a2⟩ := add_head_step cvs cm r.commit s hs
            (cvs_number_degree s.number)
          exact ⟨arena_step_trans a1 h2, [cm.refs.length],
            by rw [h1], by simp⟩
    · split at h
      · cases h
      · simp only [Option.some.injEq] at h
        subst h
        exact ⟨arena_step_refl cvs _, [], by simp, by simp⟩
      · rename_i c hc
        obtain ⟨h1, h2⟩ := set_head_number_step cvs hz h
        obtain ⟨a1, a2⟩ := add_head_step cvs cm (some c) s hs
          (cvs_number_degree s.number)
        exact ⟨arena_step_trans a1 h2, [cm.refs.length],
          by rw [h1], by simp⟩
  · split at h
    · cases h
    · simp only [Option.some.injEq] at h
      subst h
      exact ⟨arena_step_refl cvs _, [], by simp, by simp⟩

theorem arena_step_length {cvs : CvsFile} {a b : List RevRef}
    (h : ArenaStep cvs a b) : a.length ≤ b.length := h.1

theorem set_refs_symbols_step (cvs : CvsFile) (cs : List CvsCommit) :
    ∀ (symbols : List CvsSymbol) (cm cm1 : CvsMaster),
    (∀ s ∈ symbols, s ∈ cvs.symbols) →
    set_refs_symbols cs symbols cm = some cm1 →
    ArenaStep cvs cm.refs cm1.refs ∧
    ∃ news, cm1.heads = cm.heads ++ news ∧ ∀ x ∈ news, cm.refs.length ≤ x := by
  intro symbols
  induction symbols with
  | nil =>
    intro cm cm1 _ h
    simp only [set_refs_symbols, Option.some.injEq] at h
    subst h
    exact ⟨arena_step_refl cvs _, [], by simp, by simp⟩
  | cons s rest ih =>
    intro cm cm1 hsub h
    unfold set_refs_symbols at h
    split at h
    · cases h
    · rename_i cm2 h2
      obtain ⟨a1, n1, e1, f1⟩ := set_refs_symbol_step cvs cs cm cm2 s
        (hsub s (List.mem_cons_self _ _)) h2
      obtain ⟨a2, n2, e2, f2⟩ := ih cm2 cm1
        (fun x hx => hsub x (List.mem_cons_of_mem _ hx)) h
      refine ⟨arena_step_trans a1 a2, n1 ++ n2, by
        rw [e2, e1, List.append_assoc], ?_⟩
      intro x hx
      rcases List.mem_append.mp hx with hx | hx
      · exact f1 x hx
      · exact Nat.le_trans a1.1 (f2 x hx)

theorem arena_step_point {cvs : CvsFile} {refs refs1 : List RevRef} {h : Nat}
    {r r1 : RevRef} (hlen : refs1.length = refs.length)
    (hr : refs[h]? = some r) (hr1 : refs1[h]? = some r1)
    (hc : RefChange cvs r r1) (hoth : ∀ i, i ≠ h → refs1[i]? = refs[i]?) :
    ArenaStep cvs refs refs1 := by
  refine ⟨by rw [hlen], ?_⟩
  intro i x hx
  left
  by_cases hi : i = h
  · subst hi
    rw [hr1] at hx; cases hx
    exact ⟨r, hr, hc⟩
  · rw [hoth i hi] at hx
    exact ⟨x, hx, ref_change_refl cvs x⟩

theorem fix_unnamed_step (cvs : CvsFile) (cs : List CvsCommit) :
    ∀ (heads : List Nat) (refs refs2 : List RevRef),
    fix_unnamed cs heads refs = some refs2 →
    ArenaStep cvs refs refs2 ∧ refs2.length = refs.length := by
  intro heads
  induction heads with
  | nil =>
    intro refs refs2 h
    simp only [fix_unnamed, Option.some.injEq] at h
    subst h
    exact ⟨arena_step_refl cvs _, rfl⟩
  | cons hd rest ih =>
    intro refs refs2 h
    unfold fix_unnamed at h
    split at h
    · cases h
    · rename_i r hr
      split at h
      · exact ih refs refs2 h
      · rename_i hnm
        have hstep : ∀ (r1 : RevRef), r1.ref_name = r.ref_name →
            r1.parent = r.parent →
            fix_unnamed cs rest (refs.set hd r1) = some refs2 →
            ArenaStep cvs refs refs2 ∧ refs2.length = refs.length := by
          intro r1 e1 e2 hrun
          obtain ⟨a, l⟩ := ih _ _ hrun
          refine ⟨arena_step_trans (arena_step_set hr
            ⟨Or.inl e1, ?_, fun hne => absurd hnm hne⟩) a,
            by rw [l, List.length_set]⟩
          intro hp hpar
          rw [e1]; rw [e2] at hpar
          exact hp hpar
        split at h
        · cases h
        · split at h
          · cases h
          · refine hstep _ ?_ ?_ h <;> rfl
        · split at h
          · cases h
          · split at h
            · cases h
            · refine hstep _ ?_ ?_ h <;> rfl

theorem name_unnamed_spec (cs : List CvsCommit) (cm cm1 : CvsMaster) (h : Nat)
    (hn : name_unnamed cs cm h = some cm1) :
    cm1.heads = cm.heads ∧ cm1.refs.length = cm.refs.length ∧
    (∀ i, i ≠ h → cm1.refs[i]? = cm.refs[i]?) ∧
    ∃ r r1, cm.refs[h]? = some r ∧ cm1.refs[h]? = some r1 ∧
      r1.number = r.number ∧ r1.parent = r.parent ∧ ParentNamed r1 ∧
      (r1.ref_name = r.ref_name ∨
        (r.ref_name = none ∧
          ∃ pn id, r1.ref_name = some (unnamed_branch_name pn id))) := by
  unfold name_unnamed at hn
  split at hn
  · cases hn
  · rename_i r hr
    split at hn
    · rename_i ph hpar hnm
      split at hn
      · cases hn
      · rename_i pr _
        split at hn
        · cases hn
        · split at hn
          · cases hn
          · rename_i tc _
            simp only [Option.some.injEq] at hn
            subst hn
            have hget := List.getElem?_set_self (getElem?_lt_of_some hr)
              (a := ({ r with ref_name := some (unnamed_branch_name
                (printed_name pr.ref_name) tc.commitid) } : RevRef))
            exact ⟨rfl, by simp, fun i hi => by
              simp only; rw [List.getElem?_set_ne (Ne.symm hi)], r, _, hr,
              hget, rfl, rfl, fun _ => by simp,
              Or.inr ⟨hnm, printed_name pr.ref_name, tc.commitid, rfl⟩⟩
    · rename_i hcase
      simp only [Option.some.injEq] at hn
      subst hn
      refine ⟨rfl, rfl, fun _ _ => rfl, r, r, hr, hr, rfl, rfl, ?_, Or.inl rfl⟩
      intro hp
      cases hpar : r.parent with
      | none => exact absurd hpar hp
      | some ph =>
        cases hnm : r.ref_name with
        | none => exact absurd hnm (hcase ph hpar)
        | some nm => simp

theorem link_head_spec (cvs : CvsFile) (cs : List CvsCommit)
    (cm cm1 : CvsMaster) (h : Nat) (hl : link_head cs cm h = some cm1) :
    cm1.heads = cm.heads ∧ cm1.refs.length = cm.refs.length ∧
    (∀ i, i ≠ h → cm1.refs[i]? = cm.refs[i]?) ∧
    ∃ r r1, cm.refs[h]? = some r ∧ cm1.refs[h]? = some r1 ∧
      r1.number ≠ none ∧ RefChange cvs r r1 := by
  unfold link_head at hl
  split at hl
  · cases hl
  · rename_i r hr
    have hlt : h < cm.refs.length := getElem?_lt_of_some hr
    have hfin : ∀ (refsX : List RevRef) (rx : RevRef),
        refsX.length = cm.refs.length → refsX[h]? = some rx →
        (∀ i, i ≠ h → refsX[i]? = cm.refs[i]?) →
        rx.ref_name = r.ref_name →
        rx.number = some (r.number.getD cvs_zero) →
        name_unnamed cs { refs := refsX, heads := cm.heads } h = some cm1 →
        cm1.heads = cm.heads ∧ cm1.refs.length = cm.refs.length ∧
        (∀ i, i ≠ h → cm1.refs[i]? = cm.refs[i]?) ∧
        ∃ r r1, cm.refs[h]? = some r ∧ cm1.refs[h]? = some r1 ∧
          r1.number ≠ none ∧ RefChange cvs r r1 := by
      intro refsX rx hlen hx hoth hname hnum hrun
      obtain ⟨h1, h2, h3, r0, r1, hr0, hr1, e1, e2, e3, e4⟩ :=
        name_unnamed_spec cs _ cm1 h hrun
      simp only at hr0 h2 h3 h1
      rw [hx] at hr0; cases hr0
      refine ⟨h1, by rw [h2, hlen], fun i hi => by rw [h3 i hi, hoth i hi],
        r, r1, hr, hr1, by rw [e1, hnum]; simp, ?_, fun _ => e3, ?_⟩
      · rcases e4 with e | ⟨e, pn, id, e'⟩
        · exact Or.inl (e.trans hname)
        · exact Or.inr ⟨hname ▸ e, _, e', Or.inr (Or.inr ⟨pn, id, rfl⟩)⟩
      · intro _ hz
        obtain ⟨n, hn, hne⟩ := hz
        exact ⟨n, by rw [e1, hnum, hn]; rfl, hne⟩
    split at hl
    · rename_i hzero
      simp only [Option.some.injEq] at hl
      subst hl
      exact ⟨rfl, rfl, fun _ _ => rfl, r, r, hr, hr, by rw [hzero]; simp,
        ref_change_refl cvs r⟩
    · simp only at hl
      split at hl
      · split at hl
        · cases hl
        · rename_i ph _
          refine hfin _ _ ?_ (List.getElem?_set_self (by simpa using hlt))
            ?_ ?_ ?_ hl
          · simp
          · intro i hi
            rw [List.getElem?_set_ne (Ne.symm hi),
              List.getElem?_set_ne (Ne.symm hi)]
          · rfl
          · rfl
      · refine hfin _ _ ?_ (List.getElem?_set_self hlt) ?_ ?_ ?_ hl
        · simp
        · intro i hi
          rw [List.getElem?_set_ne (Ne.symm hi)]
        · rfl
        · rfl

theorem link_heads_spec (cvs : CvsFile) (cs : List CvsCommit) :
    ∀ (heads : List Nat) (cm cm1 : CvsMaster),
    link_heads cs heads cm = some cm1 →
    cm1.heads = cm.heads ∧ ArenaStep cvs cm.refs cm1.refs ∧
    (∀ (i : Nat) (r : RevRef), cm.refs[i]? = some r → r.number ≠ none →
      ∃ r1, cm1.refs[i]? = some r1 ∧ r1.number ≠ none) ∧
    (∀ h ∈ heads, ∃ r1, cm1.refs[h]? = some r1 ∧ r1.number ≠ none) := by
  intro heads
  induction heads with
  | nil =>
    intro cm cm1 h
    simp only [link_heads, Option.some.injEq] at h
    subst h
    exact ⟨rfl, arena_step_refl cvs _, fun i r hr hn => ⟨r, hr, hn⟩,
      by simp⟩
  | cons hd rest ih =>
    intro cm cm1 h
    unfold link_heads at h
    split at h
    · cases h
    · rename_i cm2 h2
      obtain ⟨a1, a2, a3, r, r1, hr, hr1, hnum, hch⟩ :=
        link_head_spec cvs cs cm cm2 hd h2
      obtain ⟨b1, b2, b3, b4⟩ := ih cm2 cm1 h
      have hkeep : ∀ (i : Nat) (x : RevRef), cm.refs[i]? = some x →
          x.number ≠ none → ∃ x1, cm1.refs[i]? = some x1 ∧ x1.number ≠ none := by
        intro i x hx hxn
        by_cases hi : i = hd
        · subst hi
          exact b3 i r1 hr1 hnum
        · exact b3 i x (by rw [a3 i hi]; exact hx) hxn
      refine ⟨by rw [b1, a1],
        arena_step_trans (arena_step_point a2 hr hr1 hch a3) b2, hkeep, ?_⟩
      intro x hx
      rcases List.mem_cons.mp hx with rfl | hx
      · exact b3 x r1 hr1 hnum
      · exact b4 x hx

/-! ## The head sort keeps the heads, and a least first head first -/

theorem merge_runs_mem (cvs : CvsFile) (refs : List RevRef) :
    ∀ (fuel : Nat) (ps qs : List Nat) (x : Nat),
    x ∈ merge_runs cvs refs fuel ps qs → x ∈ ps ∨ x ∈ qs := by
  intro fuel
  induction fuel with
  | zero => intro ps qs x h; simp [merge_runs] at h
  | succ fuel ih =>
    intro ps qs x h
    cases ps with
    | nil =>
      cases qs with
      | nil => simp [merge_runs] at h
      | cons q qs =>
        simp only [merge_runs, List.mem_cons] at h
        rcases h with rfl | h
        · simp
        · rcases ih [] qs x h with h | h
          · simp at h
          · right; exact List.mem_cons_of_mem _ h
    | cons p ps =>
      cases qs with
      | nil =>
        simp only [merge_runs, List.mem_cons] at h
        rcases h with rfl | h
        · simp
        · rcases ih ps [] x h with h | h
          · left; exact List.mem_cons_of_mem _ h
          · simp at h
      | cons q qs =>
        simp only [merge_runs] at h
        split at h
        · simp only [List.mem_cons] at h
          rcases h with rfl | h
          · simp
          · rcases ih (p :: ps) qs x h with h | h
            · left; exact h
            · right; exact List.mem_cons_of_mem _ h
        · simp only [List.mem_cons] at h
          rcases h with rfl | h
          · simp
          · rcases ih ps (q :: qs) x h with h | h
            · left; exact List.mem_cons_of_mem _ h
            · right; exact h

theorem merge_pass_mem (cvs : CvsFile) (refs : List RevRef) (k : Nat) :
    ∀ (fuel : Nat) (l : List Nat) (x : Nat),
    x ∈ (merge_pass cvs refs k fuel l).1 → x ∈ l := by
  intro fuel
  induction fuel with
  | zero => intro l x h; simp [merge_pass] at h
  | succ fuel ih =>
    intro l x h
    cases l with
    | nil => simp [merge_pass] at h
    | cons y ys =>
      simp only [merge_pass, List.mem_append] at h
      rcases h with h | h
      · rcases merge_runs_mem cvs refs _ _ _ x h with h | h
        · exact List.mem_of_mem_take h
        · exact List.mem_of_mem_drop (List.mem_of_mem_take h)
      · exact List.mem_of_mem_drop (List.mem_of_mem_drop (ih _ x h))

theorem sort_loop_mem (cvs : CvsFile) (refs : List RevRef) :
    ∀ (fuel k : Nat) (p l : List Nat),
    sort_loop cvs refs fuel k p = some l → ∀ x ∈ l, x ∈ p := by
  intro fuel
  induction fuel with
  | zero => intro k p l h; simp [sort_loop] at h
  | succ fuel ih =>
    intro k p l h x hx
    simp only [sort_loop] at h
    split at h
    · simp only [Option.some.injEq] at h
      subst h
      exact merge_pass_mem cvs refs k _ p x hx
    · exact merge_pass_mem cvs refs k _ p x (ih _ _ _ h x hx)

theorem merge_runs_first (cvs : CvsFile) (refs : List RevRef) (t : Nat)
    (hmin : ∀ q, ¬ rev_ref_compare cvs refs t q > 0) (fuel : Nat)
    (ps qs : List Nat) :
    merge_runs cvs refs (fuel + 1) (t :: ps) qs
      = t :: merge_runs cvs refs fuel ps qs := by
  cases qs with
  | nil => simp [merge_runs]
  | cons q qs => simp [merge_runs, hmin q]

theorem merge_pass_first (cvs : CvsFile) (refs : List RevRef) (t : Nat)
    (hmin : ∀ q, ¬ rev_ref_compare cvs refs t q > 0) (k : Nat) (hk : 1 ≤ k)
    (fuel : Nat) (xs : List Nat) :
    ∃ out, (merge_pass cvs refs k (fuel + 1) (t :: xs)).1 = t :: out ∧
      ∀ x ∈ out, x ∈ xs := by
  simp only [merge_pass]
  cases xs with
  | nil =>
    refine ⟨(merge_pass cvs refs k fuel []).1, ?_, ?_⟩
    · have hk' : List.take k [t] = [t] := by
        cases k with
        | zero => omega
        | succ k => simp
      have hd : List.drop k [t] = [] := by
        cases k with
        | zero => omega
        | succ k => simp
      simp [hk', hd, merge_runs]
    · intro x hx
      exact merge_pass_mem cvs refs k fuel [] x hx
  | cons y ys =>
    have hps : min k (y :: ys).length = (min k (y :: ys).length - 1) + 1 := by
      simp only [List.length_cons]; omega
    have htake : List.take (min k (y :: ys).length) (t :: y :: ys)
        = t :: List.take (min k (y :: ys).length - 1) (y :: ys) := by
      rw [hps]; simp
    have hdrop : List.drop (min k (y :: ys).length) (t :: y :: ys)
        = List.drop (min k (y :: ys).length - 1) (y :: ys) := by
      rw [hps]; simp
    rw [htake, hdrop]
    have hfuel : min k (y :: ys).length +
        (List.take k (List.drop (min k (y :: ys).length - 1) (y :: ys))).length
        = (min k (y :: ys).length - 1 +
          (List.take k (List.drop (min k (y :: ys).length - 1)
            (y :: ys))).length) + 1 := by
      omega
    rw [hfuel, merge_runs_first cvs refs t hmin, List.cons_append]
    refine ⟨_, rfl, ?_⟩
    intro x hx
    simp only [List.mem_append] at hx
    rcases hx with hx | hx
    · rcases merge_runs_mem cvs refs _ _ _ x hx with h | h
      · exact List.mem_of_mem_take h
      · exact List.mem_of_mem_drop (List.mem_of_mem_take h)
    · exact List.mem_of_mem_drop (List.mem_of_mem_drop
        (merge_pass_mem cvs refs k fuel _ x hx))

theorem sort_loop_first (cvs : CvsFile) (refs : List RevRef) (t : Nat)
    (hmin : ∀ q, ¬ rev_ref_compare cvs refs t q > 0) :
    ∀ (fuel k : Nat) (xs l : List Nat), 1 ≤ k →
    sort_loop cvs refs fuel k (t :: xs) = some l →
    ∃ out, l = t :: out ∧ ∀ x ∈ out, x ∈ xs := by
  intro fuel
  induction fuel with
  | zero => intro k xs l _ h; simp [sort_loop] at h
  | succ fuel ih =>
    intro k xs l hk h
    simp only [sort_loop] at h
    obtain ⟨out, hout, hmem⟩ := merge_pass_first cvs refs t hmin k hk
      xs.length xs
    simp only [List.length_cons] at h
    split at h
    · simp only [Option.some.injEq] at h
      subst h
      exact ⟨out, hout, hmem⟩
    · rw [hout] at h
      obtain ⟨out2, h2, hmem2⟩ := ih (2 * k) out l (by omega) h
      exact ⟨out2, h2, fun x hx => hmem x (hmem2 x hx)⟩

/-! ## What `cvs_master_set_refs` and the later passes do to the head list -/

theorem discard_zero_mem (refs : List RevRef) : ∀ (n : Nat) (l : List Nat),
    l.length ≤ n → ∀ x ∈ discard_zero refs l, x ∈ l := by
  intro n
  induction n with
  | zero =>
    intro l hl x hx
    have : l = [] := List.length_eq_zero.mp (Nat.le_zero.mp hl)
    subst this
    simp [discard_zero] at hx
  | succ n ih =>
    intro l hl x hx
    cases l with
    | nil => simp [discard_zero] at hx
    | cons h rest =>
      unfold discard_zero at hx
      split at hx
      · cases rest with
        | nil => simp at hx
        | cons y rest1 =>
          simp only [List.mem_cons] at hx
          rcases hx with rfl | hx
          · simp
          · have := ih rest1 (by simp at hl; omega) x hx
            simp [this]
      · simp only [List.mem_cons] at hx
        rcases hx with rfl | hx
        · simp
        · have := ih rest (by simp at hl; omega) x hx
          simp [this]

theorem discard_zero_first (refs : List RevRef) (t : Nat) (rest : List Nat)
    (h : zero_marked refs t = false) :
    discard_zero refs (t :: rest) = t :: discard_zero refs rest := by
  conv => lhs; unfold discard_zero
  simp [h]

theorem not_zero_marked {refs : List RevRef} {t : Nat} {r : RevRef}
    (hr : refs[t]? = some r) (hn : Numbered r) : zero_marked refs t = false := by
  obtain ⟨n, h1, h2⟩ := hn
  simp [zero_marked, hr, h1, h2]

theorem arena_step_old {cvs : CvsFile} {a b : List RevRef}
    (h : ArenaStep cvs a b) {i : Nat} {r : RevRef} (hr : a[i]? = some r) :
    ∃ r1, b[i]? = some r1 ∧ RefChange cvs r r1 := by
  have hlt : i < b.length := Nat.lt_of_lt_of_le (getElem?_lt_of_some hr) h.1
  rcases h.2 i b[i] (List.getElem?_eq_getElem hlt) with ⟨r0, h0, hc⟩ | ⟨hi, _⟩
  · rw [hr] at h0; cases h0
    exact ⟨_, List.getElem?_eq_getElem hlt, hc⟩
  · have := getElem?_lt_of_some hr
    omega

theorem ref_change_named {cvs : CvsFile} {r r1 : RevRef}
    (h : RefChange cvs r r1) (hn : r.ref_name ≠ none) :
    r1.ref_name = r.ref_name := by
  rcases h.1 with e | ⟨e, _⟩
  · exact e
  · exact absurd e hn

theorem set_refs_spec (cvs : CvsFile) (cm cm1 : CvsMaster)
    (cs : List CvsCommit) (h : cvs_master_set_refs cvs cm cs = some cm1) :
    ArenaStep cvs cm.refs cm1.refs ∧
    (∀ x ∈ cm1.heads, (x ∈ cm.heads ∨ cm.refs.length ≤ x) ∧
      ∃ r1, cm1.refs[x]? = some r1 ∧ r1.number ≠ none) ∧
    (∀ (t : Nat) (rest : List Nat) (r : RevRef), cm.heads = t :: rest →
      cm.refs[t]? = some r → r.ref_name ≠ none → Numbered r →
      ∃ rest1, cm1.heads = t :: rest1 ∧
        ∀ x ∈ rest1, x ∈ rest ∨ cm.refs.length ≤ x) := by
  unfold cvs_master_set_refs at h
  split at h
  · cases h
  · rename_i cma hsym
    obtain ⟨a1, news, e1, f1⟩ := set_refs_symbols_step cvs cs cvs.symbols cm cma
      (fun _ hs => hs) hsym
    split at h
    · cases h
    · rename_i refs2 hfix
      obtain ⟨a2, l2⟩ := fix_unnamed_step cvs cs _ _ _ hfix
      simp only at h
      obtain ⟨b1, b2, b3, b4⟩ := link_heads_spec cvs cs _ _ _ h
      simp only at b1 b2 b3 b4
      have hmem : ∀ x ∈ cma.heads, x ∈ cm.heads ∨ cm.refs.length ≤ x := by
        intro x hx
        rw [e1] at hx
        rcases List.mem_append.mp hx with hx | hx
        · exact Or.inl hx
        · exact Or.inr (f1 x hx)
      refine ⟨arena_step_trans a1 (arena_step_trans a2 b2), ?_, ?_⟩
      · intro x hx
        rw [b1] at hx
        exact ⟨hmem x (discard_zero_mem refs2 _ _ (Nat.le_refl _) x hx),
          b4 x hx⟩
      · intro t rest r hheads hr hname hnum
        obtain ⟨ra, hra, ca⟩ := arena_step_old a1 hr
        obtain ⟨rb, hrb, cb⟩ := arena_step_old a2 hra
        have hname_a : ra.ref_name ≠ none := by
          rw [ref_change_named ca hname]; exact hname
        have hnum_b : Numbered rb := cb.2.2 hname_a (ca.2.2 hname hnum)
        have hz := not_zero_marked hrb hnum_b
        rw [b1, e1, hheads, List.cons_append, discard_zero_first _ _ _ hz]
        refine ⟨_, rfl, ?_⟩
        intro x hx
        have := discard_zero_mem refs2 _ _ (Nat.le_refl _) x hx
        rcases List.mem_append.mp this with hx | hx
        · exact Or.inl hx
        · exact Or.inr (f1 x hx)

theorem sort_heads_spec (cvs : CvsFile) (cm cm1 : CvsMaster)
    (h : cvs_master_sort_heads cvs cm = some cm1) :
    cm1.refs = cm.refs ∧ (∀ x ∈ cm1.heads, x ∈ cm.heads) ∧
    (∀ (t : Nat) (rest : List Nat), cm.heads = t :: rest →
      (∀ q, ¬ rev_ref_compare cvs cm.refs t q > 0) →
      ∃ rest1, cm1.heads = t :: rest1 ∧ ∀ x ∈ rest1, x ∈ rest) := by
  unfold cvs_master_sort_heads at h
  split at h
  · cases h
  · rename_i l hl
    simp only [Option.some.injEq] at h
    subst h
    refine ⟨rfl, sort_loop_mem cvs cm.refs _ _ _ _ hl, ?_⟩
    intro t rest hheads hmin
    rw [hheads] at hl
    exact sort_loop_first cvs cm.refs t hmin _ 1 rest l (Nat.le_refl _) hl

theorem unlink_head_mem (nv : Nat) (l : List Nat) :
    ∀ x ∈ unlink_head nv l, x ∈ l := by
  intro x hx
  cases l with
  | nil => simp [unlink_head] at hx
  | cons t rest =>
    simp only [unlink_head, List.mem_cons] at hx
    rcases hx with rfl | hx
    · simp
    · exact List.mem_cons_of_mem _ (List.mem_of_mem_erase hx)

theorem made_name_ne_master (cvs : CvsFile)
    (hsym : ∀ s ∈ cvs.symbols, s.symbol_name ≠ "master") (nm : Atom)
    (h : MadeName cvs nm) : nm ≠ "master" := by
  rcases h with ⟨s, hs, rfl⟩ | ⟨n, rfl⟩ | ⟨pn, id, rfl⟩
  · exact hsym s hs
  · intro he
    have := congrArg String.length he
    simp [import_name, String.length_append] at this
    have h7 : "import-".length = 7 := by decide
    have h6 : "master".length = 6 := by decide
    omega
  · intro he
    have := congrArg String.length he
    have h15 : "-UNNAMED-BRANCH".length = 15 := by decide
    have h16 : "-UNNAMED-BRANCH-".length = 16 := by decide
    have h6 : "master".length = 6 := by decide
    cases id with
    | none =>
      simp [unnamed_branch_name, String.length_append] at this
      omega
    | some i =>
      simp [unnamed_branch_name, String.length_append] at this
      omega

theorem find_symbol_master (cvs : CvsFile)
    (hsym : ∀ s ∈ cvs.symbols, s.symbol_name ≠ "master") :
    cvs_find_symbol cvs (some "master") = none := by
  simp only [cvs_find_symbol]
  rw [List.find?_eq_none]
  intro s hs
  simpa using hsym s hs

theorem compare_master_le (cvs : CvsFile)
    (hsym : ∀ s ∈ cvs.symbols, s.symbol_name ≠ "master")
    (refs : List RevRef) (t : Nat) (r : RevRef) (hr : refs[t]? = some r)
    (hname : r.ref_name = some "master") (q : Nat) :
    ¬ rev_ref_compare cvs refs t q > 0 := by
  have hm := find_symbol_master cvs hsym
  simp only [rev_ref_compare, hr, Option.bind_some, hname,
    rev_ref_compare_names]
  split
  · simp
  · simp
  · rename_i h1 _
    change cvs_find_symbol cvs r.ref_name = _ at h1
    rw [hname, hm] at h1
    cases h1
  · rename_i h1 _
    change cvs_find_symbol cvs r.ref_name = _ at h1
    rw [hname, hm] at h1
    cases h1

theorem digest_passes_spec (cvs : CvsFile) (cm cm1 : CvsMaster)
    (cs cs1 : List CvsCommit)
    (h : digest_passes cvs cm cs = some (cm1, cs1)) :
    ArenaStep cvs cm.refs cm1.refs ∧
    (∀ x ∈ cm1.heads, (x ∈ cm.heads ∨ cm.refs.length ≤ x) ∧
      ∃ r1, cm1.refs[x]? = some r1 ∧ r1.number ≠ none) ∧
    (∀ (t : Nat) (rest : List Nat) (r : RevRef), cm.heads = t :: rest →
      cm.refs[t]? = some r → r.ref_name = some "master" → Numbered r →
      (∀ s ∈ cvs.symbols, s.symbol_name ≠ "master") →
      ∃ rest1, cm1.heads = t :: rest1 ∧
        ∀ x ∈ rest1, x ∈ rest ∨ cm.refs.length ≤ x) := by
  unfold digest_passes at h
  split at h
  · cases h
  · rename_i cma csa hpv
    obtain ⟨a1, hh1⟩ := patch_vendor_step cvs cm cma cs csa hpv
    have hmem1 : ∀ x ∈ cma.heads, x ∈ cm.heads := by
      intro x hx
      rcases hh1 with e | ⟨nv, e⟩
      · rw [e] at hx; exact hx
      · rw [e] at hx; exact unlink_head_mem nv _ x hx
    split at h
    · cases h
    · rename_i csb hgr
      split at h
      · cases h
      · rename_i cmc hsr
        obtain ⟨a2, m2, t2⟩ := set_refs_spec cvs cma cmc csb hsr
        split at h
        · cases h
        · rename_i cmd hso
          obtain ⟨e3, m3, t3⟩ := sort_heads_spec cvs cmc cmd hso
          simp only [Option.some.injEq, Prod.mk.injEq] at h
          obtain ⟨rfl, -⟩ := h
          have hmem : ∀ x ∈ cmc.heads, (x ∈ cm.heads ∨ cm.refs.length ≤ x) ∧
              ∃ r1, cmc.refs[x]? = some r1 ∧ r1.number ≠ none := by
            intro x hx
            obtain ⟨h1, h2⟩ := m2 x hx
            refine ⟨?_, h2⟩
            rcases h1 with h1 | h1
            · exact Or.inl (hmem1 x h1)
            · exact Or.inr (Nat.le_trans a1.1 h1)
          refine ⟨arena_step_trans a1 (e3 ▸ a2), ?_, ?_⟩
          · intro x hx
            rw [e3]
            exact hmem x (m3 x hx)
          · intro t rest r hheads hr hname hnum hsym
            obtain ⟨ra, hra, ca⟩ := arena_step_old a1 hr
            have hne : r.ref_name ≠ none := by rw [hname]; simp
            have hname_a : ra.ref_name = some "master" := by
              rw [ref_change_named ca hne]; exact hname
            have hnum_a : Numbered ra := ca.2.2 hne hnum
            have hheads_a : ∃ resta, cma.heads = t :: resta ∧
                ∀ x ∈ resta, x ∈ rest := by
              rcases hh1 with e | ⟨nv, e⟩
              · exact ⟨rest, by rw [e, hheads], fun _ hx => hx⟩
              · refine ⟨rest.erase nv, by rw [e, hheads]; rfl, ?_⟩
                intro x hx
                exact List.mem_of_mem_erase hx
            obtain ⟨resta, hha, hsub_a⟩ := hheads_a
            obtain ⟨restc, hhc, hsub_c⟩ := t2 t resta ra hha hra
              (by rw [hname_a]; simp) hnum_a
            obtain ⟨rc, hrc, cc⟩ := arena_step_old a2 hra
            have hname_c : rc.ref_name = some "master" := by
              rw [ref_change_named cc (by rw [hname_a]; simp)]; exact hname_a
            obtain ⟨restd, hhd, hsub_d⟩ := t3 t restc hhc
              (compare_master_le cvs hsym cmc.refs t rc hrc hname_c)
            refine ⟨restd, hhd, ?_⟩
            intro x hx
            rcases hsub_c x (hsub_d x hx) with h1 | h1
            · exact Or.inl (hsub_a x h1)
            · exact Or.inr (Nat.le_trans a1.1 h1)

theorem find_ctrunk_trunk : ∀ (versions : List CvsVersion)
    (acc : Option CvsVersion) (ct : CvsVersion),
    (∀ a, acc = some a → cvs_is_trunk a.number = true) →
    find_ctrunk versions acc = some ct → cvs_is_trunk ct.number = true := by
  intro versions
  induction versions with
  | nil =>
    intro acc ct hacc h
    exact hacc ct h
  | cons cv rest ih =>
    intro acc ct hacc h
    unfold find_ctrunk at h
    split at h
    · rename_i htr
      split at h
      · exact ih _ ct (by intro a ha; cases ha; exact htr) h
      · split at h
        · exact ih _ ct (by intro a ha; cases ha; exact htr) h
        · exact ih _ ct hacc h
    · exact ih _ ct hacc h

theorem trunk_number_ne_zero (cvs : CvsFile) : trunk_number cvs ≠ cvs_zero := by
  unfold trunk_number
  split
  · rename_i ct hct
    have := find_ctrunk_trunk cvs.versions none ct (by intro a ha; cases ha) hct
    intro he
    rw [he] at this
    simp [cvs_is_trunk, cvs_zero] at this
  · simp [lex_number_1_1, cvs_zero]

theorem digest_some_spec (cvs : CvsFile) (master : RevMaster) (d : Digest)
    (hd : cvs_master_digest cvs empty_cm master = some d)
    (hret : d.ret ≠ none) :
    ∃ t cm3 m3 news cs2,
      digest_build cvs empty_cm master = some (some t, cm3, m3) ∧
      cm3.refs = trunk_head cvs t :: news ∧
      cm3.heads = 0 :: List.range' 1 news.length ∧
      (∀ r ∈ news, r.ref_name = none ∧ r.number = none ∧ r.parent = none ∧
        r.tail = false) ∧
      digest_passes cvs cm3 m3.commits = some (d.cm, cs2) := by
  cases hbm : build_rev_master cvs master with
  | none =>
    simp [cvs_master_digest, digest_build, hbm] at hd
  | some m0 =>
    obtain ⟨m1, trunk, -, hnone, hsome⟩ :=
      digest_build_spec cvs empty_cm master m0 hbm
    cases trunk with
    | none =>
      have := hnone rfl
      simp only [cvs_master_digest, this, Option.some.injEq] at hd
      subst hd
      exact absurd rfl hret
    | some t =>
      obtain ⟨cm3, m3, news, h1, h2, h3, h4⟩ := hsome t rfl
      simp only [cvs_master_digest, h1] at hd
      split at hd
      · cases hd
      · rename_i cm2 cs2 hp
        simp only [Option.some.injEq] at hd
        subst hd
        exact ⟨t, cm3, m3, news, cs2, h1, by simpa [empty_cm] using h2,
          by simpa [empty_cm] using h3, h4, hp⟩

/-- When no symbol is named `master` and `cvs_master_digest` on a fresh head
list returns a commit, the first head of the finished list is named `master`
and no other head of the list is. -/
theorem digest_trunk_first (cvs : CvsFile) (master : RevMaster) (d : Digest)
    (hsym : ∀ s ∈ cvs.symbols, s.symbol_name ≠ "master")
    (hd : cvs_master_digest cvs empty_cm master = some d)
    (hret : d.ret ≠ none) :
    ∃ names, head_names d = some "master" :: names ∧
      some "master" ∉ names := by
  obtain ⟨t, cm3, m3, news, cs2, -, h2, h3, h4, hp⟩ :=
    digest_some_spec cvs master d hd hret
  obtain ⟨a, -, ht⟩ := digest_passes_spec cvs cm3 d.cm _ cs2 hp
  have hr0 : cm3.refs[0]? = some (trunk_head cvs t) := by rw [h2]; simp
  obtain ⟨rest1, hheads, hrest⟩ := ht 0 _ (trunk_head cvs t) h3 hr0 rfl
    ⟨trunk_number cvs, rfl, trunk_number_ne_zero cvs⟩ hsym
  obtain ⟨r0, hr0', c0⟩ := arena_step_old a hr0
  have hname0 : r0.ref_name = some "master" :=
    ref_change_named c0 (by simp [trunk_head, new_head])
  have hpos : ∀ x ∈ rest1, 1 ≤ x := by
    intro x hx
    rcases hrest x hx with h | h
    · exact (List.mem_range'_1.mp h).1
    · rw [h2] at h; simp at h; omega
  have hother : ∀ x, 1 ≤ x → (d.cm.refs[x]?).bind RevRef.ref_name
      ≠ some "master" := by
    intro x hx
    cases hrx : d.cm.refs[x]? with
    | none => simp
    | some rx =>
      change rx.ref_name ≠ some "master"
      have hmade : ∀ nm, MadeName cvs nm → rx.ref_name = some nm →
          rx.ref_name ≠ some "master" := by
        intro nm hm e he
        rw [e] at he
        exact made_name_ne_master cvs hsym nm hm (Option.some.inj he)
      rcases a.2 x rx hrx with ⟨r, hr, hc⟩ | ⟨-, hf⟩
      · have hmem : r ∈ news := by
          rw [h2] at hr
          cases x with
          | zero => omega
          | succ y =>
            simp only [List.getElem?_cons_succ] at hr
            exact List.getElem?_mem hr
        have hnone := (h4 r hmem).1
        rcases hc.1 with e | ⟨-, nm, e, hm⟩
        · rw [e, hnone]; simp
        · exact hmade nm hm e
      · rcases hf.2 with e | ⟨nm, e, hm⟩
        · rw [e]; simp
        · exact hmade nm hm e
  refine ⟨rest1.map fun h => (d.cm.refs[h]?).bind RevRef.ref_name, ?_, ?_⟩
  · simp [head_names, hheads, hr0', hname0]
  · intro hmem
    obtain ⟨x, hx, he⟩ := List.mem_map.mp hmem
    exact hother x (hpos x hx) he

/-- The trunk is first on `nested_file`, whose only symbol is `BR`. -/
theorem digest_trunk_first_witness :
    cvs_master_digest nested_file empty_cm empty_master
      = some (digest_or_empty nested_file) ∧
    ∃ names, head_names (digest_or_empty nested_file)
        = some "master" :: names ∧ some "master" ∉ names :=
  ⟨by decide!,
   digest_trunk_first nested_file empty_master (digest_or_empty nested_file)
     (by decide) (by decide!) (by decide!)⟩

/-! ## The branch grafter -/

theorem number_compare_eq_zero : ∀ (a b : CvsNumber),
    cvs_number_compare a b = 0 ↔ a = b := by
  intro a
  induction a with
  | nil =>
    intro b
    cases b with
    | nil => simp [cvs_number_compare]
    | cons y ys => simp [cvs_number_compare]
  | cons x xs ih =>
    intro b
    cases b with
    | nil => simp [cvs_number_compare]
    | cons y ys =>
      simp only [cvs_number_compare]
      by_cases h1 : x < y
      · simp only [h1, if_true]
        constructor
        · intro h; omega
        · intro h; simp only [List.cons.injEq] at h; omega
      · by_cases h2 : y < x
        · simp only [h1, h2, if_true, if_false]
          constructor
          · intro h; omega
          · intro h; simp only [List.cons.injEq] at h; omega
        · simp only [h1, h2, if_false]
          have hxy : x = y := by omega
          subst hxy
          rw [ih ys]
          simp

theorem branches_any_iff (branches : List CvsNumber) (n : CvsNumber) :
    branches.any (fun cb => cvs_number_compare cb n == 0) = true ↔
      n ∈ branches := by
  simp only [List.any_eq_true, beq_iff_eq, number_compare_eq_zero]
  constructor
  · rintro ⟨x, hx, rfl⟩; exact hx
  · intro h; exact ⟨n, h, rfl⟩

theorem find_in_chain_total (cs : List CvsCommit) (htd : TailDown cs)
    (n : CvsNumber) : ∀ (fuel : Nat) (a : Nat), a + 1 < fuel → a < cs.length →
    ∃ res, find_in_chain cs n fuel (some a) = some res ∧
      ∀ j, res = some j → ∃ cj, cs[j]? = some cj ∧ cj.number = n := by
  intro fuel
  induction fuel with
  | zero => intro a h; omega
  | succ fuel ih =>
    intro a hf ha
    unfold find_in_chain
    rw [List.getElem?_eq_getElem ha]
    simp only
    by_cases hc : cvs_number_compare (cs[a]).number n = 0
    · refine ⟨some a, by simp [hc], ?_⟩
      intro j hj
      cases hj
      exact ⟨cs[a], List.getElem?_eq_getElem ha,
        (number_compare_eq_zero _ _).mp hc⟩
    · have hc' : (cvs_number_compare (cs[a]).number n == 0) = false := by
        simpa using hc
      simp only [hc', Bool.false_eq_true, if_false]
      cases ht : (cs[a]).tail with
      | true => exact ⟨none, by simp, by intro j hj; cases hj⟩
      | false =>
        simp only [Bool.false_eq_true, if_false]
        cases hp : (cs[a]).parent with
        | none =>
          cases fuel with
          | zero => omega
          | succ f => exact ⟨none, by simp [find_in_chain], by intro j hj; cases hj⟩
        | some p =>
          have hlt := htd a cs[a] p (List.getElem?_eq_getElem ha) ht hp
          exact ih p (by omega) (by omega)

theorem find_in_chain_complete (cs : List CvsCommit) (htd : TailDown cs)
    (n : CvsNumber) (a k : Nat) (hw : FWalk cs a k) :
    ∀ (kc : CvsCommit), cs[k]? = some kc → kc.number = n →
    ∀ (fuel : Nat), a + 1 < fuel →
    ∃ j, find_in_chain cs n fuel (some a) = some (some j) := by
  induction hw with
  | refl a =>
    intro kc hk hn fuel hf
    cases fuel with
    | zero => omega
    | succ fuel =>
      unfold find_in_chain
      rw [hk]
      have hc : cvs_number_compare kc.number n = 0 :=
        (number_compare_eq_zero _ _).mpr hn
      exact ⟨a, by simp [hc]⟩
  | step a p b ca hca ht hp _ ih =>
    intro kc hk hn fuel hf
    cases fuel with
    | zero => omega
    | succ fuel =>
      unfold find_in_chain
      rw [hca]
      simp only
      by_cases hc : cvs_number_compare ca.number n = 0
      · exact ⟨a, by simp [hc]⟩
      · have hc' : (cvs_number_compare ca.number n == 0) = false := by
          simpa using hc
        simp only [hc', Bool.false_eq_true, if_false, ht, hp]
        have hlt := htd a ca p hca ht hp
        exact ih kc hk hn fuel (by omega)

theorem find_loop_total (cm : CvsMaster) (cs : List CvsCommit)
    (htd : TailDown cs) (hv : HeadsValid cm cs.length) (n : CvsNumber) :
    ∀ (hs : List Nat), (∀ g ∈ hs, g ∈ cm.heads) →
    ∃ res, find_revision_loop cm.refs cs n hs = some res ∧
      ∀ j, res = some j → ∃ cj, cs[j]? = some cj ∧ cj.number = n := by
  intro hs
  induction hs with
  | nil =>
    intro _
    exact ⟨none, by simp [find_revision_loop], by intro j hj; cases hj⟩
  | cons g rest ih =>
    intro hsub
    obtain ⟨r, hr, hrt, htip⟩ := hv g (hsub g (List.mem_cons_self _ _))
    have ihr := ih (fun x hx => hsub x (List.mem_cons_of_mem _ hx))
    unfold find_revision_loop
    rw [hr]
    simp only [hrt, Bool.false_eq_true, if_false]
    cases hc : r.commit with
    | none =>
      simp only [find_in_chain]
      exact ihr
    | some tip =>
      have hlt := htip tip hc
      obtain ⟨res, hres, hnum⟩ :=
        find_in_chain_total cs htd n (cs.length + 1) tip (by omega) hlt
      rw [hres]
      cases res with
      | none => exact ihr
      | some j => exact ⟨some j, rfl, hnum⟩

theorem find_loop_complete (cm : CvsMaster) (cs : List CvsCommit)
    (htd : TailDown cs) (hv : HeadsValid cm cs.length) (n : CvsNumber)
    (k : Nat) (kc : CvsCommit) (hk : cs[k]? = some kc) (hn : kc.number = n) :
    ∀ (hs : List Nat), (∀ g ∈ hs, g ∈ cm.heads) →
    (∃ g ∈ hs, ∃ rg gt, cm.refs[g]? = some rg ∧ rg.commit = some gt ∧
      FWalk cs gt k) →
    ∃ j, find_revision_loop cm.refs cs n hs = some (some j) := by
  intro hs
  induction hs with
  | nil =>
    intro _ h
    obtain ⟨g, hg, _⟩ := h
    cases hg
  | cons g rest ih =>
    intro hsub hex
    obtain ⟨r, hr, hrt, htip⟩ := hv g (hsub g (List.mem_cons_self _ _))
    have hsub' : ∀ x ∈ rest, x ∈ cm.heads :=
      fun x hx => hsub x (List.mem_cons_of_mem _ hx)
    unfold find_revision_loop
    rw [hr]
    simp only [hrt, Bool.false_eq_true, if_false]
    cases hc : r.commit with
    | none =>
      simp only [find_in_chain]
      apply ih hsub'
      obtain ⟨g1, hg1, rg, gt, hrg, hgt, hw⟩ := hex
      rcases List.mem_cons.mp hg1 with rfl | hin
      · rw [hr] at hrg
        cases hrg
        rw [hc] at hgt
        cases hgt
      · exact ⟨g1, hin, rg, gt, hrg, hgt, hw⟩
    | some tip =>
      have hlt := htip tip hc
      obtain ⟨res, hres, _⟩ :=
        find_in_chain_total cs htd n (cs.length + 1) tip (by omega) hlt
      cases res with
      | some j => rw [hres]; exact ⟨j, rfl⟩
      | none =>
        obtain ⟨g1, hg1, rg, gt, hrg, hgt, hw⟩ := hex
        rcases List.mem_cons.mp hg1 with rfl | hin
        · rw [hr] at hrg
          cases hrg
          rw [hc] at hgt
          cases hgt
          obtain ⟨j, hj⟩ := find_in_chain_complete cs htd n tip k hw kc hk hn
            (cs.length + 1) (by omega)
          rw [hj] at hres
          cases hres
        · rw [hres]
          exact ih hsub' ⟨g1, hin, rg, gt, hrg, hgt, hw⟩

theorem graft_root_total (cs : List CvsCommit) (htd : TailDown cs) :
    ∀ (fuel : Nat) (a : Nat), a < fuel → a < cs.length →
    ∃ res, graft_root cs fuel (some a) = some res := by
  intro fuel
  induction fuel with
  | zero => intro a h; omega
  | succ fuel ih =>
    intro a hf ha
    unfold graft_root
    rw [List.getElem?_eq_getElem ha]
    simp only
    cases hp : (cs[a]).parent with
    | none => exact ⟨some a, rfl⟩
    | some p =>
      cases ht : (cs[a]).tail with
      | true => exact ⟨none, by simp⟩
      | false =>
        have hlt := htd a cs[a] p (List.getElem?_eq_getElem ha) ht hp
        simp only [Bool.false_eq_true, if_false]
        exact ih p (by omega) (by omega)

theorem grafted_refl (cs : List CvsCommit) : Grafted cs cs :=
  ⟨rfl, fun _ _ h => Or.inl h⟩

theorem grafted_tail_down (cs cs1 : List CvsCommit) (hd : DownFrom 0 cs)
    (hg : Grafted cs cs1) : TailDown cs1 := by
  intro i ci1 p h1 ht hp
  have hi : i < cs.length := by
    rw [← hg.1]
    exact getElem?_lt_of_some h1
  rcases hg.2 i cs[i] (List.getElem?_eq_getElem hi) with h | ⟨_, q, h⟩
  · rw [h1] at h
    cases h
    exact (hd i cs[i] p (Nat.zero_le _) (List.getElem?_eq_getElem hi) hp).2
  · rw [h1] at h
    cases h
    simp at ht

theorem grafted_walk (cs cs1 : List CvsCommit)
    (hnt : ∀ (i : Nat) (ci : CvsCommit), cs[i]? = some ci → ci.tail = false)
    (hg : Grafted cs cs1) (a b : Nat) (hr : Reach cs a b) :
    FWalk cs1 a b := by
  induction hr with
  | refl a => exact FWalk.refl a
  | step a p b ca hca hp _ ih =>
    rcases hg.2 a ca hca with h | ⟨hnone, _⟩
    · exact FWalk.step a p b ca h (hnt a ca hca) hp ih
    · rw [hp] at hnone
      cases hnone

theorem grafted_number (cs cs1 : List CvsCommit) (hg : Grafted cs cs1)
    (j : Nat) (cj : CvsCommit) (hj : cs1[j]? = some cj) :
    ∃ c0, cs[j]? = some c0 ∧ c0.number = cj.number := by
  have hi : j < cs.length := by
    rw [← hg.1]
    exact getElem?_lt_of_some hj
  refine ⟨cs[j], List.getElem?_eq_getElem hi, ?_⟩
  rcases hg.2 j cs[j] (List.getElem?_eq_getElem hi) with h | ⟨_, q, h⟩
  · rw [hj] at h
    cases h
    rfl
  · rw [hj] at h
    cases h
    rfl

theorem grafted_set (cs cs1 : List CvsCommit) (hg : Grafted cs cs1)
    (c : Nat) (cc : CvsCommit) (hc : cs[c]? = some cc)
    (hp : cc.parent = none) (q : Option Nat) :
    Grafted cs (cs1.set c { cc with parent := q, tail := true }) := by
  refine ⟨by rw [List.length_set]; exact hg.1, ?_⟩
  intro i ci hi
  by_cases hic : i = c
  · subst hic
    rw [hc] at hi
    cases hi
    right
    refine ⟨hp, q, ?_⟩
    have hlt : i < cs1.length := by
      rw [hg.1]
      exact getElem?_lt_of_some hc
    exact List.getElem?_set_self hlt
  · rw [List.getElem?_set_ne (fun h => hic h.symm)]
    exact hg.2 i ci hi

theorem graft_root_walk (cs cs1 : List CvsCommit) (hd : DownFrom 0 cs)
    (hnt : ∀ (i : Nat) (ci : CvsCommit), cs[i]? = some ci → ci.tail = false)
    (hg : Grafted cs cs1) (tip c : Nat) (hr : Reach cs tip c) :
    ∀ (cc : CvsCommit), cs[c]? = some cc → cc.parent = none →
    ∀ (fuel : Nat), tip < fuel →
    graft_root cs1 fuel (some tip) = graft_root cs1 1 (some c) := by
  induction hr with
  | refl a =>
    intro cc hc hp fuel hf
    cases fuel with
    | zero => omega
    | succ fuel =>
      unfold graft_root
      rcases hg.2 a cc hc with h | ⟨_, q, h⟩
      · rw [h]
        simp [hp]
      · rw [h]
        cases q with
        | none => rfl
        | some q => simp
  | step a p b ca hca hp _ ih =>
    intro cc hc hpc fuel hf
    cases fuel with
    | zero => omega
    | succ fuel =>
      have hlt := (hd a ca p (Nat.zero_le _) hca hp).2
      rw [← ih cc hc hpc fuel (by omega)]
      rcases hg.2 a ca hca with h | ⟨hnone, _⟩
      · conv => lhs; unfold graft_root
        rw [h]
        simp [hp, hnt a ca hca]
      · rw [hp] at hnone
        cases hnone

theorem reach_root_unique (cs : List CvsCommit) (a x : Nat)
    (hx : Reach cs a x) : ∀ (c : Nat) (cx cc : CvsCommit), Reach cs a c →
    cs[x]? = some cx → cx.parent = none → cs[c]? = some cc →
    cc.parent = none → x = c := by
  induction hx with
  | refl a =>
    intro c cx cc hc hcx hpx _ _
    cases hc with
    | refl => rfl
    | step _ p _ ca hca hp _ =>
      rw [hcx] at hca
      cases hca
      rw [hpx] at hp
      cases hp
  | step a p b ca hca hp _ ih =>
    intro c cx cc hc hcx hpx hcc hpc
    cases hc with
    | refl =>
      rw [hcc] at hca
      cases hca
      rw [hpc] at hp
      cases hp
    | step _ p1 _ ca1 hca1 hp1 hrest =>
      rw [hca] at hca1
      cases hca1
      rw [hp] at hp1
      cases hp1
      exact ih c cx cc hrest hcx hpx hcc hpc

theorem find_revision_total (cm : CvsMaster) (cs cs1 : List CvsCommit)
    (hd : DownFrom 0 cs) (hv : HeadsValid cm cs.length)
    (hg : Grafted cs cs1) (n : CvsNumber) :
    ∃ res, cvs_master_find_revision cm cs1 n = some res := by
  have hv1 : HeadsValid cm cs1.length := by rw [hg.1]; exact hv
  obtain ⟨res, hres, _⟩ := find_loop_total cm cs1
    (grafted_tail_down cs cs1 hd hg) hv1 n cm.heads (fun _ h => h)
  exact ⟨res, hres⟩

theorem graft_versions_grafted (cm : CvsMaster) (cs : List CvsCommit)
    (hd : DownFrom 0 cs) (hv : HeadsValid cm cs.length) (c : Nat)
    (cc : CvsCommit) (hc : cs[c]? = some cc) (hp : cc.parent = none) :
    ∀ (versions : List CvsVersion) (cs1 : List CvsCommit), Grafted cs cs1 →
    (cs1[c]? = some cc ∨
      cs1[c]? = some { cc with parent := none, tail := true }) →
    ∃ cs2, graft_versions cm c versions cs1 = some cs2 ∧ Grafted cs cs2 ∧
      ∀ (i : Nat), i ≠ c → cs2[i]? = cs1[i]? := by
  intro versions
  induction versions with
  | nil =>
    intro cs1 hg _
    exact ⟨cs1, rfl, hg, fun _ _ => rfl⟩
  | cons cv rest ih =>
    intro cs1 hg hc1
    have key : ∃ cc1, cs1[c]? = some cc1 ∧ cc1.parent = none ∧
        ∀ q, ({ cc1 with parent := q, tail := true } : CvsCommit) =
          { cc with parent := q, tail := true } := by
      rcases hc1 with h | h
      · exact ⟨cc, h, hp, fun _ => rfl⟩
      · exact ⟨_, h, rfl, fun _ => rfl⟩
    obtain ⟨cc1, hcc1, hp1, hset⟩ := key
    unfold graft_versions
    rw [hcc1]
    simp only
    split
    · obtain ⟨res, hres⟩ := find_revision_total cm cs cs1 hd hv hg cv.number
      rw [hres]
      cases res with
      | some k =>
        refine ⟨_, rfl, ?_, ?_⟩
        · rw [hset]
          exact grafted_set cs cs1 hg c cc hc hp (some k)
        · intro i hi
          exact List.getElem?_set_ne (fun h => hi h.symm)
      | none =>
        simp only
        have hlt : c < cs1.length := getElem?_lt_of_some hcc1
        have hg1 : Grafted cs (cs1.set c { cc with parent := none, tail := true }) :=
          grafted_set cs cs1 hg c cc hc hp none
        rw [hset]
        obtain ⟨cs2, h2, hg2, hfr⟩ := ih _ hg1
          (Or.inr (List.getElem?_set_self hlt))
        refine ⟨cs2, h2, hg2, ?_⟩
        intro i hi
        rw [hfr i hi]
        exact List.getElem?_set_ne (fun h => hi h.symm)
    · rw [hp1]
      exact ih cs1 hg hc1

theorem graft_versions_found (cm : CvsMaster) (c k : Nat) (cc : CvsCommit)
    (cs1 : List CvsCommit) (hc : cs1[c]? = some cc) (hp : cc.parent = none) :
    ∀ (versions : List CvsVersion),
    (∃ cv ∈ versions, cc.number ∈ cv.branches) →
    (∀ cv ∈ versions, cc.number ∈ cv.branches →
      cvs_master_find_revision cm cs1 cv.number = some (some k)) →
    graft_versions cm c versions cs1 =
      some (cs1.set c { cc with parent := some k, tail := true }) := by
  intro versions
  induction versions with
  | nil =>
    intro h _
    obtain ⟨cv, hcv, _⟩ := h
    cases hcv
  | cons cv rest ih =>
    intro hex hfind
    unfold graft_versions
    rw [hc]
    simp only
    by_cases hm : cc.number ∈ cv.branches
    · rw [if_pos ((branches_any_iff _ _).mpr hm)]
      rw [hfind cv (List.mem_cons_self _ _) hm]
    · have hany : ¬ (cv.branches.any
          (fun cb => cvs_number_compare cb cc.number == 0) = true) :=
        fun h => hm ((branches_any_iff _ _).mp h)
      rw [if_neg hany, hp]
      simp only
      apply ih
      · obtain ⟨cv1, hcv1, hb⟩ := hex
        rcases List.mem_cons.mp hcv1 with rfl | hin
        · exact absurd hb hm
        · exact ⟨cv1, hin, hb⟩
      · intro cv1 hcv1 hb
        exact hfind cv1 (List.mem_cons_of_mem _ hcv1) hb

theorem graft_find_branch_point (cm : CvsMaster) (cs cs1 : List CvsCommit)
    (hd : DownFrom 0 cs) (hv : HeadsValid cm cs.length)
    (hnt : ∀ (i : Nat) (ci : CvsCommit), cs[i]? = some ci → ci.tail = false)
    (huniq : ∀ (i j : Nat) (ci cj : CvsCommit), cs[i]? = some ci →
      cs[j]? = some cj → ci.number = cj.number → i = j)
    (hg : Grafted cs cs1) (k : Nat) (kc : CvsCommit) (hk : cs[k]? = some kc)
    (hreach : ∃ g ∈ cm.heads, ∃ rg gt, cm.refs[g]? = some rg ∧
      rg.commit = some gt ∧ Reach cs gt k) :
    cvs_master_find_revision cm cs1 kc.number = some (some k) := by
  have htd := grafted_tail_down cs cs1 hd hg
  have hv1 : HeadsValid cm cs1.length := by rw [hg.1]; exact hv
  have hk1 : ∃ kc1, cs1[k]? = some kc1 ∧ kc1.number = kc.number := by
    rcases hg.2 k kc hk with h | ⟨_, q, h⟩
    · exact ⟨kc, h, rfl⟩
    · exact ⟨_, h, rfl⟩
  obtain ⟨kc1, hkc1, hnum1⟩ := hk1
  obtain ⟨g, hgm, rg, gt, hrg, hgt, hw⟩ := hreach
  obtain ⟨j, hj⟩ := find_loop_complete cm cs1 htd hv1 kc.number k kc1 hkc1
    hnum1 cm.heads (fun _ h => h)
    ⟨g, hgm, rg, gt, hrg, hgt, grafted_walk cs cs1 hnt hg gt k hw⟩
  obtain ⟨res, hres, hnum⟩ := find_loop_total cm cs1 htd hv1 kc.number
    cm.heads (fun _ h => h)
  rw [hj] at hres
  cases hres
  obtain ⟨cj, hcj, hcjn⟩ := hnum j rfl
  obtain ⟨c0, hc0, hc0n⟩ := grafted_number cs cs1 hg j cj hcj
  have hjk : j = k := huniq j k c0 kc hc0 hk (by rw [hc0n, hcjn])
  unfold cvs_master_find_revision
  rw [hj, hjk]

theorem graft_loop_root (cvs : CvsFile) (cm : CvsMaster)
    (cs : List CvsCommit) (first h : Nat) (r : RevRef) (tip c : Nat)
    (cc : CvsCommit) (cv : CvsVersion) (k : Nat) (kc : CvsCommit)
    (hne : h ≠ first)
    (hv : HeadsValid cm cs.length) (hd : DownFrom 0 cs)
    (hnt : ∀ (i : Nat) (ci : CvsCommit), cs[i]? = some ci → ci.tail = false)
    (huniq : ∀ (i j : Nat) (ci cj : CvsCommit), cs[i]? = some ci →
      cs[j]? = some cj → ci.number = cj.number → i = j)
    (hr : cm.refs[h]? = some r) (htip : r.commit = some tip)
    (hroot : Reach cs tip c) (hcc : cs[c]? = some cc)
    (hpc : cc.parent = none)
    (hcv : cv ∈ cvs.versions) (hcb : cc.number ∈ cv.branches)
    (honly : ∀ cv1 ∈ cvs.versions, cc.number ∈ cv1.branches →
      cv1.number = cv.number)
    (hk : cs[k]? = some kc) (hkn : kc.number = cv.number)
    (hreach : ∃ g ∈ cm.heads, ∃ rg gt, cm.refs[g]? = some rg ∧
      rg.commit = some gt ∧ Reach cs gt k) :
    ∀ (hs : List Nat), (∀ g ∈ hs, g ∈ cm.heads) →
    ∀ (cs1 : List CvsCommit), Grafted cs cs1 →
    (cs1[c]? = some cc ∨
      cs1[c]? = some { cc with parent := some k, tail := true }) →
    ∃ cs2, graft_loop cvs cm first hs cs1 = some cs2 ∧ Grafted cs cs2 ∧
      (cs2[c]? = some cc ∨
        cs2[c]? = some { cc with parent := some k, tail := true }) ∧
      (cs1[c]? = some { cc with parent := some k, tail := true } ∨ h ∈ hs →
        cs2[c]? = some { cc with parent := some k, tail := true }) := by
  intro hs
  induction hs with
  | nil =>
    intro _ cs1 hg hc1
    refine ⟨cs1, rfl, hg, hc1, ?_⟩
    rintro (h1 | h1)
    · exact h1
    · cases h1
  | cons g rest ih =>
    intro hsub cs1 hg hc1
    have hsub1 : ∀ x ∈ rest, x ∈ cm.heads :=
      fun x hx => hsub x (List.mem_cons_of_mem _ hx)
    -- the step that leaves the slab as it is
    have skip : (g = h → cs1[c]? =
          some { cc with parent := some k, tail := true }) →
        ∃ cs2, graft_loop cvs cm first rest cs1 = some cs2 ∧ Grafted cs cs2 ∧
        (cs2[c]? = some cc ∨
          cs2[c]? = some { cc with parent := some k, tail := true }) ∧
        (cs1[c]? = some { cc with parent := some k, tail := true } ∨
            h ∈ g :: rest →
          cs2[c]? = some { cc with parent := some k, tail := true }) := by
      intro hgh
      obtain ⟨cs2, h2, hg2, hc2, hdone⟩ := ih hsub1 cs1 hg hc1
      refine ⟨cs2, h2, hg2, hc2, ?_⟩
      rintro (h1 | h1)
      · exact hdone (Or.inl h1)
      · rcases List.mem_cons.mp h1 with rfl | hin
        · exact hdone (Or.inl (hgh rfl))
        · exact hdone (Or.inr hin)
    -- the step that grafts the root `c`
    have graft : cs1[c]? = some cc →
        ∃ cs2, graft_loop cvs cm first rest
          (cs1.set c { cc with parent := some k, tail := true }) = some cs2 ∧
        Grafted cs cs2 ∧
        (cs2[c]? = some cc ∨
          cs2[c]? = some { cc with parent := some k, tail := true }) ∧
        (cs1[c]? = some { cc with parent := some k, tail := true } ∨
            h ∈ g :: rest →
          cs2[c]? = some { cc with parent := some k, tail := true }) := by
      intro hc
      have hlt : c < cs1.length := getElem?_lt_of_some hc
      have hdn : (cs1.set c { cc with parent := some k, tail := true })[c]? =
          some { cc with parent := some k, tail := true } :=
        List.getElem?_set_self hlt
      obtain ⟨cs2, h2, hg2, hc2, hdone⟩ := ih hsub1 _
        (grafted_set cs cs1 hg c cc hcc hpc (some k)) (Or.inr hdn)
      exact ⟨cs2, h2, hg2, hc2, fun _ => hdone (Or.inl hdn)⟩
    have found : cs1[c]? = some cc →
        graft_versions cm c cvs.versions cs1 =
          some (cs1.set c { cc with parent := some k, tail := true }) := by
      intro hc
      apply graft_versions_found cm c k cc cs1 hc hpc cvs.versions
        ⟨cv, hcv, hcb⟩
      intro cv1 hcv1 hb
      rw [honly cv1 hcv1 hb, ← hkn]
      exact graft_find_branch_point cm cs cs1 hd hv hnt huniq hg k kc hk
        hreach
    unfold graft_loop
    by_cases hgf : g = first
    · rw [if_pos hgf]
      exact skip (fun hgh => absurd (hgh ▸ hgf) hne)
    · rw [if_neg hgf]
      obtain ⟨rg, hrg, hrt, hrtip⟩ := hv g (hsub g (List.mem_cons_self _ _))
      rw [hrg]
      simp only [hrt, Bool.false_eq_true, if_false]
      cases hcm : rg.commit with
      | none =>
        simp only [graft_root]
        apply skip
        intro hgh
        subst hgh
        rw [hr] at hrg
        cases hrg
        rw [htip] at hcm
        cases hcm
      | some t =>
        have htl : t < cs1.length := by rw [hg.1]; exact hrtip t hcm
        obtain ⟨res, hres⟩ := graft_root_total cs1
          (grafted_tail_down cs cs1 hd hg) (cs1.length + 1) t (by omega) htl
        have hwalk : g = h → graft_root cs1 (cs1.length + 1) (some t) =
            graft_root cs1 1 (some c) := by
          intro hgh
          subst hgh
          rw [hr] at hrg
          cases hrg
          have htt : tip = t := by
            rw [htip] at hcm
            exact Option.some.inj hcm
          subst htt
          exact graft_root_walk cs cs1 hd hnt hg _ c hroot cc hcc hpc
            (cs1.length + 1) (by omega)
        rw [hres]
        cases res with
        | none =>
          simp only
          apply skip
          intro hgh
          rw [hwalk hgh] at hres
          rcases hc1 with hc | hc
          · unfold graft_root at hres
            rw [hc] at hres
            simp [hpc] at hres
          · exact hc
        | some c1 =>
          simp only
          obtain ⟨cc1, hcc1, hp1⟩ := graft_root_spec cs1 _ _ c1 hres
          by_cases hc1c : c1 = c
          · subst hc1c
            have hc : cs1[c1]? = some cc := by
              rcases hc1 with hc | hc
              · exact hc
              · rw [hcc1] at hc
                cases hc
                cases hp1
            rw [found hc]
            exact graft hc
          · have hgne : g ≠ h := by
              intro hgh
              rw [hwalk hgh] at hres
              unfold graft_root at hres
              rcases hc1 with hc | hc
              · rw [hc] at hres
                simp [hpc] at hres
                exact hc1c hres.symm
              · rw [hc] at hres
                simp at hres
            have hi : c1 < cs.length := by
              rw [← hg.1]
              exact getElem?_lt_of_some hcc1
            have hroot1 : (cs[c1]).parent = none ∧
                (cs1[c1]? = some cs[c1] ∨ cs1[c1]? =
                  some { cs[c1] with parent := none, tail := true }) := by
              rcases hg.2 c1 cs[c1] (List.getElem?_eq_getElem hi) with
                h1 | ⟨hn, q, h1⟩
              · rw [hcc1] at h1
                cases h1
                exact ⟨hp1, Or.inl hcc1⟩
              · refine ⟨hn, Or.inr ?_⟩
                rw [hcc1] at h1
                cases h1
                simp only at hp1
                subst hp1
                exact hcc1
            obtain ⟨cs2, h2, hg2, hfr⟩ := graft_versions_grafted cm cs hd hv
              c1 cs[c1] (List.getElem?_eq_getElem hi) hroot1.1 cvs.versions
              cs1 hg hroot1.2
            rw [h2]
            simp only
            have hne1 : c ≠ c1 := fun h => hc1c h.symm
            obtain ⟨cs3, h3, hg3, hc3, hdone⟩ := ih hsub1 cs2 hg2
              (by rw [hfr c hne1]; exact hc1)
            refine ⟨cs3, h3, hg3, hc3, ?_⟩
            rintro (h1 | h1)
            · exact hdone (Or.inl (by rw [hfr c hne1]; exact h1))
            · rcases List.mem_cons.mp h1 with rfl | hin
              · exact absurd rfl hgne
              · exact hdone (Or.inr hin)

/-- Claim C5: on a slab as the build phase leaves it (parent links point to
lower slots, no tail flag set, commit numbers unique, heads allocated with
their tips in the slab), for a head `h` other than the first one whose chain
ends in the parentless commit `c`, when the number of `c` is a branch record
of the version `cv` (and of no version with another number) and the commit
`k` numbered `cv.number` is reachable from some head,
`cvs_master_graft_branches` returns a slab in which `c` has parent `k` and
its tail flag set and is otherwise as before, and every other commit of the
chain of `h` is unchanged. -/
theorem graft_sets_root_parent (cvs : CvsFile) (cm : CvsMaster)
    (cs : List CvsCommit) (first h : Nat) (r : RevRef) (tip c : Nat)
    (cc : CvsCommit) (cv : CvsVersion) (k : Nat) (kc : CvsCommit)
    (hfirst : cm.heads.head? = some first) (hh : h ∈ cm.heads)
    (hne : h ≠ first)
    (hv : HeadsValid cm cs.length) (hd : DownFrom 0 cs)
    (hnt : ∀ (i : Nat) (ci : CvsCommit), cs[i]? = some ci → ci.tail = false)
    (huniq : ∀ (i j : Nat) (ci cj : CvsCommit), cs[i]? = some ci →
      cs[j]? = some cj → ci.number = cj.number → i = j)
    (hr : cm.refs[h]? = some r) (htip : r.commit = some tip)
    (hroot : Reach cs tip c) (hcc : cs[c]? = some cc)
    (hpc : cc.parent = none)
    (hcv : cv ∈ cvs.versions) (hcb : cc.number ∈ cv.branches)
    (honly : ∀ cv1 ∈ cvs.versions, cc.number ∈ cv1.branches →
      cv1.number = cv.number)
    (hk : cs[k]? = some kc) (hkn : kc.number = cv.number)
    (hreach : ∃ g ∈ cm.heads, ∃ rg gt, cm.refs[g]? = some rg ∧
      rg.commit = some gt ∧ Reach cs gt k) :
    ∃ cs1, cvs_master_graft_branches cvs cm cs = some cs1 ∧
      cs1[c]? = some { cc with parent := some k, tail := true } ∧
      ∀ (x : Nat) (cx : CvsCommit), Reach cs tip x → x ≠ c →
        cs[x]? = some cx → cs1[x]? = some cx := by
  obtain ⟨cs1, h1, hg1, _, hdone⟩ := graft_loop_root cvs cm cs first h r tip
    c cc cv k kc hne hv hd hnt huniq hr htip hroot hcc hpc hcv hcb honly hk
    hkn hreach cm.heads (fun _ hx => hx) cs (grafted_refl cs) (Or.inl hcc)
  refine ⟨cs1, ?_, hdone (Or.inr hh), ?_⟩
  · unfold cvs_master_graft_branches
    cases hhs : cm.heads with
    | nil => rw [hhs] at hh; cases hh
    | cons f rest =>
      rw [hhs] at hfirst h1
      simp only [List.head?_cons, Option.some.injEq] at hfirst
      subst hfirst
      exact h1
  · intro x cx hx hxc hcx
    rcases hg1.2 x cx hcx with hsame | ⟨hnone, _⟩
    · exact hsame
    · exact absurd (reach_root_unique cs tip x hx c cx cc hroot hcx hnone hcc
        hpc) hxc

/-- Witness of C5 on the heads and slab that the build phase leaves for
`grafted_file`: the root `1.2.2.1` (slot 2) of the branch gets the parent
`1.2` (slot 1) and its tail flag, and `1.2.2.2` is unchanged. -/
theorem graft_sets_root_parent_witness :
    (digest_build grafted_file empty_cm empty_master).map
        (fun b => (b.2.1, b.2.2.commits))
      = some (grafted_cm, grafted_commits) ∧
    ∃ cs1, cvs_master_graft_branches grafted_file grafted_cm grafted_commits
        = some cs1 ∧
      cs1[2]? = some { commit_at [1, 2, 2, 1] 30 none with
                       parent := some 1, tail := true } ∧
      ∀ (x : Nat) (cx : CvsCommit), Reach grafted_commits 3 x → x ≠ 2 →
        grafted_commits[x]? = some cx → cs1[x]? = some cx :=
  ⟨by decide,
   graft_sets_root_parent grafted_file grafted_cm grafted_commits 0 1
     (head_at 3 none none 0) 3 2 (commit_at [1, 2, 2, 1] 30 none)
     (version_at [1, 2] 20 false [[1, 2, 2, 1]]) 1
     (commit_at [1, 2] 20 (some 0))
     (by decide) (by decide) (by decide)
     (by
       intro g hg
       have : g = 0 ∨ g = 1 := by simpa [grafted_cm] using hg
       rcases this with rfl | rfl
       · refine ⟨head_at 1 (some "master") (some [1, 1]) 2, by decide,
           by decide, ?_⟩
         intro t ht
         have : t = 1 := by simpa [head_at] using ht.symm
         subst this; decide
       · refine ⟨head_at 3 none none 0, by decide, by decide, ?_⟩
         intro t ht
         have : t = 3 := by simpa [head_at] using ht.symm
         subst this; decide)
     (by
       intro i ci p _ hci hp
       rcases i with _ | _ | _ | _ | i
       · simp [grafted_commits, commit_at] at hci
         subst hci; cases hp
       · simp [grafted_commits, commit_at] at hci
         subst hci; cases hp; omega
       · simp [grafted_commits, commit_at] at hci
         subst hci; cases hp
       · simp [grafted_commits, commit_at] at hci
         subst hci; cases hp; omega
       · simp [grafted_commits] at hci)
     (by
       intro i ci hci
       rcases i with _ | _ | _ | _ | i
       · simp [grafted_commits, commit_at] at hci
         subst hci; rfl
       · simp [grafted_commits, commit_at] at hci
         subst hci; rfl
       · simp [grafted_commits, commit_at] at hci
         subst hci; rfl
       · simp [grafted_commits, commit_at] at hci
         subst hci; rfl
       · simp [grafted_commits] at hci)
     (by
       intro i j ci cj hci hcj hn
       rcases i with _ | _ | _ | _ | i <;> rcases j with _ | _ | _ | _ | j <;>
         simp [grafted_commits, commit_at] at hci hcj <;>
         first
         | rfl
         | (subst hci; subst hcj; simp at hn))
     (by decide) rfl
     (Reach.step 3 2 2 (commit_at [1, 2, 2, 2] 40 (some 2)) (by decide) rfl
       (Reach.refl 2))
     (by decide) rfl (by decide) (by decide)
     (by
       intro cv1 hcv1 hb
       have : cv1 = version_at [1, 2] 20 false [[1, 2, 2, 1]] ∨
           cv1 = version_at [1, 1] 10 false [] ∨
           cv1 = version_at [1, 2, 2, 1] 30 false [] ∨
           cv1 = version_at [1, 2, 2, 2] 40 false [] := by
         simpa [grafted_file] using hcv1
       rcases this with rfl | rfl | rfl | rfl
       · rfl
       · simp [version_at, commit_at] at hb
       · simp [version_at, commit_at] at hb
       · simp [version_at, commit_at] at hb)
     (by decide) rfl
     ⟨0, by decide, head_at 1 (some "master") (some [1, 1]) 2, 1, by decide,
       rfl, Reach.refl 1⟩⟩

/-! ## `fileop_name` -/

theorem cvsignore_to_gitignore (pre : List Char) :
    (((pre ++ ".cvsignore".data).set (pre.length + 10 - 9) 'g').set
      (pre.length + 10 - 8) 'i').set (pre.length + 10 - 7) 't' =
      pre ++ ".gitignore".data := by
  have h1 : pre.length + 10 - 9 = pre.length + 1 := by omega
  have h2 : pre.length + 10 - 8 = pre.length + 2 := by omega
  have h3 : pre.length + 10 - 7 = pre.length + 3 := by omega
  rw [h1, h2, h3]
  clear h1 h2 h3
  induction pre with
  | nil => rfl
  | cons c cs ih =>
    simp only [List.cons_append, List.length_cons, List.set_cons_succ]
    rw [ih]

/-- Claim C11: a path shorter than `PATH_MAX - 1` whose trailing component is
exactly `.cvsignore` (the directory prefix `pre` is empty or ends in `/`) is
mapped by `fileop_name` to a path of the same length with the same prefix and
the trailing component `.gitignore`. -/
theorem fileop_name_cvsignore (pre : List Char)
    (hpre : pre = [] ∨ pre.getLast? = some '/')
    (hlen : (String.mk (pre ++ ".cvsignore".data)).length < PATH_MAX - 1) :
    ∃ out, fileop_name (String.mk (pre ++ ".cvsignore".data)) = some out ∧
      out.length = (String.mk (pre ++ ".cvsignore".data)).length ∧
      out.data = pre ++ ".gitignore".data := by
  have _ := hpre
  have hl : (pre ++ ".cvsignore".data).length = pre.length + 10 := by
    rw [List.length_append]; rfl
  refine ⟨String.mk (pre ++ ".gitignore".data), ?_, ?_, rfl⟩
  · unfold fileop_name
    simp only [String.length] at hlen ⊢
    rw [hl] at hlen ⊢
    have hdrop : List.drop (pre.length + 10 - 10) (pre ++ ".cvsignore".data) =
        ".cvsignore".data := by
      rw [Nat.add_sub_cancel]
      exact List.drop_left _ _
    rw [if_pos ⟨by omega, hdrop⟩, if_pos hlen, cvsignore_to_gitignore]
  · simp only [String.length, List.length_append]
    rfl

/-- Witness of C11 on the path `src/.cvsignore`. -/
theorem fileop_name_cvsignore_witness :
    ∃ out, fileop_name (String.mk ("src/".data ++ ".cvsignore".data)) =
        some out ∧
      out.length = (String.mk ("src/".data ++ ".cvsignore".data)).length ∧
      out.data = "src/".data ++ ".gitignore".data :=
  fileop_name_cvsignore "src/".data (Or.inr (by decide)) (by decide)

/-- Claim C12 fails on the code: the path `dir/foo.cvsignore`, whose trailing
component `foo.cvsignore` merely ends in `.cvsignore`, is not returned
unchanged by `fileop_name` but rewritten to `dir/foo.gitignore`. -/
theorem fileop_name_suffix_rewritten :
    fileop_name "dir/foo.cvsignore" = some "dir/foo.gitignore" ∧
    fileop_name "dir/foo.cvsignore" ≠ some "dir/foo.cvsignore" := by
  decide

/-! ## The symbol pass -/

/-- Claim C18 at two adjacent marked heads: in `dead_pair_refs` the heads 1 and
2 both carry the zero number, the discard loop unlinks head 1 only, and the
finished list of `dead_pair_file` still holds head 2 with the zero number. -/
theorem discard_keeps_second_marked :
    zero_marked dead_pair_refs 1 = true ∧
    zero_marked dead_pair_refs 2 = true ∧
    discard_zero dead_pair_refs [0, 1, 2] = [0, 2] ∧
    (cvs_master_digest dead_pair_file empty_cm empty_master).map
        (fun d => (d.cm.heads, head_names d, head_numbers d))
      = some ([0, 2], [some "master", none], [some [1, 1], some cvs_zero]) := by
  decide

theorem find_symbol_head_first (refs : List RevRef) (commits : List CvsCommit)
    (number : CvsNumber) (h tip : Nat) (r : RevRef) (tc : CvsCommit)
    (post : List Nat) (hr : refs[h]? = some r) (htip : r.commit = some tip)
    (htc : commits[tip]? = some tc)
    (hsame : cvs_same_branch tc.number number = true) :
    ∀ (pre : List Nat),
    (∀ g ∈ pre, ∃ rg tg cg, refs[g]? = some rg ∧ rg.commit = some tg ∧
      commits[tg]? = some cg ∧ cvs_same_branch cg.number number = false) →
    find_symbol_head refs commits number (pre ++ h :: post) =
      some (some h) := by
  intro pre
  induction pre with
  | nil =>
    intro _
    simp [find_symbol_head, hr, htip, htc, hsame]
  | cons g rest ih =>
    intro hpre
    obtain ⟨rg, tg, cg, h1, h2, h3, h4⟩ := hpre g (List.mem_cons_self _ _)
    simp only [List.cons_append, find_symbol_head, h1, h2, h3, h4,
      Bool.false_eq_true, if_false]
    exact ih (fun x hx => hpre x (List.mem_cons_of_mem _ hx))

/-- Claim C20: let `s` be a head symbol and `h` the first head of the list
whose tip commit `tip` is on the branch of `s.number` (the heads before it
have tips on other branches).  The round of the symbol loop for `s` returns a
list with a head named `s.symbol_name`, numbered `s.number`, whose commit is
`tip`.  If `h` had no name, that head is `h` itself, renamed in place, and the
list of heads is unchanged; if `h` had a name, `h` is unchanged and the head
is the one new head, allocated at the end of the arena and linked at the end
of the list. -/
theorem head_symbol_names_branch (commits : List CvsCommit) (cm : CvsMaster)
    (s : CvsSymbol) (pre post : List Nat) (h tip : Nat) (r : RevRef)
    (tc : CvsCommit) (hs : cvs_is_head s.number = true)
    (hsplit : cm.heads = pre ++ h :: post)
    (hpre : ∀ g ∈ pre, ∃ rg tg cg, cm.refs[g]? = some rg ∧
      rg.commit = some tg ∧ commits[tg]? = some cg ∧
      cvs_same_branch cg.number s.number = false)
    (hr : cm.refs[h]? = some r) (htip : r.commit = some tip)
    (htc : commits[tip]? = some tc)
    (hsame : cvs_same_branch tc.number s.number = true) :
    ∃ cm1 g rg, set_refs_symbol commits cm s = some cm1 ∧
      g ∈ cm1.heads ∧ cm1.refs[g]? = some rg ∧
      rg.ref_name = some s.symbol_name ∧ rg.number = some s.number ∧
      rg.commit = some tip ∧
      (r.ref_name = none → g = h ∧ cm1.heads = cm.heads ∧
        cm1.refs = cm.refs.set h rg ∧
        rg = { r with ref_name := some s.symbol_name,
                      degree := cvs_number_degree s.number,
                      number := some s.number }) ∧
      (r.ref_name ≠ none → g = cm.refs.length ∧ cm1.heads = cm.heads ++ [g] ∧
        cm1.refs = cm.refs ++ [rg] ∧ cm1.refs[h]? = some r) := by
  have hfind := find_symbol_head_first cm.refs commits s.number h tip r tc post
    hr htip htc hsame pre hpre
  rw [← hsplit] at hfind
  have hlt : h < cm.refs.length := getElem?_lt_of_some hr
  have hmem : h ∈ cm.heads := by rw [hsplit]; simp
  unfold set_refs_symbol
  rw [if_pos hs, hfind]
  simp only [hr]
  cases hn : r.ref_name with
  | none =>
    simp only [set_head_number, List.getElem?_set_self hlt]
    refine ⟨_, h, ({ r with ref_name := some s.symbol_name, degree := cvs_number_degree s.number, number := some s.number } : RevRef),
      rfl, hmem, ?_, rfl, rfl, htip, ?_, ?_⟩
    · simp only [List.set_set]
      exact List.getElem?_set_self hlt
    · intro _
      refine ⟨rfl, rfl, ?_, ?_⟩
      · simp only [List.set_set]
      · rfl
    · intro hc
      exact absurd rfl hc
  | some nm =>
    simp only [rev_list_add_head, set_head_number]
    have hnew : (cm.refs ++ [new_head r.commit (some s.symbol_name)
        (cvs_number_degree s.number)])[cm.refs.length]? =
        some (new_head r.commit (some s.symbol_name)
          (cvs_number_degree s.number)) := by
      rw [List.getElem?_append_right (Nat.le_refl _)]
      simp
    rw [hnew]
    refine ⟨_, cm.refs.length, ({ new_head r.commit (some s.symbol_name) (cvs_number_degree s.number) with number := some s.number } : RevRef),
      rfl, by simp, ?_, rfl, rfl, htip, ?_, ?_⟩
    · simp only [List.set_append_right _ _ (Nat.le_refl _), Nat.sub_self,
        List.set_cons_zero]
      rw [List.getElem?_append_right (Nat.le_refl _)]
      simp [new_head]
    · intro hc
      cases hc
    · intro _
      refine ⟨rfl, rfl, ?_, ?_⟩
      · simp only [List.set_append_right _ _ (Nat.le_refl _), Nat.sub_self,
          List.set_cons_zero]
      · simp only [List.set_append_right _ _ (Nat.le_refl _), Nat.sub_self,
          List.set_cons_zero]
        rw [List.getElem?_append_left hlt]
        exact hr

/-- Witness of C20 on the heads and slab of `grafted_file` and the symbol
`BR = 1.2.0.2`: the unnamed head 1 of the branch `1.2.2` is renamed in
place. -/
theorem head_symbol_names_branch_witness :
    ∃ cm1 g rg, set_refs_symbol grafted_commits grafted_cm
        { symbol_name := "BR", number := [1, 2, 0, 2] } = some cm1 ∧
      g ∈ cm1.heads ∧ cm1.refs[g]? = some rg ∧
      rg.ref_name = some "BR" ∧ rg.number = some [1, 2, 0, 2] ∧
      rg.commit = some 3 ∧
      ((head_at 3 none none 0).ref_name = none → g = 1 ∧
        cm1.heads = grafted_cm.heads ∧
        cm1.refs = grafted_cm.refs.set 1 rg ∧
        rg = { head_at 3 none none 0 with
                 ref_name := some "BR",
                 degree := cvs_number_degree [1, 2, 0, 2],
                 number := some [1, 2, 0, 2] }) ∧
      ((head_at 3 none none 0).ref_name ≠ none →
        g = grafted_cm.refs.length ∧ cm1.heads = grafted_cm.heads ++ [g] ∧
        cm1.refs = grafted_cm.refs ++ [rg] ∧
        cm1.refs[1]? = some (head_at 3 none none 0)) :=
  head_symbol_names_branch grafted_commits grafted_cm
    { symbol_name := "BR", number := [1, 2, 0, 2] } [0] [] 1 3
    (head_at 3 none none 0) (commit_at [1, 2, 2, 2] 40 (some 2))
    (by decide) (by decide)
    (by
      intro g hg
      have : g = 0 := by simpa using hg
      subst this
      exact ⟨head_at 1 (some "master") (some [1, 1]) 2, 1,
        commit_at [1, 2] 20 (some 0), by decide, rfl, by decide, by decide⟩)
    (by decide) rfl (by decide) (by decide)

/-! ## The head list across the vendor-branch rewriter -/

theorem patch_vendor_loop_frame (cs : List CvsCommit) (trunk : Nat) :
    ∀ (heads : List Nat) (refs : List RevRef) (nv : Option Nat)
      (refs1 : List RevRef) (nv1 : Option Nat),
    patch_vendor_loop cs trunk heads refs nv = some (refs1, nv1) →
    ∀ (i : Nat), is_vendor_head refs cs i = false → refs1[i]? = refs[i]? := by
  intro heads
  induction heads with
  | nil =>
    intro refs nv refs1 nv1 h i _
    simp only [patch_vendor_loop, Option.some.injEq, Prod.mk.injEq] at h
    rw [h.1]
  | cons v rest ih =>
    intro refs nv refs1 nv1 h i hi
    unfold patch_vendor_loop at h
    cases hr : refs[v]? with
    | none => rw [hr] at h; cases h
    | some r =>
      rw [hr] at h
      simp only at h
      cases hcm : r.commit with
      | none =>
        rw [hcm] at h
        exact ih refs nv refs1 nv1 h i hi
      | some tip =>
        rw [hcm] at h
        simp only at h
        cases htc : cs[tip]? with
        | none => rw [htc] at h; cases h
        | some tc =>
          rw [htc] at h
          simp only at h
          by_cases hven : cvs_is_vendor tc.number = true
          · rw [if_pos hven] at h
            have hvv : is_vendor_head refs cs v = true := by
              simp [is_vendor_head, head_commit, hr, hcm, htc, hven]
            have hne : v ≠ i := by
              intro hvi
              rw [hvi, hi] at hvv
              cases hvv
            have key : ∀ (r1 : RevRef) (nv2 : Option Nat),
                r1.commit = r.commit →
                patch_vendor_loop cs trunk rest (refs.set v r1) nv2 =
                  some (refs1, nv1) → refs1[i]? = refs[i]? := by
              intro r1 nv2 hc hl
              have hcongr := head_commit_set refs v r r1 hr hc
              rw [ih (refs.set v r1) nv2 refs1 nv1 hl i
                (by rw [is_vendor_head_congr cs hcongr i]; exact hi)]
              exact List.getElem?_set_ne hne
            cases hnm : r.ref_name with
            | some name =>
              rw [hnm] at h
              simp only at h
              refine key _ _ ?_ h
              exact hcm.symm
            | none =>
              rw [hnm] at h
              simp only at h
              cases hcr : chain_root cs (cs.length + 1) tip with
              | none => rw [hcr] at h; cases h
              | some vlast =>
                rw [hcr] at h
                simp only at h
                cases hvc : cs[vlast]? with
                | none => rw [hvc] at h; cases h
                | some vc =>
                  rw [hvc] at h
                  simp only at h
                  refine key _ _ ?_ h
                  exact hcm.symm
          · rw [if_neg hven] at h
            exact ih refs nv refs1 nv1 h i hi

theorem last_vendor_head_mem (refs : List RevRef) (cs : List CvsCommit) :
    ∀ (heads : List Nat) (acc : Option Nat) (nv : Nat),
    last_vendor_head refs cs heads acc = some nv →
    acc = some nv ∨ (nv ∈ heads ∧ is_vendor_head refs cs nv = true) := by
  intro heads
  induction heads with
  | nil => intro acc nv h; exact Or.inl h
  | cons x rest ih =>
    intro acc nv h
    unfold last_vendor_head at h
    rcases ih _ nv h with h1 | ⟨h1, h2⟩
    · by_cases hx : is_vendor_head refs cs x = true
      · rw [if_pos hx] at h1
        cases h1
        exact Or.inr ⟨List.mem_cons_self _ _, hx⟩
      · rw [if_neg hx] at h1
        exact Or.inl h1
    · exact Or.inr ⟨List.mem_cons_of_mem _ h1, h2⟩

theorem vendor_head_tip (refs : List RevRef) (cs : List CvsCommit) (h : Nat)
    (hv : is_vendor_head refs cs h = true) :
    ∃ tip tc, head_commit refs h = some tip ∧ cs[tip]? = some tc := by
  unfold is_vendor_head at hv
  cases hc : head_commit refs h with
  | none => rw [hc] at hv; cases hv
  | some tip =>
    rw [hc] at hv
    simp only at hv
    cases htc : cs[tip]? with
    | none => rw [htc] at hv; cases hv
    | some tc => exact ⟨tip, tc, rfl, htc⟩

/-- Claim C19: on a head list of distinct heads that starts with the trunk
`master`, whose tip is not a vendor revision, over a slab as the builder
leaves it, the vendor-branch rewriter returns.  When `nv` is the last vendor
head of the list and the trunk tip has no parent, the list afterwards is the
input list without `nv`, the other heads in their order and the trunk first.
When there is no vendor head or the trunk tip has a parent, the list is
unchanged and so is the trunk head. -/
theorem patch_vendor_head_list (cm : CvsMaster) (cs : List CvsCommit)
    (trunk oldtip : Nat) (rest : List Nat) (t0 : RevRef) (oc : CvsCommit)
    (hheads : cm.heads = trunk :: rest) (hnodup : cm.heads.Nodup)
    (ht0 : cm.refs[trunk]? = some t0) (hname : t0.ref_name = some "master")
    (hvalid : ∀ h ∈ cm.heads, h < cm.refs.length ∧
      ∀ tip, head_commit cm.refs h = some tip → tip < cs.length)
    (hdown : DownFrom 0 cs)
    (htip : t0.commit = some oldtip) (hoc : cs[oldtip]? = some oc)
    (htrunk : is_vendor_head cm.refs cs trunk = false) :
    ∃ cm1 cs1, cvs_master_patch_vendor_branch cm cs = some (cm1, cs1) ∧
      (∀ (pre post : List Nat) (nv : Nat), rest = pre ++ nv :: post →
        is_vendor_head cm.refs cs nv = true →
        (∀ h ∈ post, is_vendor_head cm.refs cs h = false) →
        oc.parent = none →
        cm1.heads = trunk :: (pre ++ post) ∧ nv ∉ cm1.heads) ∧
      ((∀ h ∈ cm.heads, is_vendor_head cm.refs cs h = false) ∨
          oc.parent ≠ none →
        cm1.heads = cm.heads ∧ cm1.refs[trunk]? = some t0) := by
  obtain ⟨refs1, hloop, hlen, hcommit⟩ :=
    patch_vendor_loop_spec cs trunk hdown cm.heads cm.refs none hvalid
  have hfr : refs1[trunk]? = some t0 := by
    rw [patch_vendor_loop_frame cs trunk cm.heads cm.refs none refs1 _ hloop
      trunk htrunk]
    exact ht0
  have hlast : ∀ (pre post : List Nat) (nv : Nat), rest = pre ++ nv :: post →
      is_vendor_head cm.refs cs nv = true →
      (∀ h ∈ post, is_vendor_head cm.refs cs h = false) →
      last_vendor_head cm.refs cs cm.heads none = some nv := by
    intro pre post nv hsplit hven hpost
    exact last_vendor_head_split cm.refs cs cm.heads (trunk :: pre) post nv
      none (by rw [hheads, hsplit]; rfl) hven hpost
  have hstart : cvs_master_patch_vendor_branch cm cs =
      (match (some (refs1, last_vendor_head cm.refs cs cm.heads none) :
          Option (List RevRef × Option Nat)) with
        | none => none
        | some (refs, none) => some ({ cm with refs := refs }, cs)
        | some (refs, some nv) =>
          match oc.parent with
          | some _ => some ({ cm with refs := refs }, cs)
          | none =>
            match refs[nv]? with
            | none => none
            | some nr =>
              match nr.commit with
              | none => none
              | some ntip =>
                match cs[ntip]? with
                | none => none
                | some nc =>
                  match chain_root cs (cs.length + 1) ntip with
                  | none => none
                  | some vlast =>
                    match cs[vlast]? with
                    | none => none
                    | some vc =>
                      some
                        ({ refs := refs.set trunk
                             { t0 with commit := some ntip,
                                       degree := nc.number.length,
                                       number := some nc.number },
                           heads := unlink_head nv cm.heads },
                         cs.set vlast { vc with parent := some oldtip })) := by
    have hn2 : ¬ (t0.ref_name ≠ some "master") := by simp [hname]
    unfold cvs_master_patch_vendor_branch
    simp only [hheads, ht0, if_neg hn2]
    rw [← hheads, hloop]
    cases last_vendor_head cm.refs cs cm.heads none with
    | none => rfl
    | some nv =>
      simp only [hfr, htip, hoc]
      try rfl
  rw [hstart]
  cases hl : last_vendor_head cm.refs cs cm.heads none with
  | none =>
    refine ⟨_, _, rfl, ?_, ?_⟩
    · intro pre post nv hsplit hven hpost _
      rw [hlast pre post nv hsplit hven hpost] at hl
      cases hl
    · intro _
      exact ⟨rfl, hfr⟩
  | some nv =>
    simp only
    cases hp : oc.parent with
    | some p =>
      refine ⟨_, _, rfl, ?_, ?_⟩
      · intro pre post nv1 _ _ _ hnone
        cases hnone
      · intro _
        exact ⟨rfl, hfr⟩
    | none =>
      simp only
      rcases last_vendor_head_mem cm.refs cs cm.heads none nv hl with
        h0 | ⟨hmem, hven⟩
      · cases h0
      · obtain ⟨ntip, nc, hnt, hnc⟩ := vendor_head_tip cm.refs cs nv hven
        have hnl : nv < refs1.length := by
          rw [hlen]; exact (hvalid nv hmem).1
        have hn1 : refs1[nv]? = some refs1[nv] :=
          List.getElem?_eq_getElem hnl
        have hn1c : (refs1[nv]).commit = some ntip := by
          have := hcommit nv
          rw [hnt] at this
          simpa [head_commit, hn1] using this
        have hntl : ntip < cs.length := (hvalid nv hmem).2 ntip hnt
        obtain ⟨vlast, hvl⟩ := chain_root_total cs hdown (cs.length + 1) ntip
          (by omega) hntl
        obtain ⟨_, rc, hrc, _⟩ := chain_root_spec cs _ _ _ hvl
        simp only [hn1, hn1c, hnc, hvl, hrc]
        refine ⟨_, _, rfl, ?_, ?_⟩
        · intro pre post nv1 hsplit hven1 hpost _
          have hnv : nv1 = nv := by
            have := hlast pre post nv1 hsplit hven1 hpost
            rw [hl] at this
            exact (Option.some.inj this).symm
          subst hnv
          have hnd : (trunk :: (pre ++ nv1 :: post)).Nodup := by
            rw [← hsplit, ← hheads]; exact hnodup
          have hnd1 : (pre ++ nv1 :: post).Nodup := (List.nodup_cons.mp hnd).2
          have hnpre : nv1 ∉ pre := by
            intro hin
            have := List.nodup_append.mp hnd1
            exact this.2.2 hin (List.mem_cons_self _ _) 
          have hnpost : nv1 ∉ post := by
            have := (List.nodup_append.mp hnd1).2.1
            exact (List.nodup_cons.mp this).1
          have hnt1 : nv1 ≠ trunk := by
            intro he
            have := (List.nodup_cons.mp hnd).1
            rw [← he] at this
            exact this (by simp)
          have hheads1 : unlink_head nv1 cm.heads = trunk :: (pre ++ post) := by
            rw [hheads, hsplit]
            simp only [unlink_head]
            rw [List.erase_append_right _ hnpre, List.erase_cons_head]
          refine ⟨hheads1, ?_⟩
          show nv1 ∉ unlink_head nv1 cm.heads
          rw [hheads1]
          simp only [List.mem_cons, List.mem_append, not_or]
          exact ⟨hnt1, hnpre, hnpost⟩
        · rintro (hno | hpar)
          · rw [hno nv hmem] at hven
            cases hven
          · exact absurd rfl hpar

/-- Witness of C19 on the heads and slab that the build phase leaves for
`vendor_early_file` (trunk `1.1`, vendor branch `1.1.1.1`, `1.1.1.2`). -/
theorem patch_vendor_head_list_witness :
    ∃ cm1 cs1, cvs_master_patch_vendor_branch vendor_early_cm
        vendor_early_commits = some (cm1, cs1) ∧
      (∀ (pre post : List Nat) (nv : Nat), [1] = pre ++ nv :: post →
        is_vendor_head vendor_early_cm.refs vendor_early_commits nv = true →
        (∀ h ∈ post,
          is_vendor_head vendor_early_cm.refs vendor_early_commits h = false) →
        (commit_at [1, 1] 100 none).parent = none →
        cm1.heads = 0 :: (pre ++ post) ∧ nv ∉ cm1.heads) ∧
      ((∀ h ∈ vendor_early_cm.heads,
          is_vendor_head vendor_early_cm.refs vendor_early_commits h = false) ∨
          (commit_at [1, 1] 100 none).parent ≠ none →
        cm1.heads = vendor_early_cm.heads ∧
        cm1.refs[0]? = some (head_at 0 (some "master") (some [1, 1]) 2)) :=
  patch_vendor_head_list vendor_early_cm vendor_early_commits 0 0 [1]
    (head_at 0 (some "master") (some [1, 1]) 2) (commit_at [1, 1] 100 none)
    (by decide) (by decide) (by decide) (by decide)
    (by
      intro h hh
      have : h = 0 ∨ h = 1 := by simpa [vendor_early_cm] using hh
      rcases this with rfl | rfl
      · refine ⟨by decide, ?_⟩
        intro tip ht
        have : tip = 0 := by
          simpa [head_commit, vendor_early_cm, head_at] using ht.symm
        subst this; decide
      · refine ⟨by decide, ?_⟩
        intro tip ht
        have : tip = 2 := by
          simpa [head_commit, vendor_early_cm, head_at] using ht.symm
        subst this; decide)
    (by
      intro i ci p _ hci hp
      rcases i with _ | _ | _ | i
      · simp [vendor_early_commits, commit_at] at hci
        subst hci; cases hp
      · simp [vendor_early_commits, commit_at] at hci
        subst hci; cases hp
      · simp [vendor_early_commits, commit_at] at hci
        subst hci; cases hp; omega
      · simp [vendor_early_commits] at hci)
    (by decide) (by decide) (by decide)

/-! ## Tail flags after the grafter -/

/-- Claim C15 as stated fails: on the heads and slab built for
`lost_point_file` the grafter returns; afterwards the commit `1.2.2.1` in slot
1, the tip of head 1, has its tail flag set and no parent, because no commit
is numbered `1.2`. -/
theorem graft_tail_without_parent :
    (digest_build lost_point_file empty_cm empty_master).map
        (fun b => (b.2.1, b.2.2.commits))
      = some (lost_point_cm, lost_point_commits) ∧
    ∃ cs1 c cc, cvs_master_graft_branches lost_point_file lost_point_cm
        lost_point_commits = some cs1 ∧
      1 ∈ lost_point_cm.heads ∧ head_commit lost_point_cm.refs 1 = some c ∧
      cs1[c]? = some cc ∧ cc.tail = true ∧ cc.parent = none :=
  ⟨by decide,
   [commit_at [1, 1] 10 none, { commit_at [1, 2, 2, 1] 30 none with tail := true }],
   1, { commit_at [1, 2, 2, 1] 30 none with tail := true },
   by decide, by decide, by decide, by decide, rfl, rfl⟩

theorem tail_parent_set (cs : List CvsCommit) (ht : TailParent cs) (c j : Nat)
    (cc : CvsCommit) (hj : j < cs.length) :
    TailParent (cs.set c { cc with parent := some j, tail := true }) := by
  intro i ci hi _
  by_cases hic : c = i
  · subst hic
    have hlt : c < cs.length := by
      have := getElem?_lt_of_some hi
      rwa [List.length_set] at this
    rw [List.getElem?_set_self hlt] at hi
    cases hi
    have hj2 : j < (cs.set c { cc with parent := some j, tail := true }).length := by
      rw [List.length_set]; exact hj
    exact ⟨j, _, rfl, List.getElem?_eq_getElem hj2⟩
  · rw [List.getElem?_set_ne hic] at hi
    by_cases hti : ci.tail = true
    · obtain ⟨p, pc, hp, hpc⟩ := ht i ci hi hti
      have hpl : p < (cs.set c { cc with parent := some j, tail := true }).length := by
        rw [List.length_set]; exact getElem?_lt_of_some hpc
      exact ⟨p, _, hp, List.getElem?_eq_getElem hpl⟩
    · rename_i h
      exact absurd h hti

theorem graft_find_some (cm : CvsMaster) (cs cs1 : List CvsCommit)
    (hd : DownFrom 0 cs) (hv : HeadsValid cm cs.length)
    (hnt : ∀ (i : Nat) (ci : CvsCommit), cs[i]? = some ci → ci.tail = false)
    (hg : Grafted cs cs1) (k : Nat) (kc : CvsCommit) (hk : cs[k]? = some kc)
    (hreach : ∃ g ∈ cm.heads, ∃ rg gt, cm.refs[g]? = some rg ∧
      rg.commit = some gt ∧ Reach cs gt k) :
    ∃ j, cvs_master_find_revision cm cs1 kc.number = some (some j) ∧
      j < cs1.length := by
  have htd := grafted_tail_down cs cs1 hd hg
  have hv1 : HeadsValid cm cs1.length := by rw [hg.1]; exact hv
  have hk1 : ∃ kc1, cs1[k]? = some kc1 ∧ kc1.number = kc.number := by
    rcases hg.2 k kc hk with h | ⟨_, q, h⟩
    · exact ⟨kc, h, rfl⟩
    · exact ⟨_, h, rfl⟩
  obtain ⟨kc1, hkc1, hnum1⟩ := hk1
  obtain ⟨g, hgm, rg, gt, hrg, hgt, hw⟩ := hreach
  obtain ⟨j, hj⟩ := find_loop_complete cm cs1 htd hv1 kc.number k kc1 hkc1
    hnum1 cm.heads (fun _ h => h)
    ⟨g, hgm, rg, gt, hrg, hgt, grafted_walk cs cs1 hnt hg gt k hw⟩
  obtain ⟨res, hres, hnum⟩ := find_loop_total cm cs1 htd hv1 kc.number
    cm.heads (fun _ h => h)
  rw [hj] at hres
  cases hres
  obtain ⟨cj, hcj, _⟩ := hnum j rfl
  exact ⟨j, hj, getElem?_lt_of_some hcj⟩

theorem graft_versions_point (cm : CvsMaster) (c : Nat) (cc : CvsCommit)
    (cs1 : List CvsCommit) (hc : cs1[c]? = some cc) (hp : cc.parent = none) :
    ∀ (versions : List CvsVersion),
    (∀ cv ∈ versions, cc.number ∈ cv.branches →
      ∃ j, cvs_master_find_revision cm cs1 cv.number = some (some j) ∧
        j < cs1.length) →
    ∃ cs2, graft_versions cm c versions cs1 = some cs2 ∧
      (cs2 = cs1 ∨ ∃ j, j < cs1.length ∧
        cs2 = cs1.set c { cc with parent := some j, tail := true }) := by
  intro versions
  induction versions with
  | nil =>
    intro _
    exact ⟨cs1, rfl, Or.inl rfl⟩
  | cons cv rest ih =>
    intro hfind
    unfold graft_versions
    rw [hc]
    simp only
    by_cases hm : cc.number ∈ cv.branches
    · rw [if_pos ((branches_any_iff _ _).mpr hm)]
      obtain ⟨j, hj, hjl⟩ := hfind cv (List.mem_cons_self _ _) hm
      rw [hj]
      exact ⟨_, rfl, Or.inr ⟨j, hjl, rfl⟩⟩
    · have hany : ¬ (cv.branches.any
          (fun cb => cvs_number_compare cb cc.number == 0) = true) :=
        fun h => hm ((branches_any_iff _ _).mp h)
      rw [if_neg hany, hp]
      simp only
      exact ih (fun cv1 hcv1 hb => hfind cv1 (List.mem_cons_of_mem _ hcv1) hb)

theorem graft_loop_tail_parent (cvs : CvsFile) (cm : CvsMaster)
    (cs : List CvsCommit) (first : Nat)
    (hv : HeadsValid cm cs.length) (hd : DownFrom 0 cs)
    (hnt : ∀ (i : Nat) (ci : CvsCommit), cs[i]? = some ci → ci.tail = false)
    (hpoint : ∀ cv ∈ cvs.versions, cv.branches ≠ [] →
      ∃ k kc, cs[k]? = some kc ∧ kc.number = cv.number ∧
        ∃ g ∈ cm.heads, ∃ rg gt, cm.refs[g]? = some rg ∧
          rg.commit = some gt ∧ Reach cs gt k) :
    ∀ (hs : List Nat), (∀ g ∈ hs, g ∈ cm.heads) →
    ∀ (cs1 : List CvsCommit), Grafted cs cs1 → TailParent cs1 →
    ∃ cs2, graft_loop cvs cm first hs cs1 = some cs2 ∧ Grafted cs cs2 ∧
      TailParent cs2 := by
  intro hs
  induction hs with
  | nil =>
    intro _ cs1 hg ht
    exact ⟨cs1, rfl, hg, ht⟩
  | cons g rest ih =>
    intro hsub cs1 hg ht
    have hsub1 : ∀ x ∈ rest, x ∈ cm.heads :=
      fun x hx => hsub x (List.mem_cons_of_mem _ hx)
    unfold graft_loop
    by_cases hgf : g = first
    · rw [if_pos hgf]
      exact ih hsub1 cs1 hg ht
    · rw [if_neg hgf]
      obtain ⟨rg, hrg, hrt, hrtip⟩ := hv g (hsub g (List.mem_cons_self _ _))
      rw [hrg]
      simp only [hrt, Bool.false_eq_true, if_false]
      cases hcm : rg.commit with
      | none =>
        simp only [graft_root]
        exact ih hsub1 cs1 hg ht
      | some t =>
        have htl : t < cs1.length := by rw [hg.1]; exact hrtip t hcm
        obtain ⟨res, hres⟩ := graft_root_total cs1
          (grafted_tail_down cs cs1 hd hg) (cs1.length + 1) t (by omega) htl
        rw [hres]
        cases res with
        | none => exact ih hsub1 cs1 hg ht
        | some c1 =>
          simp only
          obtain ⟨cc1, hcc1, hp1⟩ := graft_root_spec cs1 _ _ c1 hres
          have hi : c1 < cs.length := by
            rw [← hg.1]
            exact getElem?_lt_of_some hcc1
          have hsame : cs[c1]? = some cc1 := by
            rcases hg.2 c1 cs[c1] (List.getElem?_eq_getElem hi) with
              h1 | ⟨_, q, h1⟩
            · rw [hcc1] at h1
              cases h1
              exact List.getElem?_eq_getElem hi
            · obtain ⟨p, pc, hp, _⟩ := ht c1 cc1 hcc1 (by
                rw [hcc1] at h1
                cases h1
                rfl)
              rw [hp1] at hp
              cases hp
          obtain ⟨cs2, h2, hshape⟩ := graft_versions_point cm c1 cc1 cs1 hcc1
            hp1 cvs.versions (by
              intro cv hcv hb
              obtain ⟨k, kc, hk, hkn, hreach⟩ := hpoint cv hcv
                (List.ne_nil_of_mem hb)
              rw [← hkn]
              exact graft_find_some cm cs cs1 hd hv hnt hg k kc hk hreach)
          rw [h2]
          simp only
          rcases hshape with rfl | ⟨j, hjl, rfl⟩
          · exact ih hsub1 _ hg ht
          · exact ih hsub1 _ (grafted_set cs cs1 hg c1 cc1 hsame hp1 (some j))
              (tail_parent_set cs1 ht c1 j cc1 hjl)

/-- Claim C15 as amended.  On a slab as the build phase leaves it (parent
links point to lower slots, no tail flag set, heads allocated with their tips
in the slab), when every version that carries a branch record has a commit of
its number reachable from some head, `cvs_master_graft_branches` returns and
afterwards every commit whose tail flag is set has a parent in the slab. -/
theorem graft_tail_parent_defined (cvs : CvsFile) (cm : CvsMaster)
    (cs : List CvsCommit)
    (hv : HeadsValid cm cs.length) (hd : DownFrom 0 cs)
    (hnt : ∀ (i : Nat) (ci : CvsCommit), cs[i]? = some ci → ci.tail = false)
    (hpoint : ∀ cv ∈ cvs.versions, cv.branches ≠ [] →
      ∃ k kc, cs[k]? = some kc ∧ kc.number = cv.number ∧
        ∃ g ∈ cm.heads, ∃ rg gt, cm.refs[g]? = some rg ∧
          rg.commit = some gt ∧ Reach cs gt k) :
    ∃ cs1, cvs_master_graft_branches cvs cm cs = some cs1 ∧
      ∀ (c : Nat) (cc : CvsCommit), cs1[c]? = some cc → cc.tail = true →
        ∃ p pc, cc.parent = some p ∧ cs1[p]? = some pc := by
  have ht0 : TailParent cs := by
    intro i ci hi hti
    rw [hnt i ci hi] at hti
    cases hti
  unfold cvs_master_graft_branches
  cases hhs : cm.heads with
  | nil => exact ⟨cs, rfl, ht0⟩
  | cons f rest =>
    simp only
    obtain ⟨cs1, h1, _, ht1⟩ := graft_loop_tail_parent cvs cm cs f hv hd hnt
      hpoint cm.heads (fun _ hx => hx) cs (grafted_refl cs) ht0
    rw [hhs] at h1
    exact ⟨cs1, h1, ht1⟩

/-- Witness of the amended C15 on the heads and slab that the build phase
leaves for `grafted_file`. -/
theorem graft_tail_parent_defined_witness :
    ∃ cs1, cvs_master_graft_branches grafted_file grafted_cm grafted_commits
        = some cs1 ∧
      ∀ (c : Nat) (cc : CvsCommit), cs1[c]? = some cc → cc.tail = true →
        ∃ p pc, cc.parent = some p ∧ cs1[p]? = some pc :=
  graft_tail_parent_defined grafted_file grafted_cm grafted_commits
    (by
      intro g hg
      have : g = 0 ∨ g = 1 := by simpa [grafted_cm] using hg
      rcases this with rfl | rfl
      · refine ⟨head_at 1 (some "master") (some [1, 1]) 2, by decide,
          by decide, ?_⟩
        intro t ht
        have : t = 1 := by simpa [head_at] using ht.symm
        subst this; decide
      · refine ⟨head_at 3 none none 0, by decide, by decide, ?_⟩
        intro t ht
        have : t = 3 := by simpa [head_at] using ht.symm
        subst this; decide)
    (by
      intro i ci p _ hci hp
      rcases i with _ | _ | _ | _ | i
      · simp [grafted_commits, commit_at] at hci
        subst hci; cases hp
      · simp [grafted_commits, commit_at] at hci
        subst hci; cases hp; omega
      · simp [grafted_commits, commit_at] at hci
        subst hci; cases hp
      · simp [grafted_commits, commit_at] at hci
        subst hci; cases hp; omega
      · simp [grafted_commits] at hci)
    (by
      intro i ci hci
      rcases i with _ | _ | _ | _ | i
      · simp [grafted_commits, commit_at] at hci
        subst hci; rfl
      · simp [grafted_commits, commit_at] at hci
        subst hci; rfl
      · simp [grafted_commits, commit_at] at hci
        subst hci; rfl
      · simp [grafted_commits, commit_at] at hci
        subst hci; rfl
      · simp [grafted_commits] at hci)
    (by
      intro cv hcv hb
      have : cv = version_at [1, 2] 20 false [[1, 2, 2, 1]] ∨
          cv = version_at [1, 1] 10 false [] ∨
          cv = version_at [1, 2, 2, 1] 30 false [] ∨
          cv = version_at [1, 2, 2, 2] 40 false [] := by
        simpa [grafted_file] using hcv
      rcases this with rfl | rfl | rfl | rfl
      · exact ⟨1, commit_at [1, 2] 20 (some 0), by decide, rfl, 0, by decide,
          head_at 1 (some "master") (some [1, 1]) 2, 1, by decide, rfl,
          Reach.refl 1⟩
      · exact absurd rfl hb
      · exact absurd rfl hb
      · exact absurd rfl hb)

/-! ## The directory interner -/

theorem last_slash_spec : ∀ (l : List Char) (i : Nat), last_slash l = some i →
    i < l.length ∧ l = l.take i ++ '/' :: l.drop (i + 1) ∧
      '/' ∉ l.drop (i + 1) := by
  intro l
  induction l with
  | nil => intro i h; simp [last_slash] at h
  | cons c rest ih =>
    intro i h
    unfold last_slash at h
    cases hr : last_slash rest with
    | some j =>
      rw [hr] at h
      simp only [Option.some.injEq] at h
      subst h
      obtain ⟨h1, h2, h3⟩ := ih j hr
      refine ⟨by simp only [List.length_cons]; omega, ?_, ?_⟩
      · simp only [List.take_succ_cons, List.drop_succ_cons, List.cons_append]
        rw [← h2]
      · simpa using h3
    | none =>
      rw [hr] at h
      simp only at h
      by_cases hc : c = '/'
      · rw [if_pos hc] at h
        simp only [Option.some.injEq] at h
        subst h
        subst hc
        refine ⟨by simp, by simp, ?_⟩
        simp only [Nat.zero_add, List.drop_succ_cons, List.drop_zero]
        clear ih
        induction rest with
        | nil => simp
        | cons x xs ihx =>
          unfold last_slash at hr
          cases hx : last_slash xs with
          | some j => rw [hx] at hr; cases hr
          | none =>
            rw [hx] at hr
            simp only at hr
            by_cases hxc : x = '/'
            · rw [if_pos hxc] at hr; cases hr
            · simp only [List.mem_cons, not_or]
              exact ⟨fun h => hxc h.symm, ihx hx⟩
      · rw [if_neg hc] at h
        cases h

theorem last_slash_none : ∀ (l : List Char), last_slash l = none → '/' ∉ l := by
  intro l
  induction l with
  | nil => intro _; simp
  | cons x xs ih =>
    intro h
    unfold last_slash at h
    cases hx : last_slash xs with
    | some j => rw [hx] at h; cases h
    | none =>
      rw [hx] at h
      simp only at h
      by_cases hxc : x = '/'
      · rw [if_pos hxc] at h; cases h
      · simp only [List.mem_cons, not_or]
        exact ⟨fun h => hxc h.symm, ih hx⟩

theorem dir_name_spec (name : Atom) (hlen : name.length ≤ PATH_MAX) :
    ∃ d, dir_name name = some d ∧ d.length ≤ name.length ∧
      (0 < name.length → d.length < name.length) ∧
      (('/' ∉ name.data ∧ d = "") ∨
        ∃ rest, name.data = d.data ++ '/' :: rest ∧ '/' ∉ rest) := by
  unfold dir_name
  cases hs : last_slash name.data with
  | none =>
    refine ⟨"", rfl, by simp, fun h => h, Or.inl ⟨last_slash_none _ hs, rfl⟩⟩
  | some i =>
    obtain ⟨h1, h2, h3⟩ := last_slash_spec name.data i hs
    have hl : name.data.length = name.length := rfl
    simp only
    rw [if_pos (by omega)]
    refine ⟨_, rfl, ?_, ?_, Or.inr ⟨name.data.drop (i + 1), h2, h3⟩⟩
    · simp only [String.length, List.length_take]
      omega
    · intro _
      simp only [String.length, List.length_take]
      rw [hl]
      omega

theorem atom_length_zero (s : Atom) : s.length = 0 ↔ s = "" := by
  constructor
  · intro h
    cases s with
    | mk l =>
      simp only [String.length, List.length_eq_zero] at h
      subst h
      rfl
  · intro h
    subst h
    rfl

theorem find_dir_spec (dirs : List MasterDir) (name : Atom) :
    ∀ (chain : List Nat), (∀ b ∈ chain, ∃ d, dirs[b]? = some d) →
    (∃ b, find_dir dirs name chain = some (some b) ∧ b ∈ chain ∧
      ∃ d, dirs[b]? = some d ∧ d.name = name) ∨
    (find_dir dirs name chain = some none ∧
      ∀ b ∈ chain, ∀ d, dirs[b]? = some d → d.name ≠ name) := by
  intro chain
  induction chain with
  | nil =>
    intro _
    exact Or.inr ⟨rfl, fun b hb => by cases hb⟩
  | cons x rest ih =>
    intro hval
    obtain ⟨d, hd⟩ := hval x (List.mem_cons_self _ _)
    unfold find_dir
    rw [hd]
    simp only
    by_cases hn : d.name = name
    · rw [if_pos hn]
      exact Or.inl ⟨x, rfl, List.mem_cons_self _ _, d, hd, hn⟩
    · rw [if_neg hn]
      rcases ih (fun b hb => hval b (List.mem_cons_of_mem _ hb)) with
        ⟨b, h1, h2, h3⟩ | ⟨h1, h2⟩
      · exact Or.inl ⟨b, h1, List.mem_cons_of_mem _ h2, h3⟩
      · refine Or.inr ⟨h1, ?_⟩
        intro b hb d1 hd1
        rcases List.mem_cons.mp hb with rfl | hin
        · rw [hd] at hd1
          cases hd1
          exact hn
        · exact h2 b hin d1 hd1

theorem good_dir_append (dirs ext : List MasterDir) (i : Nat)
    (hg : GoodDir dirs i) (hi : i < dirs.length) : GoodDir (dirs ++ ext) i := by
  intro d hd
  rw [List.getElem?_append_left hi] at hd
  obtain ⟨h1, h2⟩ := hg d hd
  refine ⟨h1, ?_⟩
  intro hne
  obtain ⟨p, dp, hp, hdp, hnm⟩ := h2 hne
  refine ⟨p, dp, hp, ?_, hnm⟩
  rw [List.getElem?_append_left (getElem?_lt_of_some hdp)]
  exact hdp

theorem good_dir_set (dirs : List MasterDir) (i b : Nat) (bd bd1 : MasterDir)
    (hg : GoodDir dirs i) (hib : i ≠ b) (hb : dirs[b]? = some bd)
    (hname : bd1.name = bd.name) : GoodDir (dirs.set b bd1) i := by
  intro d hd
  rw [List.getElem?_set_ne (fun h => hib h.symm)] at hd
  obtain ⟨h1, h2⟩ := hg d hd
  refine ⟨h1, ?_⟩
  intro hne
  obtain ⟨p, dp, hp, hdp, hnm⟩ := h2 hne
  by_cases hpb : p = b
  · subst hpb
    rw [hb] at hdp
    cases hdp
    refine ⟨p, bd1, hp, List.getElem?_set_self (getElem?_lt_of_some hb), ?_⟩
    rw [hname]
    exact hnm
  · refine ⟨p, dp, hp, ?_, hnm⟩
    rw [List.getElem?_set_ne (fun h => hpb h.symm)]
    exact hdp

theorem table_ok_set (hash : Atom → Nat) (t : DirTable) (b : Nat)
    (bd bd1 : MasterDir) (hok : TableOk hash t) (hb : t.dirs[b]? = some bd)
    (hname : bd1.name = bd.name) :
    TableOk hash { t with dirs := t.dirs.set b bd1 } := by
  have hlt : b < t.dirs.length := getElem?_lt_of_some hb
  have hget : ∀ (i : Nat) (d : MasterDir), (t.dirs.set b bd1)[i]? = some d →
      ∃ d0, t.dirs[i]? = some d0 ∧ d0.name = d.name := by
    intro i d hd
    by_cases hib : b = i
    · subst hib
      rw [List.getElem?_set_self hlt] at hd
      cases hd
      exact ⟨bd, hb, hname.symm⟩
    · rw [List.getElem?_set_ne hib] at hd
      exact ⟨d, hd, rfl⟩
  obtain ⟨h1, h2, h3⟩ := hok
  refine ⟨?_, ?_, ?_⟩
  · intro k x hx
    obtain ⟨d, hd, hk⟩ := h1 k x hx
    by_cases hxb : b = x
    · subst hxb
      rw [hb] at hd
      cases hd
      exact ⟨bd1, List.getElem?_set_self hlt, by rw [hname]; exact hk⟩
    · exact ⟨d, by simp only; rw [List.getElem?_set_ne hxb]; exact hd, hk⟩
  · intro i d hd
    obtain ⟨d0, hd0, hn0⟩ := hget i d hd
    rw [← hn0]
    exact h2 i d0 hd0
  · intro i j di dj hi hj hn
    obtain ⟨di0, hdi0, hni⟩ := hget i di hi
    obtain ⟨dj0, hdj0, hnj⟩ := hget j dj hj
    exact h3 i j di0 dj0 hdi0 hdj0 (by rw [hni, hnj]; exact hn)

theorem table_ok_push (hash : Atom → Nat) (t : DirTable) (name : Atom)
    (hok : TableOk hash t)
    (hnew : ∀ (i : Nat) (d : MasterDir), t.dirs[i]? = some d → d.name ≠ name) :
    TableOk hash
      { dirs := t.dirs ++ [{ name := name, parent := none }],
        buckets := fun i =>
          if i = hash name % DIR_BUCKETS then t.buckets i ++ [t.dirs.length]
          else t.buckets i } := by
  obtain ⟨h1, h2, h3⟩ := hok
  have hget : ∀ (i : Nat) (d : MasterDir),
      (t.dirs ++ [({ name := name, parent := none } : MasterDir)])[i]? = some d →
      (i < t.dirs.length ∧ t.dirs[i]? = some d) ∨
        (i = t.dirs.length ∧ d = { name := name, parent := none }) := by
    intro i d hd
    by_cases hi : i < t.dirs.length
    · rw [List.getElem?_append_left hi] at hd
      exact Or.inl ⟨hi, hd⟩
    · rw [List.getElem?_append_right (by omega)] at hd
      have hz : i - t.dirs.length = 0 := by
        by_contra hne
        have : 1 ≤ i - t.dirs.length := by omega
        have hnone : ([({ name := name, parent := none } : MasterDir)])[i - t.dirs.length]? = none := by
          apply List.getElem?_eq_none
          simpa using this
        rw [hnone] at hd
        cases hd
      rw [hz] at hd
      simp only [List.getElem?_cons_zero, Option.some.injEq] at hd
      exact Or.inr ⟨by omega, hd.symm⟩
  have hlast : (t.dirs ++ [({ name := name, parent := none } : MasterDir)])[t.dirs.length]? =
      some { name := name, parent := none } := by
    rw [List.getElem?_append_right (Nat.le_refl _)]
    simp
  refine ⟨?_, ?_, ?_⟩
  · intro k x hx
    simp only at hx
    by_cases hk : k = hash name % DIR_BUCKETS
    · rw [if_pos hk] at hx
      rcases List.mem_append.mp hx with hin | hin
      · obtain ⟨d, hd, hdk⟩ := h1 k x hin
        exact ⟨d, by simp only; rw [List.getElem?_append_left (getElem?_lt_of_some hd)]; exact hd, hdk⟩
      · have hx1 : x = t.dirs.length := by simpa using hin
        subst hx1
        exact ⟨_, hlast, hk.symm⟩
    · rw [if_neg hk] at hx
      obtain ⟨d, hd, hdk⟩ := h1 k x hx
      exact ⟨d, by simp only; rw [List.getElem?_append_left (getElem?_lt_of_some hd)]; exact hd, hdk⟩
  · intro i d hd
    simp only
    rcases hget i d hd with ⟨_, h0⟩ | ⟨hi, hd0⟩
    · have hmem := h2 i d h0
      by_cases hk : hash d.name % DIR_BUCKETS = hash name % DIR_BUCKETS
      · rw [if_pos hk]
        exact List.mem_append_left _ hmem
      · rw [if_neg hk]
        exact hmem
    · subst hd0
      subst hi
      simp
  · intro i j di dj hi hj hn
    rcases hget i di hi with ⟨_, hi0⟩ | ⟨hi1, hdi⟩
    · rcases hget j dj hj with ⟨_, hj0⟩ | ⟨hj1, hdj⟩
      · exact h3 i j di dj hi0 hj0 hn
      · subst hdj
        exact absurd hn (hnew i di hi0)
    · rcases hget j dj hj with ⟨_, hj0⟩ | ⟨hj1, hdj⟩
      · subst hdi
        exact absurd hn.symm (hnew j dj hj0)
      · rw [hi1, hj1]

theorem atom_dir_fuel_spec (hash : Atom → Nat) : ∀ (fuel : Nat) (t : DirTable)
    (name : Atom), name.length < fuel → name.length ≤ PATH_MAX →
    TableOk hash t →
    (∀ (i : Nat) (d : MasterDir), t.dirs[i]? = some d →
      d.name.length ≤ name.length → GoodDir t.dirs i) →
    ∃ t1 r ext, atom_dir_fuel hash fuel t name = some (t1, r) ∧
      TableOk hash t1 ∧ t1.dirs = t.dirs ++ ext ∧
      (∃ d, t1.dirs[r]? = some d ∧ d.name = name) ∧
      (∀ (i : Nat), GoodDir t.dirs i → i < t.dirs.length → GoodDir t1.dirs i) ∧
      (∀ (i : Nat), t.dirs.length ≤ i → GoodDir t1.dirs i) ∧
      GoodDir t1.dirs r ∧
      (∀ (i : Nat) (d : MasterDir), t.dirs[i]? = some d → d.name = name →
        t1 = t ∧ r = i) := by
  intro fuel
  induction fuel with
  | zero => intro t name h; omega
  | succ fuel ih =>
    intro t name hfuel hlen hok hgood
    unfold atom_dir_fuel
    rcases find_dir_spec t.dirs name (t.buckets (hash name % DIR_BUCKETS))
        (fun b hb => by
          obtain ⟨d, hd, _⟩ := hok.1 _ b hb
          exact ⟨d, hd⟩) with ⟨b, hfind, _, d, hd, hdn⟩ | ⟨hfind, hnone⟩
    · rw [hfind]
      refine ⟨t, b, [], rfl, hok, by simp, ⟨d, hd, hdn⟩, fun i hg _ => hg,
        ?_, ?_, ?_⟩
      · intro i hi dd hdd
        have := getElem?_lt_of_some hdd
        omega
      · exact hgood b d hd (by rw [hdn])
      · intro i di hdi hdin
        exact ⟨rfl, hok.2.2 b i d di hd hdi (by rw [hdn, hdin])⟩
    · rw [hfind]
      simp only
      have hnew : ∀ (i : Nat) (d : MasterDir), t.dirs[i]? = some d →
          d.name ≠ name := by
        intro i d hd hdn
        have hmem := hok.2.1 i d hd
        rw [hdn] at hmem
        exact hnone i hmem d hd hdn
      have hok1 := table_ok_push hash t name hok hnew
      have hlast : (t.dirs ++ [({ name := name, parent := none } : MasterDir)])[t.dirs.length]? =
          some { name := name, parent := none } := by
        rw [List.getElem?_append_right (Nat.le_refl _)]
        simp
      by_cases hpos : name.length > 0
      · rw [if_pos hpos]
        obtain ⟨dn, hdn, hdle, hdlt, _⟩ := dir_name_spec name hlen
        have hdlt1 := hdlt hpos
        rw [hdn]
        simp only
        obtain ⟨t2, p, ext2, hrun, hok2, hdirs2, ⟨pd, hpd, hpdn⟩, hold2, hnew2,
            hgp, _⟩ := ih _ dn (by omega) (by omega) hok1 (by
          intro i d hd hdl
          by_cases hi : i < t.dirs.length
          · have hd0 : t.dirs[i]? = some d := by
              rw [← List.getElem?_append_left hi]; exact hd
            exact good_dir_append _ _ i (hgood i d hd0 (by omega)) hi
          · have hil : i = t.dirs.length := by
              have := getElem?_lt_of_some hd
              simp only [List.length_append, List.length_singleton] at this
              omega
            subst hil
            rw [hlast] at hd
            cases hd
            simp only at hdl
            omega)
        rw [hrun]
        simp only at hdirs2 ⊢
        have hb2 : t2.dirs[t.dirs.length]? =
            some { name := name, parent := none } := by
          rw [hdirs2, List.append_assoc,
            List.getElem?_append_right (Nat.le_refl _)]
          simp
        rw [hb2]
        simp only
        have hset : t2.dirs.set t.dirs.length { name := name, parent := some p } =
            t.dirs ++ ({ name := name, parent := some p } :: ext2) := by
          rw [hdirs2, List.append_assoc,
            List.set_append_right _ _ (Nat.le_refl _)]
          simp
        have hpb : p ≠ t.dirs.length := by
          intro hpe
          rw [hpe, hb2] at hpd
          cases hpd
          simp only at hpdn
          rw [← hpdn] at hdlt1
          omega
        have hgoodb : GoodDir (t2.dirs.set t.dirs.length
            { name := name, parent := some p }) t.dirs.length := by
          intro d hd
          rw [List.getElem?_set_self (getElem?_lt_of_some hb2)] at hd
          cases hd
          refine ⟨?_, ?_⟩
          · intro he
            simp only at he
            rw [he] at hpos
            cases hpos
          · intro _
            refine ⟨p, pd, rfl, ?_, ?_⟩
            · rw [List.getElem?_set_ne (fun h => hpb h.symm)]
              exact hpd
            · simp only
              rw [hdn, hpdn]
        have hgoodo : ∀ (i : Nat), i ≠ t.dirs.length → GoodDir t2.dirs i →
            GoodDir (t2.dirs.set t.dirs.length
              { name := name, parent := some p }) i := by
          intro i hi hg
          exact good_dir_set t2.dirs i t.dirs.length _ _ hg hi hb2 rfl
        refine ⟨_, t.dirs.length, { name := name, parent := some p } :: ext2,
          rfl, table_ok_set hash t2 t.dirs.length _ _ hok2 hb2 rfl, hset,
          ⟨_, List.getElem?_set_self (getElem?_lt_of_some hb2), rfl⟩, ?_, ?_,
          hgoodb, ?_⟩
        · intro i hg hi
          apply hgoodo i (by omega)
          apply hold2 i (good_dir_append _ _ i hg hi)
          simp only [List.length_append, List.length_singleton]
          omega
        · intro i hi
          by_cases hil : i = t.dirs.length
          · subst hil
            exact hgoodb
          · apply hgoodo i hil
            apply hnew2 i
            simp only [List.length_append, List.length_singleton]
            omega
        · intro i d hd hdn1
          exact absurd hdn1 (hnew i d hd)
      · rw [if_neg hpos]
        have hempty : name = "" := (atom_length_zero name).mp (by omega)
        have hgoodb : GoodDir (t.dirs ++ [({ name := name, parent := none } : MasterDir)])
            t.dirs.length := by
          intro d hd
          rw [hlast] at hd
          cases hd
          exact ⟨fun _ => rfl, fun hne => absurd hempty hne⟩
        refine ⟨_, t.dirs.length, [{ name := name, parent := none }], rfl,
          hok1, rfl, ⟨_, hlast, rfl⟩, ?_, ?_, hgoodb, ?_⟩
        · intro i hg hi
          exact good_dir_append _ _ i hg hi
        · intro i hi dd hdd
          have hil : i = t.dirs.length := by
            have := getElem?_lt_of_some hdd
            simp only [List.length_append, List.length_singleton] at this
            omega
          subst hil
          exact hgoodb dd hdd
        · intro i d hd hdn1
          exact absurd hdn1 (hnew i d hd)

theorem dir_name_shorter (name d : Atom) (h : dir_name name = some d)
    (hpos : 0 < name.length) : d.length < name.length := by
  unfold dir_name at h
  cases hs : last_slash name.data with
  | none =>
    rw [hs] at h
    simp only [Option.some.injEq] at h
    subst h
    exact hpos
  | some i =>
    rw [hs] at h
    simp only at h
    obtain ⟨h1, _, _⟩ := last_slash_spec name.data i hs
    by_cases hi : i < PATH_MAX
    · rw [if_pos hi] at h
      simp only [Option.some.injEq] at h
      subst h
      have hl : name.data.length = name.length := rfl
      simp only [String.length, List.length_take]
      omega
    · rw [if_neg hi] at h
      cases h

theorem atom_dir_present (hash : Atom → Nat) (t : DirTable)
    (hok : TableOk hash t) (i : Nat) (d : MasterDir)
    (hd : t.dirs[i]? = some d) : atom_dir hash t d.name = some (t, i) := by
  unfold atom_dir atom_dir_fuel
  rcases find_dir_spec t.dirs d.name (t.buckets (hash d.name % DIR_BUCKETS))
      (fun b hb => by
        obtain ⟨d1, hd1, _⟩ := hok.1 _ b hb
        exact ⟨d1, hd1⟩) with ⟨b, hfind, _, d1, hd1, hdn⟩ | ⟨_, hnone⟩
  · rw [hfind]
    simp only
    rw [hok.2.2 b i d1 d hd1 hd hdn]
  · exact absurd rfl (hnone i (hok.2.1 i d hd) d hd)

theorem atom_dir_spec (hash : Atom → Nat) (t : DirTable) (name : Atom)
    (hlen : name.length ≤ PATH_MAX) (hok : TableOk hash t)
    (hgood : AllGood t) :
    ∃ t1 r ext, atom_dir hash t name = some (t1, r) ∧ TableOk hash t1 ∧
      AllGood t1 ∧ t1.dirs = t.dirs ++ ext ∧
      (∃ d, t1.dirs[r]? = some d ∧ d.name = name) := by
  obtain ⟨t1, r, ext, hrun, hok1, hdirs, hname, hold, hnew, _, _⟩ :=
    atom_dir_fuel_spec hash (name.length + 1) t name (by omega) hlen hok
      (fun i _ _ _ => hgood i)
  refine ⟨t1, r, ext, hrun, hok1, ?_, hdirs, hname⟩
  intro i
  by_cases hi : i < t.dirs.length
  · exact hold i (hgood i) hi
  · exact hnew i (by omega)

theorem atom_dir_calls_spec (hash : Atom → Nat) : ∀ (names : List Atom)
    (t : DirTable), (∀ n ∈ names, n.length ≤ PATH_MAX) → TableOk hash t →
    AllGood t →
    ∃ t1 rs ext, atom_dir_calls hash names t = some (t1, rs) ∧
      TableOk hash t1 ∧ AllGood t1 ∧ t1.dirs = t.dirs ++ ext ∧
      ∀ (a : Nat) (n : Atom), names[a]? = some n →
        ∃ r d, rs[a]? = some r ∧ t1.dirs[r]? = some d ∧ d.name = n := by
  intro names
  induction names with
  | nil =>
    intro t _ hok hgood
    refine ⟨t, [], [], rfl, hok, hgood, by simp, ?_⟩
    intro a n h
    simp at h
  | cons x rest ih =>
    intro t hlen hok hgood
    obtain ⟨t1, r, ext1, hrun1, hok1, hgood1, hdirs1, d, hd, hdn⟩ :=
      atom_dir_spec hash t x (hlen x (List.mem_cons_self _ _)) hok hgood
    obtain ⟨t2, rs, ext2, hrun2, hok2, hgood2, hdirs2, hrs⟩ :=
      ih t1 (fun n hn => hlen n (List.mem_cons_of_mem _ hn)) hok1 hgood1
    refine ⟨t2, r :: rs, ext1 ++ ext2, ?_, hok2, hgood2, ?_, ?_⟩
    · unfold atom_dir_calls
      rw [hrun1]
      simp only
      rw [hrun2]
    · rw [hdirs2, hdirs1, List.append_assoc]
    · intro a n ha
      cases a with
      | zero =>
        simp only [List.getElem?_cons_zero, Option.some.injEq] at ha
        subst ha
        refine ⟨r, d, by simp, ?_, hdn⟩
        rw [hdirs2, List.getElem?_append_left (getElem?_lt_of_some hd)]
        exact hd
      | succ a =>
        simp only [List.getElem?_cons_succ] at ha
        obtain ⟨r1, d1, h1, h2, h3⟩ := hrs a n ha
        exact ⟨r1, d1, by simpa using h1, h2, h3⟩

theorem table_ok_empty (hash : Atom → Nat) : TableOk hash empty_table := by
  refine ⟨?_, ?_, ?_⟩
  · intro k b hb
    simp [empty_table] at hb
  · intro i d hd
    simp [empty_table] at hd
  · intro i j di dj hi
    simp [empty_table] at hi

theorem all_good_empty : AllGood empty_table := by
  intro i d hd
  simp [empty_table] at hd

theorem dir_reach_root (dirs : List MasterDir)
    (hgood : ∀ (i : Nat), GoodDir dirs i) : ∀ (n i : Nat) (d : MasterDir),
    dirs[i]? = some d → d.name.length ≤ n →
    ∃ root rd, DirReach dirs i root ∧ dirs[root]? = some rd ∧ rd.name = "" ∧
      rd.parent = none := by
  intro n
  induction n with
  | zero =>
    intro i d hd hl
    have he : d.name = "" := (atom_length_zero _).mp (by omega)
    exact ⟨i, d, DirReach.refl i, hd, he, (hgood i d hd).1 he⟩
  | succ n ih =>
    intro i d hd hl
    by_cases he : d.name = ""
    · exact ⟨i, d, DirReach.refl i, hd, he, (hgood i d hd).1 he⟩
    · obtain ⟨p, dp, hp, hdp, hnm⟩ := (hgood i d hd).2 he
      have hpos : 0 < d.name.length := by
        rcases Nat.eq_zero_or_pos d.name.length with h0 | h0
        · exact absurd ((atom_length_zero _).mp h0) he
        · exact h0
      have hlt := dir_name_shorter d.name dp.name hnm hpos
      obtain ⟨root, rd, hreach, hrd, h1, h2⟩ := ih p dp hdp (by omega)
      exact ⟨root, rd, DirReach.step i p root d hd hp hreach, hrd, h1, h2⟩

/-- Claim C14: after any sequence of calls on the empty table, the record that
`atom_dir` returns for the name `d` (names no longer than `PATH_MAX`) has the
name `d`; it has no parent exactly when `d` is empty; otherwise its parent is
the record named by the part of `d` before its last `/`, or by the empty
name when `d` has no `/`; and from every record of the table the parent links
lead to a record with the empty name and no parent. -/
theorem atom_dir_parent_link (hash : Atom → Nat) (names : List Atom)
    (d : Atom) (hlen : ∀ n ∈ names, n.length ≤ PATH_MAX)
    (hd : d.length ≤ PATH_MAX) :
    ∃ t rs t1 r dr, atom_dir_calls hash names empty_table = some (t, rs) ∧
      atom_dir hash t d = some (t1, r) ∧ t1.dirs[r]? = some dr ∧
      dr.name = d ∧ (dr.parent = none ↔ d = "") ∧
      (d ≠ "" → ∃ p dp, dr.parent = some p ∧ t1.dirs[p]? = some dp ∧
        (('/' ∉ d.data ∧ dp.name = "") ∨
          ∃ rest, d.data = dp.name.data ++ '/' :: rest ∧ '/' ∉ rest)) ∧
      (∀ (i : Nat) (di : MasterDir), t1.dirs[i]? = some di →
        ∃ root rd, DirReach t1.dirs i root ∧ t1.dirs[root]? = some rd ∧
          rd.name = "" ∧ rd.parent = none) := by
  obtain ⟨t, rs, _, hrun, hok, hgood, _, _⟩ := atom_dir_calls_spec hash names
    empty_table hlen (table_ok_empty hash) all_good_empty
  obtain ⟨t1, r, _, hrun1, _, hgood1, _, dr, hdr, hdrn⟩ :=
    atom_dir_spec hash t d hd hok hgood
  obtain ⟨hg1, hg2⟩ := hgood1 r dr hdr
  rw [hdrn] at hg1 hg2
  refine ⟨t, rs, t1, r, dr, hrun, hrun1, hdr, hdrn, ⟨?_, hg1⟩, ?_, ?_⟩
  · intro hnone
    by_contra hne
    obtain ⟨p, _, hp, _, _⟩ := hg2 hne
    rw [hnone] at hp
    cases hp
  · intro hne
    obtain ⟨p, dp, hp, hdp, hnm⟩ := hg2 hne
    obtain ⟨dn, hdn, _, _, hchar⟩ := dir_name_spec d hd
    rw [hdn] at hnm
    simp only [Option.some.injEq] at hnm
    subst hnm
    exact ⟨p, dp, hp, hdp, hchar⟩
  · intro i di hdi
    exact dir_reach_root t1.dirs hgood1 di.name.length i di hdi (Nat.le_refl _)

/-- Witness of C14 on the call `x/y` after the calls `a/b` and `a`, hashing a
name to its length. -/
theorem atom_dir_parent_link_witness :
    ∃ t rs t1 r dr,
      atom_dir_calls (fun s => s.length) ["a/b", "a"] empty_table
        = some (t, rs) ∧
      atom_dir (fun s => s.length) t "x/y" = some (t1, r) ∧
      t1.dirs[r]? = some dr ∧
      dr.name = "x/y" ∧ (dr.parent = none ↔ "x/y" = "") ∧
      ("x/y" ≠ "" → ∃ p dp, dr.parent = some p ∧ t1.dirs[p]? = some dp ∧
        (('/' ∉ "x/y".data ∧ dp.name = "") ∨
          ∃ rest, "x/y".data = dp.name.data ++ '/' :: rest ∧ '/' ∉ rest)) ∧
      (∀ (i : Nat) (di : MasterDir), t1.dirs[i]? = some di →
        ∃ root rd, DirReach t1.dirs i root ∧ t1.dirs[root]? = some rd ∧
          rd.name = "" ∧ rd.parent = none) :=
  atom_dir_parent_link (fun s => s.length) ["a/b", "a"] "x/y" (by decide)
    (by decide)

/-! ## The head sorter -/

theorem number_compare_total : ∀ (a b : CvsNumber),
    cvs_number_compare a b ≤ 0 ∨ cvs_number_compare b a ≤ 0 := by
  intro a
  induction a with
  | nil =>
    intro b
    cases b with
    | nil => left; simp [cvs_number_compare]
    | cons y ys => left; simp [cvs_number_compare]
  | cons x xs ih =>
    intro b
    cases b with
    | nil => right; simp [cvs_number_compare]
    | cons y ys =>
      simp only [cvs_number_compare]
      by_cases h1 : x < y
      · left
        simp [h1]
      · by_cases h2 : y < x
        · right
          simp [h2]
        · have hxy : x = y := by omega
          subst hxy
          simp only [lt_self_iff_false, if_false]
          exact ih ys

theorem number_compare_trans : ∀ (a b c : CvsNumber),
    cvs_number_compare a b ≤ 0 → cvs_number_compare b c ≤ 0 →
    cvs_number_compare a c ≤ 0 := by
  intro a
  induction a with
  | nil =>
    intro b c _ _
    cases c with
    | nil => simp [cvs_number_compare]
    | cons z zs => simp [cvs_number_compare]
  | cons x xs ih =>
    intro b c hab hbc
    cases b with
    | nil => simp [cvs_number_compare] at hab
    | cons y ys =>
      cases c with
      | nil => simp [cvs_number_compare] at hbc
      | cons z zs =>
        simp only [cvs_number_compare] at hab hbc ⊢
        by_cases hxy : x < y
        · by_cases hyz : y < z
          · have : x < z := by omega
            simp [this]
          · by_cases hzy : z < y
            · simp [hyz, hzy] at hbc
            · have : y = z := by omega
              subst this
              simp [hxy]
        · by_cases hyx : y < x
          · simp [hxy, hyx] at hab
          · have : x = y := by omega
            subst this
            simp only [lt_self_iff_false, if_false] at hab
            by_cases hxz : x < z
            · simp [hxz]
            · by_cases hzx : z < x
              · simp [hxz, hzx] at hbc
              · have : x = z := by omega
                subst this
                simp only [lt_self_iff_false, if_false] at hbc ⊢
                exact ih ys zs hab hbc

theorem head_le_total (cvs : CvsFile) (refs : List RevRef) (a b : Nat) :
    head_le cvs refs a b ∨ head_le cvs refs b a := by
  unfold head_le rev_ref_compare rev_ref_compare_names
  cases cvs_find_symbol cvs ((refs[a]?).bind RevRef.ref_name) with
  | none =>
    cases cvs_find_symbol cvs ((refs[b]?).bind RevRef.ref_name) with
    | none => left; simp
    | some s2 => left; simp
  | some s1 =>
    cases cvs_find_symbol cvs ((refs[b]?).bind RevRef.ref_name) with
    | none => right; simp
    | some s2 => exact number_compare_total _ _

theorem head_le_trans (cvs : CvsFile) (refs : List RevRef) (a b c : Nat)
    (hab : head_le cvs refs a b) (hbc : head_le cvs refs b c) :
    head_le cvs refs a c := by
  unfold head_le rev_ref_compare rev_ref_compare_names at hab hbc ⊢
  cases h1 : cvs_find_symbol cvs ((refs[a]?).bind RevRef.ref_name) with
  | none =>
    cases h3 : cvs_find_symbol cvs ((refs[c]?).bind RevRef.ref_name) with
    | none => simp
    | some s3 => simp
  | some s1 =>
    rw [h1] at hab
    cases h2 : cvs_find_symbol cvs ((refs[b]?).bind RevRef.ref_name) with
    | none =>
      rw [h2] at hab
      simp at hab
    | some s2 =>
      rw [h2] at hab hbc
      cases h3 : cvs_find_symbol cvs ((refs[c]?).bind RevRef.ref_name) with
      | none =>
        rw [h3] at hbc
        simp at hbc
      | some s3 =>
        rw [h3] at hbc
        exact number_compare_trans _ _ _ hab hbc

theorem head_sorted_sort (cvs : CvsFile) (refs : List RevRef) (l : List Nat) :
    List.Sorted (head_le cvs refs) (reference_sort cvs refs l) := by
  haveI : IsTotal Nat (head_le cvs refs) := ⟨head_le_total cvs refs⟩
  haveI : IsTrans Nat (head_le cvs refs) := ⟨head_le_trans cvs refs⟩
  exact List.sorted_insertionSort (head_le cvs refs) l

theorem insert_sorted_cons (cvs : CvsFile) (refs : List RevRef) (p : Nat)
    (ps : List Nat) (h : List.Sorted (head_le cvs refs) (p :: ps)) :
    List.orderedInsert (head_le cvs refs) p ps = p :: ps := by
  cases ps with
  | nil => rfl
  | cons x xs =>
    have hpx : head_le cvs refs p x :=
      List.rel_of_sorted_cons h x (List.mem_cons_self _ _)
    exact List.orderedInsert_of_le _ _ hpx

theorem insert_comm (cvs : CvsFile) (refs : List RevRef) (x y : Nat)
    (hxy : ¬ head_le cvs refs x y) : ∀ (T : List Nat),
    List.orderedInsert (head_le cvs refs) y
        (List.orderedInsert (head_le cvs refs) x T) =
      List.orderedInsert (head_le cvs refs) x
        (List.orderedInsert (head_le cvs refs) y T) := by
  have hyx : head_le cvs refs y x := by
    rcases head_le_total cvs refs x y with h | h
    · exact absurd h hxy
    · exact h
  intro T
  induction T with
  | nil => simp [List.orderedInsert, hxy, hyx]
  | cons t ts ih =>
    by_cases hyt : head_le cvs refs y t
    · by_cases hxt : head_le cvs refs x t
      · simp [List.orderedInsert, hxy, hyx, hyt, hxt]
      · simp [List.orderedInsert, hxy, hyt, hxt]
    · have hxt : ¬ head_le cvs refs x t := by
        intro hxt
        rcases head_le_total cvs refs y t with h | h
        · exact hyt h
        · exact hxy (head_le_trans cvs refs x t y hxt h)
      simp only [List.orderedInsert, hyt, hxt, if_false]
      rw [ih]

theorem foldr_insert (cvs : CvsFile) (refs : List RevRef) (S : List Nat)
    (x : Nat) : ∀ (L : List Nat),
    (List.orderedInsert (head_le cvs refs) x L).foldr
        (List.orderedInsert (head_le cvs refs)) S =
      List.orderedInsert (head_le cvs refs) x
        (L.foldr (List.orderedInsert (head_le cvs refs)) S) := by
  intro L
  induction L with
  | nil => rfl
  | cons y ys ih =>
    by_cases hxy : head_le cvs refs x y
    · simp only [List.orderedInsert, hxy, if_true, List.foldr_cons]
    · simp only [List.orderedInsert, hxy, if_false, List.foldr_cons]
      rw [ih, insert_comm cvs refs x y hxy]

theorem foldr_reference_sort (cvs : CvsFile) (refs : List RevRef)
    (S : List Nat) : ∀ (l : List Nat),
    (reference_sort cvs refs l).foldr
        (List.orderedInsert (head_le cvs refs)) S =
      l.foldr (List.orderedInsert (head_le cvs refs)) S := by
  intro l
  induction l with
  | nil => rfl
  | cons x xs ih =>
    show (List.orderedInsert (head_le cvs refs) x
      (reference_sort cvs refs xs)).foldr _ S = _
    rw [foldr_insert, ih]
    rfl

theorem reference_sort_append (cvs : CvsFile) (refs : List RevRef)
    (l2 : List Nat) : ∀ (l1 : List Nat),
    reference_sort cvs refs (l1 ++ l2) =
      l1.foldr (List.orderedInsert (head_le cvs refs))
        (reference_sort cvs refs l2) := by
  intro l1
  induction l1 with
  | nil => rfl
  | cons x xs ih =>
    show List.orderedInsert (head_le cvs refs) x
      (reference_sort cvs refs (xs ++ l2)) = _
    rw [ih]
    rfl

theorem foldr_insert_above (cvs : CvsFile) (refs : List RevRef) (q : Nat)
    (qs : List Nat) : ∀ (ps : List Nat),
    (∀ x ∈ ps, ¬ head_le cvs refs x q) →
    ps.foldr (List.orderedInsert (head_le cvs refs)) (q :: qs) =
      q :: ps.foldr (List.orderedInsert (head_le cvs refs)) qs := by
  intro ps
  induction ps with
  | nil => intro _; rfl
  | cons x xs ih =>
    intro h
    simp only [List.foldr_cons]
    rw [ih (fun y hy => h y (List.mem_cons_of_mem _ hy))]
    simp only [List.orderedInsert, h x (List.mem_cons_self _ _), if_false]

theorem foldr_insert_head (cvs : CvsFile) (refs : List RevRef) (p q : Nat)
    (qs : List Nat) (hpq : head_le cvs refs p q) : ∀ (ps : List Nat),
    (∀ x ∈ ps, head_le cvs refs p x) →
    ∃ h tl, ps.foldr (List.orderedInsert (head_le cvs refs)) (q :: qs) =
      h :: tl ∧ head_le cvs refs p h := by
  intro ps
  induction ps with
  | nil => intro _; exact ⟨q, qs, rfl, hpq⟩
  | cons x xs ih =>
    intro h
    obtain ⟨h1, tl, he, hr⟩ := ih (fun y hy => h y (List.mem_cons_of_mem _ hy))
    simp only [List.foldr_cons]
    rw [he]
    by_cases hx : head_le cvs refs x h1
    · exact ⟨x, h1 :: tl, by simp [List.orderedInsert, hx],
        h x (List.mem_cons_self _ _)⟩
    · exact ⟨h1, List.orderedInsert (head_le cvs refs) x tl,
        by simp [List.orderedInsert, hx], hr⟩

theorem merge_runs_foldr (cvs : CvsFile) (refs : List RevRef) :
    ∀ (fuel : Nat) (P Q : List Nat), P.length + Q.length ≤ fuel →
    List.Sorted (head_le cvs refs) P →
    merge_runs cvs refs fuel P Q =
      P.foldr (List.orderedInsert (head_le cvs refs)) Q := by
  intro fuel
  induction fuel with
  | zero =>
    intro P Q hlen _
    have hP : P = [] := List.length_eq_zero.mp (by omega)
    have hQ : Q = [] := List.length_eq_zero.mp (by omega)
    subst hP; subst hQ
    rfl
  | succ fuel ih =>
    intro P Q hlen hs
    cases P with
    | nil =>
      cases Q with
      | nil => rfl
      | cons q qs =>
        simp only [merge_runs, List.foldr_nil]
        rw [ih [] qs (by simp only [List.length_cons, List.length_nil] at hlen ⊢; omega)
          List.sorted_nil]
        rfl
    | cons p ps =>
      have hps : List.Sorted (head_le cvs refs) ps := hs.of_cons
      cases Q with
      | nil =>
        simp only [merge_runs, List.foldr_cons]
        rw [ih ps [] (by simp only [List.length_cons, List.length_nil] at hlen ⊢; omega)
          hps]
        have hself : ps.foldr (List.orderedInsert (head_le cvs refs)) [] = ps := by
          have h0 := reference_sort_append cvs refs [] ps
          rw [List.append_nil] at h0
          exact h0.symm.trans hps.insertionSort_eq
        rw [hself, insert_sorted_cons cvs refs p ps hs]
      | cons q qs =>
        simp only [merge_runs, List.foldr_cons]
        by_cases hpq : head_le cvs refs p q
        · have hng : ¬ (rev_ref_compare cvs refs p q > 0) := by
            unfold head_le at hpq; omega
          rw [if_neg hng]
          rw [ih ps (q :: qs) (by simp only [List.length_cons] at hlen ⊢; omega)
            hps]
          obtain ⟨h1, tl, he, hr⟩ := foldr_insert_head cvs refs p q qs hpq ps
            (fun x hx => List.rel_of_sorted_cons hs x hx)
          rw [he]
          simp [List.orderedInsert, hr]
        · have hg : rev_ref_compare cvs refs p q > 0 := by
            unfold head_le at hpq; omega
          rw [if_pos hg]
          rw [ih (p :: ps) qs (by simp only [List.length_cons] at hlen ⊢; omega)
            hs]
          have habove : ∀ x ∈ ps, ¬ head_le cvs refs x q := by
            intro x hx hxq
            exact hpq (head_le_trans cvs refs p x q
              (List.rel_of_sorted_cons hs x hx) hxq)
          simp only [List.foldr_cons]
          rw [foldr_insert_above cvs refs q qs ps habove]
          simp only [List.orderedInsert, hpq, if_false]

theorem merge_runs_sorted (cvs : CvsFile) (refs : List RevRef) (fuel : Nat)
    (l1 l2 : List Nat) (hlen : l1.length + l2.length ≤ fuel) :
    merge_runs cvs refs fuel (reference_sort cvs refs l1)
        (reference_sort cvs refs l2) =
      reference_sort cvs refs (l1 ++ l2) := by
  rw [merge_runs_foldr cvs refs fuel _ _ (by
      unfold reference_sort
      rw [List.length_insertionSort, List.length_insertionSort]
      exact hlen) (head_sorted_sort cvs refs l1),
    foldr_reference_sort, reference_sort_append]

theorem merge_runs_append (cvs : CvsFile) (refs : List RevRef) (fuel : Nat) :
    ∀ (P Q : List Nat), P.length + Q.length ≤ fuel →
    List.Sorted (head_le cvs refs) (P ++ Q) →
    merge_runs cvs refs fuel P Q = P ++ Q := by
  intro P Q hlen hs
  have hP : List.Sorted (head_le cvs refs) P := by
    unfold List.Sorted at hs ⊢
    exact (List.pairwise_append.mp hs).1
  rw [merge_runs_foldr cvs refs fuel P Q hlen hP]
  clear hlen hP
  induction P with
  | nil => rfl
  | cons p ps ih =>
    simp only [List.foldr_cons, List.cons_append]
    rw [ih hs.of_cons]
    exact insert_sorted_cons cvs refs p (ps ++ Q) hs

theorem reference_sort_length (cvs : CvsFile) (refs : List RevRef)
    (l : List Nat) : (reference_sort cvs refs l).length = l.length :=
  List.length_insertionSort _ l

theorem runs_length (cvs : CvsFile) (refs : List RevRef) (k : Nat)
    (input cur : List Nat) (h : Runs cvs refs k input cur) :
    cur.length = input.length := by
  induction h with
  | nil => rfl
  | last _ _ _ => exact reference_sort_length cvs refs _
  | cons l rest cur _ _ _ ih =>
    rw [List.length_append, List.length_append, ih,
      reference_sort_length]

theorem runs_one (cvs : CvsFile) (refs : List RevRef) : ∀ (input : List Nat),
    Runs cvs refs 1 input input := by
  intro input
  induction input with
  | nil => exact Runs.nil
  | cons x xs ih =>
    cases xs with
    | nil => exact Runs.last [x] (by simp) (by simp)
    | cons y ys =>
      exact Runs.cons [x] (y :: ys) (y :: ys) rfl (by simp) ih

theorem runs_final (cvs : CvsFile) (refs : List RevRef) (k : Nat)
    (input cur : List Nat) (h : Runs cvs refs k input cur)
    (hlen : input.length ≤ k) : cur = reference_sort cvs refs input := by
  cases h with
  | nil => rfl
  | last _ _ _ => rfl
  | cons l rest cur1 hl hne _ =>
    have : 0 < rest.length := List.length_pos.mpr hne
    rw [List.length_append] at hlen
    omega

theorem merge_pass_nil (cvs : CvsFile) (refs : List RevRef) (k fuel : Nat) :
    merge_pass cvs refs k fuel [] = ([], 0) := by
  cases fuel <;> rfl

theorem merge_pass_step (cvs : CvsFile) (refs : List RevRef) (k fuel : Nat)
    (cur : List Nat) (hne : cur ≠ []) :
    merge_pass cvs refs k (fuel + 1) cur =
      (merge_runs cvs refs
          (min k (cur.length - 1) +
            ((cur.drop (min k (cur.length - 1))).take k).length)
          (cur.take (min k (cur.length - 1)))
          ((cur.drop (min k (cur.length - 1))).take k) ++
        (merge_pass cvs refs k fuel
          ((cur.drop (min k (cur.length - 1))).drop k)).1,
       (merge_pass cvs refs k fuel
          ((cur.drop (min k (cur.length - 1))).drop k)).2 + 1) := by
  cases cur with
  | nil => exact absurd rfl hne
  | cons x xs =>
    simp only [merge_pass, List.length_cons, Nat.add_sub_cancel]

theorem merge_pass_runs (cvs : CvsFile) (refs : List RevRef) (k : Nat)
    (hk : 1 ≤ k) : ∀ (fuel : Nat) (input cur : List Nat),
    Runs cvs refs k input cur → cur.length ≤ fuel →
    ∃ out pm, merge_pass cvs refs k fuel cur = (out, pm) ∧
      Runs cvs refs (2 * k) input out ∧ (input ≠ [] → 1 ≤ pm) ∧
      (pm ≤ 1 ↔ input.length ≤ 2 * k) := by
  intro fuel
  induction fuel with
  | zero =>
    intro input cur hr hlen
    have hc : cur = [] := List.length_eq_zero.mp (by omega)
    have hi : input = [] := by
      have := runs_length cvs refs k input cur hr
      rw [hc] at this
      exact List.length_eq_zero.mp this.symm
    subst hc; subst hi
    exact ⟨[], 0, rfl, Runs.nil, fun h => absurd rfl h, by simp⟩
  | succ fuel ih =>
    intro input cur hr hlen
    cases hr with
    | nil =>
      exact ⟨[], 0, rfl, Runs.nil, fun h => absurd rfl h, by simp⟩
    | last _ hne hl =>
      have hRl := reference_sort_length cvs refs input
      have hpos : 0 < input.length := List.length_pos.mpr hne
      have hRne : reference_sort cvs refs input ≠ [] := by
        intro h0
        rw [h0] at hRl
        simp at hRl
        omega
      rw [merge_pass_step cvs refs k fuel _ hRne]
      have hps : min k ((reference_sort cvs refs input).length - 1) =
          (reference_sort cvs refs input).length - 1 := by
        rw [hRl]; omega
      rw [hps]
      have hdl : ((reference_sort cvs refs input).drop
          ((reference_sort cvs refs input).length - 1)).length = 1 := by
        rw [List.length_drop, hRl]; omega
      have htk : ((reference_sort cvs refs input).drop
            ((reference_sort cvs refs input).length - 1)).take k =
          (reference_sort cvs refs input).drop
            ((reference_sort cvs refs input).length - 1) :=
        List.take_of_length_le (by omega)
      have hdk : ((reference_sort cvs refs input).drop
            ((reference_sort cvs refs input).length - 1)).drop k = [] :=
        List.drop_of_length_le (by omega)
      rw [htk, hdk, merge_pass_nil]
      rw [merge_runs_append cvs refs _ _ _ (by
          rw [List.length_take, hdl, hRl]; omega) (by
          rw [List.take_append_drop]
          exact head_sorted_sort cvs refs input)]
      rw [List.take_append_drop, List.append_nil]
      exact ⟨_, _, rfl, Runs.last input hne (by omega), fun _ => Nat.le_refl _,
        by constructor <;> intro _ <;> omega⟩
    | cons l rest cur1 hl hne hr1 =>
      have hR1 := reference_sort_length cvs refs l
      have hc1 := runs_length cvs refs k rest cur1 hr1
      have hrpos : 0 < rest.length := List.length_pos.mpr hne
      have hcne : reference_sort cvs refs l ++ cur1 ≠ [] := by
        intro h0
        have h1 := congrArg List.length h0
        rw [List.length_append, hR1] at h1
        simp only [List.length_nil] at h1
        omega
      rw [merge_pass_step cvs refs k fuel _ hcne]
      have hps : min k ((reference_sort cvs refs l ++ cur1).length - 1) = k := by
        rw [List.length_append, hR1, hc1]; omega
      rw [hps]
      have htake : (reference_sort cvs refs l ++ cur1).take k =
          reference_sort cvs refs l := by
        rw [List.take_append_of_le_length (by omega)]
        exact List.take_of_length_le (by omega)
      have hdrop : (reference_sort cvs refs l ++ cur1).drop k = cur1 := by
        rw [List.drop_append_of_le_length (by omega)]
        rw [List.drop_of_length_le (by omega)]
        rfl
      rw [htake, hdrop]
      cases hr1 with
      | nil => exact absurd rfl hne
      | last _ _ hl2 =>
        have hR2 := reference_sort_length cvs refs rest
        rw [List.take_of_length_le (by omega), List.drop_of_length_le (by omega),
          merge_pass_nil]
        rw [merge_runs_sorted cvs refs _ l rest (by omega)]
        simp only [List.append_nil]
        refine ⟨_, _, rfl, Runs.last (l ++ rest) (by simp [hne]) ?_,
          fun _ => Nat.le_refl _, ?_⟩
        · rw [List.length_append]; omega
        · rw [List.length_append]
          constructor <;> intro _ <;> omega
      | cons l2 rest2 cur2 hl2 hne2 hr2 =>
        have hR2 := reference_sort_length cvs refs l2
        have hc2 := runs_length cvs refs k rest2 cur2 hr2
        have htake2 : (reference_sort cvs refs l2 ++ cur2).take k =
            reference_sort cvs refs l2 := by
          rw [List.take_append_of_le_length (by omega)]
          exact List.take_of_length_le (by omega)
        have hdrop2 : (reference_sort cvs refs l2 ++ cur2).drop k = cur2 := by
          rw [List.drop_append_of_le_length (by omega)]
          rw [List.drop_of_length_le (by omega)]
          rfl
        rw [htake2, hdrop2]
        rw [merge_runs_sorted cvs refs _ l l2 (by omega)]
        obtain ⟨out2, pm2, hmp, hruns2, hpm2, _⟩ := ih rest2 cur2 hr2 (by
          rw [List.length_append, List.length_append, hR1, hR2] at hlen
          omega)
        rw [hmp]
        have hr2pos : 0 < rest2.length := List.length_pos.mpr hne2
        refine ⟨_, _, rfl, ?_, fun _ => by omega, ?_⟩
        · rw [← List.append_assoc]
          exact Runs.cons (l ++ l2) rest2 out2
            (by rw [List.length_append]; omega) hne2 hruns2
        · have := hpm2 hne2
          simp only [List.length_append]
          constructor <;> intro _ <;> omega

theorem sort_loop_runs (cvs : CvsFile) (refs : List RevRef)
    (input : List Nat) : ∀ (fuel k : Nat) (cur : List Nat), 1 ≤ k →
    Runs cvs refs k input cur → input.length + 1 ≤ 2 * k + fuel → 1 ≤ fuel →
    sort_loop cvs refs fuel k cur = some (reference_sort cvs refs input) := by
  intro fuel
  induction fuel with
  | zero => intro k cur _ _ _ h; omega
  | succ fuel ih =>
    intro k cur hk hr hlen _
    obtain ⟨out, pm, hmp, hruns, _, hiff⟩ := merge_pass_runs cvs refs k hk
      cur.length input cur hr (Nat.le_refl _)
    unfold sort_loop
    rw [hmp]
    simp only
    by_cases hpm : pm ≤ 1
    · rw [if_pos hpm]
      rw [runs_final cvs refs (2 * k) input out hruns (hiff.mp hpm)]
    · rw [if_neg hpm]
      have hbig : ¬ input.length ≤ 2 * k := fun h => hpm (hiff.mpr h)
      exact ih (2 * k) out (by omega) hruns (by omega) (by omega)

theorem sort_heads_reference (cvs : CvsFile) (cm : CvsMaster) :
    cvs_master_sort_heads cvs cm =
      some { cm with heads := reference_sort cvs cm.refs cm.heads } := by
  unfold cvs_master_sort_heads
  rw [sort_loop_runs cvs cm.refs cm.heads (cm.heads.length + 1) 1 cm.heads
    (Nat.le_refl _) (runs_one cvs cm.refs cm.heads) (by omega) (by omega)]

/-- Claim C16: `cvs_master_sort_heads` returns the head list that the reference
stable sort, the insertion sort under `rev_ref_compare`, makes of the input
list; so two heads of which the first may stand before the second (their
comparison is not positive, as when they compare equal) keep their input
order. -/
theorem sort_heads_stable (cvs : CvsFile) (cm : CvsMaster) :
    cvs_master_sort_heads cvs cm =
      some { cm with heads := reference_sort cvs cm.refs cm.heads } ∧
    ∀ (a b : Nat), rev_ref_compare cvs cm.refs a b ≤ 0 →
      List.Sublist [a, b] cm.heads →
      List.Sublist [a, b] (reference_sort cvs cm.refs cm.heads) := by
  refine ⟨sort_heads_reference cvs cm, ?_⟩
  intro a b hab hsub
  exact List.pair_sublist_insertionSort hab hsub

/-- Claim C17: for every head list the merge loop of `cvs_master_sort_heads`
ends with a result; the list it leaves is a permutation of the input list in
which `rev_ref_compare` of every adjacent pair is not positive. -/
theorem sort_heads_sorted_perm (cvs : CvsFile) (cm : CvsMaster) :
    ∃ l, cvs_master_sort_heads cvs cm = some { cm with heads := l } ∧
      List.Perm l cm.heads ∧
      List.Chain' (fun a b => rev_ref_compare cvs cm.refs a b ≤ 0) l := by
  refine ⟨reference_sort cvs cm.refs cm.heads, sort_heads_reference cvs cm,
    List.perm_insertionSort _ _, ?_⟩
  exact List.Pairwise.chain' (head_sorted_sort cvs cm.refs cm.heads)

/-! ## The chain of a branch and its dates -/

theorem build_commits_spec : ∀ (nodes : List Node) (commits : List CvsCommit)
    (head : Option Nat),
    (build_commits nodes commits head).1.length =
        commits.length + (versioned nodes).length ∧
    (build_commits nodes commits head).2 =
        (if versioned nodes = [] then head
         else some (commits.length + (versioned nodes).length - 1)) ∧
    (∀ (j : Nat) (v : CvsVersion) (pt : Option CvsPatch),
      (versioned nodes)[j]? = some (v, pt) →
      (build_commits nodes commits head).1[commits.length + j]? =
        some (new_commit v pt
          (if j = 0 then head else some (commits.length + j - 1)))) := by
  intro nodes
  induction nodes with
  | nil =>
    intro commits head
    refine ⟨by simp [build_commits, versioned], by simp [build_commits, versioned], ?_⟩
    intro j v pt h
    simp [versioned] at h
  | cons node rest ih =>
    intro commits head
    cases hv : node.version with
    | none =>
      have hvs : versioned (node :: rest) = versioned rest := by
        simp [versioned, List.filterMap_cons, hv]
      have hb : build_commits (node :: rest) commits head =
          build_commits rest commits head := by
        simp only [build_commits, hv]
      rw [hvs, hb]
      exact ih commits head
    | some v =>
      have hvs : versioned (node :: rest) = (v, node.patch) :: versioned rest := by
        simp [versioned, List.filterMap_cons, hv]
      have hb : build_commits (node :: rest) commits head =
          build_commits rest (commits ++ [new_commit v node.patch head])
            (some commits.length) := by
        simp only [build_commits, hv]
      rw [hvs, hb]
      obtain ⟨h1, h2, h3⟩ := ih (commits ++ [new_commit v node.patch head])
        (some commits.length)
      have hl : (commits ++ [new_commit v node.patch head]).length =
          commits.length + 1 := by simp
      refine ⟨?_, ?_, ?_⟩
      · rw [h1, hl, List.length_cons]; omega
      · rw [h2, hl]
        simp only [List.length_cons, if_false, reduceCtorEq]
        by_cases he : versioned rest = []
        · rw [if_pos he, he]
          simp
        · rw [if_neg he]
          congr 1
          omega
      · intro j v1 pt1 hj
        cases j with
        | zero =>
          simp only [List.getElem?_cons_zero, Option.some.injEq,
            Prod.mk.injEq] at hj
          obtain ⟨rfl, rfl⟩ := hj
          rw [Nat.add_zero, build_commits_prefix _ _ _ _ (by rw [hl]; omega),
            List.getElem?_append_right (Nat.le_refl _)]
          simp
        | succ j =>
          simp only [List.getElem?_cons_succ] at hj
          have := h3 j v1 pt1 hj
          rw [hl] at this
          have e1 : commits.length + (j + 1) = commits.length + 1 + j := by
            omega
          rw [e1, this]
          congr 2
          by_cases hj0 : j = 0
          · subst hj0; simp
          · simp only [hj0, if_false, Nat.add_eq_zero, one_ne_zero, and_false]

theorem consecutive_set_date (n0 : Nat) (cs : List CvsCommit) (x : Nat)
    (cx : CvsCommit) (d : Nat) (hc : Consecutive n0 cs)
    (hx : cs[x]? = some cx) :
    Consecutive n0 (cs.set x { cx with date := d }) := by
  intro i ci hi hci
  by_cases hxi : x = i
  · subst hxi
    rw [List.getElem?_set_self (getElem?_lt_of_some hx)] at hci
    cases hci
    exact hc x cx hi hx
  · rw [List.getElem?_set_ne hxi] at hci
    exact hc i ci hi hci

theorem repair_dates_raise (n0 : Nat) (cs0 : List CvsCommit) :
    ∀ (fuel : Nat) (cs : List CvsCommit) (c : Nat) (gc : Option Nat),
    Consecutive n0 cs → n0 ≤ c → c < cs.length → c < fuel →
    (gc = none ∨ (gc = some (c + 1) ∧ c + 1 < cs.length)) →
    (∀ (i : Nat), i < c → cs[i]? = cs0[i]?) →
    (∀ (cc c0 : CvsCommit), cs[c]? = some cc → cs0[c]? = some c0 →
      cc.date ≤ c0.date) →
    (∀ (gm g0 cc : CvsCommit), gc = some (c + 1) → cs[c + 1]? = some gm →
      cs0[c + 1]? = some g0 → cs[c]? = some cc → g0.date < gm.date →
      gm.date = cc.date) →
    (∀ (i : Nat), c < i → RaisedOk n0 cs0 cs i) →
    ∃ cs1, repair_dates fuel cs c gc = some cs1 ∧ Consecutive n0 cs1 ∧
      cs1.length = cs.length ∧
      (∀ (i : Nat), c < i → cs1[i]? = cs[i]?) ∧
      ((gc = none ∨ ∀ (gm cc : CvsCommit), cs[c + 1]? = some gm →
          cs[c]? = some cc → gm.date ≤ cc.date) → cs1[c]? = cs[c]?) ∧
      ∀ (i : Nat), RaisedOk n0 cs0 cs1 i := by
  intro fuel
  induction fuel with
  | zero => intro cs c gc _ _ _ h; omega
  | succ fuel ih =>
    intro cs c gc hcons hn0 hc hfuel hgc H2 H3 H4 H5
    have hcc : cs[c]? = some cs[c] := List.getElem?_eq_getElem hc
    have hpar := hcons c cs[c] hn0 hcc
    by_cases hroot : c = n0
    · rw [if_pos hroot] at hpar
      have e : repair_dates (fuel + 1) cs c gc = some cs := by
        conv => lhs; unfold repair_dates
        rw [hcc]
        simp only
        rw [hpar]
      rw [e]
      refine ⟨cs, rfl, hcons, rfl, fun _ _ => rfl, fun _ => rfl, ?_⟩
      intro i ci c0 hci hc0 hlt
      rcases Nat.lt_trichotomy i c with h | h | h
      · rw [H2 i h, hc0] at hci
        cases hci
        omega
      · subst h
        have := H3 ci c0 hci hc0
        omega
      · exact H5 i h ci c0 hci hc0 hlt
    · rw [if_neg hroot] at hpar
      have hp : c - 1 < cs.length := by omega
      have hpc : cs[c - 1]? = some cs[c - 1] := List.getElem?_eq_getElem hp
      have hp0 : cs0[c - 1]? = some cs[c - 1] := by
        rw [← H2 (c - 1) (by omega)]; exact hpc
      -- what the rest of the loop does after this round has left `cs2`
      have step : ∀ (cs2 : List CvsCommit), Consecutive n0 cs2 →
          cs2.length = cs.length →
          (∀ (i : Nat), i ≠ c → i ≠ c - 1 → cs2[i]? = cs[i]?) →
          (∀ (pm p0 : CvsCommit), cs2[c - 1]? = some pm →
            cs0[c - 1]? = some p0 → pm.date ≤ p0.date) →
          (∀ (gm g0 cc : CvsCommit), cs2[c]? = some gm → cs0[c]? = some g0 →
            cs2[c - 1]? = some cc → g0.date < gm.date → gm.date = cc.date) →
          RaisedOk n0 cs0 cs2 c → RaisedOk n0 cs0 cs2 (c + 1) →
          ((gc = none ∨ ∀ (gm cc : CvsCommit), cs[c + 1]? = some gm →
            cs[c]? = some cc → gm.date ≤ cc.date) → cs2[c]? = cs[c]?) →
          ∃ cs1, repair_dates fuel cs2 (c - 1) (some c) = some cs1 ∧
            Consecutive n0 cs1 ∧ cs1.length = cs.length ∧
            (∀ (i : Nat), c < i → cs1[i]? = cs[i]?) ∧
            ((gc = none ∨ ∀ (gm cc : CvsCommit), cs[c + 1]? = some gm →
              cs[c]? = some cc → gm.date ≤ cc.date) → cs1[c]? = cs[c]?) ∧
            ∀ (i : Nat), RaisedOk n0 cs0 cs1 i := by
        intro cs2 q1 q2 q3 q4 q5 q6 q7 q8
        have hsucc : c - 1 + 1 = c := by omega
        obtain ⟨cs1, h1, h2, h3, h4, _, h6⟩ := ih cs2 (c - 1) (some c) q1
          (by omega) (by omega) (by omega)
          (Or.inr ⟨by rw [hsucc], by omega⟩)
          (by
            intro i hi
            rw [q3 i (by omega) (by omega)]
            exact H2 i (by omega))
          q4
          (by
            intro gm g0 cc _ hgm hg0 hcc2 hlt
            rw [hsucc] at hgm hg0
            exact q5 gm g0 cc hgm hg0 hcc2 hlt)
          (by
            intro i hi
            rcases Nat.lt_trichotomy i c with h | h | h
            · omega
            · subst h; exact q6
            · rcases Nat.lt_trichotomy i (c + 1) with h' | h' | h'
              · omega
              · subst h'; exact q7
              · intro ci c0 hci hc0 hlt
                rw [q3 i (by omega) (by omega)] at hci
                obtain ⟨hn, gm, pm, hg, hpm, hd1, hd2⟩ := H5 i h ci c0 hci hc0 hlt
                refine ⟨hn, gm, pm, ?_, ?_, hd1, hd2⟩
                · rw [q3 (i + 1) (by omega) (by omega)]; exact hg
                · rw [q3 (i - 1) (by omega) (by omega)]; exact hpm)
        refine ⟨cs1, h1, h2, by rw [h3, q2], ?_, ?_, h6⟩
        · intro i hi
          rw [h4 i (by omega), q3 i (by omega) (by omega)]
        · intro hcond
          rw [h4 c (by omega)]
          exact q8 hcond
      -- the round that changes nothing
      have keep : ∃ cs1, repair_dates fuel cs (c - 1) (some c) = some cs1 ∧
            Consecutive n0 cs1 ∧ cs1.length = cs.length ∧
            (∀ (i : Nat), c < i → cs1[i]? = cs[i]?) ∧
            ((gc = none ∨ ∀ (gm cc : CvsCommit), cs[c + 1]? = some gm →
              cs[c]? = some cc → gm.date ≤ cc.date) → cs1[c]? = cs[c]?) ∧
            ∀ (i : Nat), RaisedOk n0 cs0 cs1 i := by
        apply step cs hcons rfl (fun _ _ _ => rfl)
        · intro pm p0 hpm hp00
          rw [hp0] at hp00
          rw [hpc] at hpm
          cases hpm; cases hp00
          exact Nat.le_refl _
        · intro gm g0 cc hgm hg0 _ hlt
          have := H3 gm g0 hgm hg0
          omega
        · intro ci c0 hci hc0 hlt
          have := H3 ci c0 hci hc0
          omega
        · exact H5 (c + 1) (by omega)
        · intro _; rfl
      -- the round that moves the parent back to the date of `c`
      have lower : time_compare (cs[c - 1]).date (cs[c]).date > 0 →
          ∃ cs1, repair_dates fuel
              (cs.set (c - 1) { cs[c - 1] with date := (cs[c]).date }) (c - 1)
              (some c) = some cs1 ∧
            Consecutive n0 cs1 ∧ cs1.length = cs.length ∧
            (∀ (i : Nat), c < i → cs1[i]? = cs[i]?) ∧
            ((gc = none ∨ ∀ (gm cc : CvsCommit), cs[c + 1]? = some gm →
              cs[c]? = some cc → gm.date ≤ cc.date) → cs1[c]? = cs[c]?) ∧
            ∀ (i : Nat), RaisedOk n0 cs0 cs1 i := by
        intro hgt
        have hgt1 := (time_compare_pos _ _).mp hgt
        have hne : c - 1 ≠ c := by omega
        have hself : (cs.set (c - 1) { cs[c - 1] with date := (cs[c]).date })[c - 1]? =
            some { cs[c - 1] with date := (cs[c]).date } :=
          List.getElem?_set_self hp
        apply step _ (consecutive_set_date n0 cs (c - 1) _ _ hcons hpc)
          (by rw [List.length_set])
          (fun i _ hi => List.getElem?_set_ne (fun h => hi h.symm))
        · intro pm p0 hpm hp00
          rw [hself] at hpm
          rw [hp0] at hp00
          cases hpm; cases hp00
          simp only
          omega
        · intro gm g0 cc hgm hg0 _ hlt
          rw [List.getElem?_set_ne hne] at hgm
          have := H3 gm g0 hgm hg0
          omega
        · intro ci c0 hci hc0 hlt
          rw [List.getElem?_set_ne hne] at hci
          have := H3 ci c0 hci hc0
          omega
        · intro ci c0 hci hc0 hlt
          rw [List.getElem?_set_ne (by omega)] at hci
          obtain ⟨hn, gm, pm, hg, hpm, hd1, hd2⟩ :=
            H5 (c + 1) (by omega) ci c0 hci hc0 hlt
          refine ⟨hn, gm, pm, ?_, ?_, hd1, hd2⟩
          · rw [List.getElem?_set_ne (by omega)]; exact hg
          · rw [List.getElem?_set_ne (by omega)]; exact hpm
        · intro _
          exact List.getElem?_set_ne hne
      by_cases hgt : time_compare (cs[c - 1]).date (cs[c]).date > 0
      · have hgt1 := (time_compare_pos _ _).mp hgt
        rcases hgc with hnone | ⟨hsome, hgl⟩
        · subst hnone
          have e : repair_dates (fuel + 1) cs c none = repair_dates fuel
              (cs.set (c - 1) { cs[c - 1] with date := (cs[c]).date }) (c - 1)
              (some c) := by
            conv => lhs; unfold repair_dates
            rw [hcc]
            simp only
            rw [hpar]
            simp only
            rw [hpc]
            simp only
            rw [if_pos hgt]
            try rfl
          rw [e]
          exact lower hgt
        · subst hsome
          have hg : cs[c + 1]? = some cs[c + 1] := List.getElem?_eq_getElem hgl
          by_cases hle : time_compare (cs[c - 1]).date (cs[c + 1]).date ≤ 0
          · have e : repair_dates (fuel + 1) cs c (some (c + 1)) =
                repair_dates fuel
                  (cs.set c { cs[c] with date := (cs[c - 1]).date }) (c - 1)
                  (some c) := by
              conv => lhs; unfold repair_dates
              rw [hcc]
              simp only
              rw [hpar]
              simp only
              rw [hpc]
              simp only
              rw [if_pos hgt, hg]
              simp only
              rw [if_pos hle]
            rw [e]
            have hle1 := (time_compare_nonpos _ _).mp hle
            have hne : c ≠ c - 1 := by omega
            have hself : (cs.set c { cs[c] with date := (cs[c - 1]).date })[c]? =
                some { cs[c] with date := (cs[c - 1]).date } :=
              List.getElem?_set_self hc
            have hnotraised : ∀ (g0 : CvsCommit), cs0[c + 1]? = some g0 →
                ¬ g0.date < (cs[c + 1]).date := by
              intro g0 hg0 hlt
              have := H4 cs[c + 1] g0 cs[c] rfl hg hg0 hcc hlt
              omega
            apply step _ (consecutive_set_date n0 cs c _ _ hcons hcc)
              (by rw [List.length_set])
              (fun i hi _ => List.getElem?_set_ne (fun h => hi h.symm))
            · intro pm p0 hpm hp00
              rw [List.getElem?_set_ne hne, hpc] at hpm
              rw [hp0] at hp00
              cases hpm; cases hp00
              exact Nat.le_refl _
            · intro gm g0 cc hgm hg0 hcc2 _
              rw [hself] at hgm
              rw [List.getElem?_set_ne hne, hpc] at hcc2
              cases hgm; cases hcc2
              rfl
            · intro ci c0 hci hc0 _
              rw [hself] at hci
              cases hci
              refine ⟨Nat.lt_of_le_of_ne hn0 (fun h => hroot h.symm), cs[c + 1],
                cs[c - 1], ?_, ?_, rfl, hle1⟩
              · rw [List.getElem?_set_ne (by omega)]; exact hg
              · rw [List.getElem?_set_ne hne]; exact hpc
            · intro ci c0 hci hc0 hlt
              rw [List.getElem?_set_ne (by omega), hg] at hci
              cases hci
              exact absurd hlt (hnotraised c0 hc0)
            · rintro (h | h)
              · cases h
              · have := h cs[c + 1] cs[c] hg hcc
                omega
          · have e : repair_dates (fuel + 1) cs c (some (c + 1)) =
                repair_dates fuel
                  (cs.set (c - 1) { cs[c - 1] with date := (cs[c]).date })
                  (c - 1) (some c) := by
              conv => lhs; unfold repair_dates
              rw [hcc]
              simp only
              rw [hpar]
              simp only
              rw [hpc]
              simp only
              rw [if_pos hgt, hg]
              simp only
              rw [if_neg hle]
            rw [e]
            exact lower hgt
      · have e : repair_dates (fuel + 1) cs c gc =
            repair_dates fuel cs (c - 1) (some c) := by
          conv => lhs; unfold repair_dates
          rw [hcc]
          simp only
          rw [hpar]
          simp only
          rw [hpc]
          simp only
          rw [if_neg hgt]
        rw [e]
        exact keep

theorem repair_dates_first (fuel : Nat) (cs : List CvsCommit) (c p : Nat)
    (cc pc : CvsCommit) (hc : cs[c]? = some cc) (hp : cc.parent = some p)
    (hpc : cs[p]? = some pc) (hlt : cc.date < pc.date) :
    repair_dates (fuel + 1) cs c none =
      repair_dates fuel (cs.set p { pc with date := cc.date }) p (some c) := by
  have hgt : time_compare pc.date cc.date > 0 := (time_compare_pos _ _).mpr hlt
  conv => lhs; unfold repair_dates
  simp only [hc, hp, hpc, hgt, if_true]

theorem repair_dates_noop (n0 : Nat) : ∀ (fuel : Nat) (cs : List CvsCommit)
    (c : Nat) (gc : Option Nat), Consecutive n0 cs → n0 ≤ c →
    c < cs.length → c < fuel →
    (∀ (i : Nat) (ci pi : CvsCommit), n0 < i → i ≤ c → cs[i]? = some ci →
      cs[i - 1]? = some pi → pi.date ≤ ci.date) →
    repair_dates fuel cs c gc = some cs := by
  intro fuel
  induction fuel with
  | zero => intro cs c gc _ _ _ h; omega
  | succ fuel ih =>
    intro cs c gc hcons hn0 hc hfuel hmono
    have hcc : cs[c]? = some cs[c] := List.getElem?_eq_getElem hc
    have hpar := hcons c cs[c] hn0 hcc
    by_cases hroot : c = n0
    · rw [if_pos hroot] at hpar
      unfold repair_dates
      simp only [hcc, hpar]
    · rw [if_neg hroot] at hpar
      have hp : c - 1 < cs.length := by omega
      have hpc : cs[c - 1]? = some cs[c - 1] := List.getElem?_eq_getElem hp
      have hle := hmono c cs[c] cs[c - 1] (by omega) (Nat.le_refl _) hcc hpc
      have hng : ¬ time_compare (cs[c - 1]).date (cs[c]).date > 0 := by
        rw [time_compare_pos]; omega
      have e : repair_dates (fuel + 1) cs c gc =
          repair_dates fuel cs (c - 1) (some c) := by
        conv => lhs; unfold repair_dates
        simp only [hcc, hpar, hpc, hng, if_false]
      rw [e]
      exact ih cs (c - 1) (some c) hcons (by omega) hp (by omega)
        (fun i ci pi h1 h2 => hmono i ci pi h1 (by omega))

theorem raised_ok_refl (n0 : Nat) (cs : List CvsCommit) (i : Nat) :
    RaisedOk n0 cs cs i := by
  intro ci c0 hci hc0 hlt
  rw [hci] at hc0
  cases hc0
  omega

theorem build_commits_consecutive (nodes : List Node)
    (commits : List CvsCommit) :
    Consecutive commits.length (build_commits nodes commits none).1 := by
  obtain ⟨h1, _, h3⟩ := build_commits_spec nodes commits none
  intro i ci hi hci
  have hlt : i < commits.length + (versioned nodes).length := by
    rw [← h1]; exact getElem?_lt_of_some hci
  have hj : i - commits.length < (versioned nodes).length := by omega
  have hv := h3 (i - commits.length) ((versioned nodes)[i - commits.length]).1
    ((versioned nodes)[i - commits.length]).2 (List.getElem?_eq_getElem hj)
  have e : commits.length + (i - commits.length) = i := by omega
  rw [e, hci] at hv
  simp only [Option.some.injEq] at hv
  rw [hv]
  simp only [new_commit]
  by_cases h0 : i = commits.length
  · have hz : i - commits.length = 0 := by omega
    rw [if_pos hz, if_pos h0]
  · have hz : ¬ i - commits.length = 0 := by omega
    rw [if_neg hz, if_neg h0]

theorem consecutive_down (n0 : Nat) (cs : List CvsCommit)
    (h : Consecutive n0 cs) : DownFrom n0 cs := by
  intro i ci p hi hci hp
  have := h i ci hi hci
  rw [hp] at this
  by_cases h0 : i = n0
  · rw [if_pos h0] at this
    cases this
  · rw [if_neg h0] at this
    simp only [Option.some.injEq] at this
    omega

/-- The result of `cvs_master_branch_build` on a delta list with at least one
version record, with what the date repair has kept and changed. -/
theorem branch_build_repair (cvs : CvsFile) (master : RevMaster)
    (branch : CvsNumber)
    (hne : versioned (cvs.find_version (branch_key branch)) ≠ []) :
    ∃ cs1, cvs_master_branch_build cvs master branch =
        some ({ master with commits := cs1 },
          some (master.commits.length +
            (versioned (cvs.find_version (branch_key branch))).length - 1)) ∧
      repair_dates
          ((build_commits (cvs.find_version (branch_key branch)) master.commits
            none).1.length + 1)
          (build_commits (cvs.find_version (branch_key branch)) master.commits
            none).1
          (master.commits.length +
            (versioned (cvs.find_version (branch_key branch))).length - 1)
          none = some cs1 ∧
      Consecutive master.commits.length cs1 ∧
      DatesOnly (build_commits (cvs.find_version (branch_key branch))
        master.commits none).1 cs1 ∧
      (∀ (i : Nat), i < master.commits.length → cs1[i]? = master.commits[i]?) ∧
      cs1[master.commits.length +
          (versioned (cvs.find_version (branch_key branch))).length - 1]? =
        (build_commits (cvs.find_version (branch_key branch)) master.commits
          none).1[master.commits.length +
            (versioned (cvs.find_version (branch_key branch))).length - 1]? ∧
      ∀ (i : Nat), RaisedOk master.commits.length
        (build_commits (cvs.find_version (branch_key branch)) master.commits
          none).1 cs1 i := by
  obtain ⟨h1, h2, _⟩ := build_commits_spec
    (cvs.find_version (branch_key branch)) master.commits none
  rw [if_neg hne] at h2
  have hcons := build_commits_consecutive
    (cvs.find_version (branch_key branch)) master.commits
  have hpos : 0 < (versioned (cvs.find_version (branch_key branch))).length :=
    List.length_pos.mpr hne
  obtain ⟨cs1, hrep, hcons1, _, _, hkeep, hraised⟩ :=
    repair_dates_raise master.commits.length
      (build_commits (cvs.find_version (branch_key branch)) master.commits
        none).1
      ((build_commits (cvs.find_version (branch_key branch)) master.commits
        none).1.length + 1)
      (build_commits (cvs.find_version (branch_key branch)) master.commits
        none).1
      (master.commits.length +
        (versioned (cvs.find_version (branch_key branch))).length - 1)
      none hcons (by omega) (by rw [h1]; omega) (by rw [h1]; omega)
      (Or.inl rfl) (fun _ _ => rfl)
      (fun cc c0 hcc hc0 => by
        rw [hcc] at hc0
        cases hc0
        exact Nat.le_refl _)
      (fun _ _ _ h => by cases h)
      (fun i _ => raised_ok_refl _ _ i)
  obtain ⟨cs2, hrep2, hdates, _, hpre, _, _⟩ := repair_dates_spec
    master.commits.length
    ((build_commits (cvs.find_version (branch_key branch)) master.commits
      none).1.length + 1)
    (build_commits (cvs.find_version (branch_key branch)) master.commits
      none).1
    (master.commits.length +
      (versioned (cvs.find_version (branch_key branch))).length - 1)
    none (consecutive_down _ _ hcons) (by omega) (by rw [h1]; omega)
    (by rw [h1]; omega) (fun g h => by cases h)
  rw [hrep] at hrep2
  cases hrep2
  refine ⟨cs1, ?_, hrep, hcons1, hdates, ?_, hkeep (Or.inl rfl), hraised⟩
  · unfold cvs_master_branch_build
    cases hb : build_commits (cvs.find_version (branch_key branch))
        master.commits none with
    | mk cs0 hd =>
      rw [hb] at h2 hrep
      simp only at h2 hrep
      subst h2
      simp only
      rw [hrep]
  · intro i hi
    rw [hpre i hi]
    exact build_commits_prefix _ _ _ i hi

/-- Claim C21: for a delta list `vs` of version records that is not empty,
`cvs_master_branch_build` returns the chain whose tip is the commit of the
last record, and (a) the tip has the date of its version record; (b) when the
tip's record is dated before the record of its parent, the parent ends with
the date of the tip; (c) a commit that ends with a later date than its
version record has a child in the chain, carries the date of its parent, and
that date is not later than the date of the child. -/
theorem build_branch_tip_date (cvs : CvsFile) (master : RevMaster)
    (branch : CvsNumber) (vs : List (CvsVersion × Option CvsPatch))
    (hvs : versioned (cvs.find_version (branch_key branch)) = vs)
    (hne : vs ≠ []) :
    ∃ cs1, cvs_master_branch_build cvs master branch =
        some ({ master with commits := cs1 },
          some (master.commits.length + vs.length - 1)) ∧
      (∀ (v : CvsVersion) (pt : Option CvsPatch),
        vs[vs.length - 1]? = some (v, pt) →
        ∃ tc, cs1[master.commits.length + vs.length - 1]? = some tc ∧
          tc.date = v.date) ∧
      (∀ (v v1 : CvsVersion) (pt pt1 : Option CvsPatch),
        vs[vs.length - 1]? = some (v, pt) → 2 ≤ vs.length →
        vs[vs.length - 2]? = some (v1, pt1) → v.date < v1.date →
        ∃ tc pc, cs1[master.commits.length + vs.length - 1]? = some tc ∧
          tc.parent = some (master.commits.length + vs.length - 1 - 1) ∧
          cs1[master.commits.length + vs.length - 1 - 1]? = some pc ∧
          pc.date = v.date) ∧
      (∀ (j : Nat) (v : CvsVersion) (pt : Option CvsPatch) (cc : CvsCommit),
        vs[j]? = some (v, pt) → cs1[master.commits.length + j]? = some cc →
        v.date < cc.date →
        ∃ gm pm, 0 < j ∧ cs1[master.commits.length + j + 1]? = some gm ∧
          gm.parent = some (master.commits.length + j) ∧
          cc.parent = some (master.commits.length + j - 1) ∧
          cs1[master.commits.length + j - 1]? = some pm ∧
          cc.date = pm.date ∧ pm.date ≤ gm.date) := by
  subst hvs
  obtain ⟨cs1, hbuild, hrep, hcons1, _, _, hkeep, hraised⟩ :=
    branch_build_repair cvs master branch hne
  obtain ⟨h1, _, h3⟩ := build_commits_spec
    (cvs.find_version (branch_key branch)) master.commits none
  have hcons := build_commits_consecutive
    (cvs.find_version (branch_key branch)) master.commits
  have hpos : 0 < (versioned (cvs.find_version (branch_key branch))).length :=
    List.length_pos.mpr hne
  have hidx : master.commits.length +
      ((versioned (cvs.find_version (branch_key branch))).length - 1) =
      master.commits.length +
        (versioned (cvs.find_version (branch_key branch))).length - 1 := by
    omega
  refine ⟨cs1, hbuild, ?_, ?_, ?_⟩
  · intro v pt hv
    have := h3 _ v pt hv
    rw [hidx] at this
    exact ⟨_, by rw [hkeep]; exact this, rfl⟩
  · intro v v1 pt pt1 hv h2 hv1 hlt
    have ht := h3 _ v pt hv
    rw [hidx] at ht
    have hj0 : ¬ (versioned (cvs.find_version (branch_key branch))).length - 1 = 0 := by
      omega
    rw [if_neg hj0] at ht
    have hp := h3 _ v1 pt1 hv1
    have hidx1 : master.commits.length +
        ((versioned (cvs.find_version (branch_key branch))).length - 2) =
        master.commits.length +
          (versioned (cvs.find_version (branch_key branch))).length - 1 - 1 := by
      omega
    rw [hidx1] at hp
    have hfirst := repair_dates_first
      (build_commits (cvs.find_version (branch_key branch)) master.commits
        none).1.length _ _ _ _ _ ht rfl hp hlt
    rw [hfirst] at hrep
    have hsucc : master.commits.length +
        (versioned (cvs.find_version (branch_key branch))).length - 1 - 1 + 1 =
        master.commits.length +
          (versioned (cvs.find_version (branch_key branch))).length - 1 := by
      omega
    have hplt : master.commits.length +
        (versioned (cvs.find_version (branch_key branch))).length - 1 - 1 <
        (build_commits (cvs.find_version (branch_key branch)) master.commits
          none).1.length := by
      rw [h1]; omega
    have hne1 : master.commits.length +
        (versioned (cvs.find_version (branch_key branch))).length - 1 - 1 ≠
        master.commits.length +
          (versioned (cvs.find_version (branch_key branch))).length - 1 := by
      omega
    obtain ⟨cs2, hrep2, _, _, _, hstay, _⟩ :=
      repair_dates_raise master.commits.length _
        (build_commits (cvs.find_version (branch_key branch)) master.commits
          none).1.length _
        (master.commits.length +
          (versioned (cvs.find_version (branch_key branch))).length - 1 - 1)
        (some (master.commits.length +
          (versioned (cvs.find_version (branch_key branch))).length - 1 - 1 + 1))
        (consecutive_set_date _ _ _ _ (new_commit v pt (some
          (master.commits.length +
            (versioned (cvs.find_version (branch_key branch))).length - 1 -
              1))).date hcons hp)
        (by omega) (by rw [List.length_set]; exact hplt) hplt
        (Or.inr ⟨rfl, by rw [List.length_set, h1]; omega⟩)
        (fun _ _ => rfl)
        (fun cc c0 hcc hc0 => by
          rw [hcc] at hc0
          cases hc0
          exact Nat.le_refl _)
        (fun gm g0 cc _ hgm hg0 _ hl => by
          rw [hgm] at hg0
          cases hg0
          omega)
        (fun i _ => raised_ok_refl _ _ i)
    rw [hsucc] at hrep2
    rw [hrep] at hrep2
    cases hrep2
    have hpcs := (hstay (Or.inr (by
      intro gm cc hgm hcc
      rw [hsucc, List.getElem?_set_ne hne1, ht] at hgm
      rw [List.getElem?_set_self hplt] at hcc
      cases hgm; cases hcc
      exact Nat.le_refl _))).trans (List.getElem?_set_self hplt)
    exact ⟨_, _, by rw [hkeep]; exact ht, rfl, hpcs, rfl⟩
  · intro j v pt cc hv hcc hlt
    have hc0 := h3 j v pt hv
    obtain ⟨hn, gm, pm, hg, hpm, hd1, hd2⟩ :=
      hraised (master.commits.length + j) cc _ hcc hc0 hlt
    have hj : 0 < j := by omega
    have hgpar := hcons1 (master.commits.length + j + 1) gm (by omega) hg
    rw [if_neg (by omega)] at hgpar
    have hcpar := hcons1 (master.commits.length + j) cc (by omega) hcc
    rw [if_neg (by omega)] at hcpar
    exact ⟨gm, pm, hj, hg, by rw [hgpar]; rfl, hcpar, hpm, hd1, hd2⟩

/-- Witness of C21 on the trunk of `odd_date_file`, where `1.2` is raised to
the date of `1.1`. -/
theorem build_branch_tip_date_witness :
    (cvs_master_branch_build odd_date_file empty_master [1, 1]).map
        (fun r => (r.1.commits.map (fun c => (c.number, c.date)), r.2))
      = some ([([1, 1], 30), ([1, 2], 30), ([1, 3], 40)], some 2) ∧
    ∃ cs1, cvs_master_branch_build odd_date_file empty_master [1, 1] =
        some ({ empty_master with commits := cs1 },
          some (empty_master.commits.length +
            odd_date_records.length - 1)) ∧
      (∀ (v : CvsVersion) (pt : Option CvsPatch),
        odd_date_records[
          odd_date_records.length - 1]? = some (v, pt) →
        ∃ tc, cs1[empty_master.commits.length +
            odd_date_records.length - 1]? = some tc ∧
          tc.date = v.date) ∧
      (∀ (v v1 : CvsVersion) (pt pt1 : Option CvsPatch),
        odd_date_records[
          odd_date_records.length - 1]? = some (v, pt) →
        2 ≤ odd_date_records.length →
        odd_date_records[
          odd_date_records.length - 2]? = some (v1, pt1) →
        v.date < v1.date →
        ∃ tc pc, cs1[empty_master.commits.length +
            odd_date_records.length - 1]? = some tc ∧
          tc.parent = some (empty_master.commits.length +
            odd_date_records.length - 1 - 1) ∧
          cs1[empty_master.commits.length +
            odd_date_records.length - 1 - 1]? = some pc ∧
          pc.date = v.date) ∧
      (∀ (j : Nat) (v : CvsVersion) (pt : Option CvsPatch) (cc : CvsCommit),
        odd_date_records[j]? = some (v, pt) →
        cs1[empty_master.commits.length + j]? = some cc →
        v.date < cc.date →
        ∃ gm pm, 0 < j ∧ cs1[empty_master.commits.length + j + 1]? = some gm ∧
          gm.parent = some (empty_master.commits.length + j) ∧
          cc.parent = some (empty_master.commits.length + j - 1) ∧
          cs1[empty_master.commits.length + j - 1]? = some pm ∧
          cc.date = pm.date ∧ pm.date ≤ gm.date) :=
  ⟨by decide,
   build_branch_tip_date odd_date_file empty_master [1, 1]
     odd_date_records (by decide) (by decide)⟩

/-- Claim C22 as stated fails on the date: the trunk of `skew_file` has the
version record `1.2` dated 30, and in the chain that
`cvs_master_branch_build` returns the commit `1.2` is dated 20. -/
theorem build_branch_date_not_copied :
    versioned (skew_file.find_version (branch_key [1, 1])) = skew_records ∧
    skew_records[1]? = some (version_at [1, 2] 30 false [], none) ∧
    ∃ m1 c, cvs_master_branch_build skew_file empty_master [1, 1] =
        some (m1, some 2) ∧
      m1.commits[1]? = some c ∧ c.number = [1, 2] ∧ c.date = 20 ∧
      c.date ≠ (version_at [1, 2] 30 false []).date :=
  ⟨by decide, by decide, skew_built, commit_at [1, 2] 20 (some 0), by decide,
    by decide, rfl, rfl, by decide⟩

theorem dates_only_fields {cs cs1 : List CvsCommit} (h : DatesOnly cs cs1)
    (i : Nat) (c : CvsCommit) (hc : cs[i]? = some c) :
    ∃ c1, cs1[i]? = some c1 ∧ c1.number = c.number ∧ c1.author = c.author ∧
      c1.commitid = c.commitid ∧ c1.dead = c.dead ∧ c1.parent = c.parent := by
  obtain ⟨c1, hc1, he⟩ := dates_only_get_some (dates_only_symm h) hc
  refine ⟨c1, hc1, ?_, ?_, ?_, ?_, ?_⟩
  · have := congrArg CvsCommit.number he
    simpa [erase_date] using this
  · have := congrArg CvsCommit.author he
    simpa [erase_date] using this
  · have := congrArg CvsCommit.commitid he
    simpa [erase_date] using this
  · have := congrArg CvsCommit.dead he
    simpa [erase_date] using this
  · have := congrArg CvsCommit.parent he
    simpa [erase_date] using this

/-- Claim C22 as amended.  `cvs_master_branch_build` returns; the result is
`none` exactly when no node of the delta list carries a version record;
otherwise the tip is the commit of the last such node, the slab has grown by
one commit for each such node in the order met, each with the number, author,
commitid and dead flag of its version record and the commit emitted before
it as parent; the loop gives each commit the date of its version record, and
the returned chain still has those dates when the dates of the records do not
decrease along the list. -/
theorem build_branch_chain (cvs : CvsFile) (master : RevMaster)
    (branch : CvsNumber) (vs : List (CvsVersion × Option CvsPatch))
    (hvs : versioned (cvs.find_version (branch_key branch)) = vs) :
    ∃ cs1 head, cvs_master_branch_build cvs master branch =
        some ({ master with commits := cs1 }, head) ∧
      (head = none ↔
        ∀ node ∈ cvs.find_version (branch_key branch), node.version = none) ∧
      (∀ (h : Nat), head = some h → h = master.commits.length + vs.length - 1) ∧
      cs1.length = master.commits.length + vs.length ∧
      (∀ (i : Nat), i < master.commits.length → cs1[i]? = master.commits[i]?) ∧
      (∀ (j : Nat) (v : CvsVersion) (pt : Option CvsPatch),
        vs[j]? = some (v, pt) →
        ∃ c, cs1[master.commits.length + j]? = some c ∧
          c.number = v.number ∧ c.author = v.author ∧
          c.commitid = v.commitid ∧ c.dead = v.dead ∧
          c.parent =
            (if j = 0 then none else some (master.commits.length + j - 1))) ∧
      (∀ (j : Nat) (v : CvsVersion) (pt : Option CvsPatch),
        vs[j]? = some (v, pt) →
        ∃ c0, (build_commits (cvs.find_version (branch_key branch))
            master.commits none).1[master.commits.length + j]? = some c0 ∧
          c0.date = v.date) ∧
      ((∀ (j : Nat) (v v1 : CvsVersion) (pt pt1 : Option CvsPatch),
          vs[j]? = some (v, pt) → vs[j + 1]? = some (v1, pt1) →
          v.date ≤ v1.date) →
        ∀ (j : Nat) (v : CvsVersion) (pt : Option CvsPatch),
          vs[j]? = some (v, pt) →
          ∃ c, cs1[master.commits.length + j]? = some c ∧ c.date = v.date) := by
  subst hvs
  obtain ⟨h1, h2, h3⟩ := build_commits_spec
    (cvs.find_version (branch_key branch)) master.commits none
  have hloop : ∀ (j : Nat) (v : CvsVersion) (pt : Option CvsPatch),
      (versioned (cvs.find_version (branch_key branch)))[j]? = some (v, pt) →
      ∃ c0, (build_commits (cvs.find_version (branch_key branch))
          master.commits none).1[master.commits.length + j]? = some c0 ∧
        c0.date = v.date :=
    fun j v pt hv => ⟨_, h3 j v pt hv, rfl⟩
  by_cases hne : versioned (cvs.find_version (branch_key branch)) = []
  · rw [if_pos hne] at h2
    have hbuild : cvs_master_branch_build cvs master branch =
        some ({ master with commits :=
          (build_commits (cvs.find_version (branch_key branch)) master.commits
            none).1 }, none) := by
      unfold cvs_master_branch_build
      cases hb : build_commits (cvs.find_version (branch_key branch))
          master.commits none with
      | mk cs0 hd =>
        rw [hb] at h2
        simp only at h2
        subst h2
        rfl
    refine ⟨_, none, hbuild, ?_, ?_, ?_, ?_, ?_, hloop, ?_⟩
    · rw [branch_build_none_iff cvs master _ branch none hbuild]
    · intro h hh
      cases hh
    · exact h1
    · intro i hi
      exact build_commits_prefix _ _ _ i hi
    · intro j v pt hv
      rw [hne] at hv
      simp at hv
    · intro _ j v pt hv
      rw [hne] at hv
      simp at hv
  · obtain ⟨cs1, hbuild, hrep, hcons1, hdates, hpre, _, _⟩ :=
      branch_build_repair cvs master branch hne
    have hlen : cs1.length = master.commits.length +
        (versioned (cvs.find_version (branch_key branch))).length := by
      rw [dates_only_length hdates, h1]
    have hpos : 0 < (versioned (cvs.find_version (branch_key branch))).length :=
      List.length_pos.mpr hne
    refine ⟨cs1, _, hbuild, ?_, ?_, hlen, hpre, ?_, hloop, ?_⟩
    · constructor
      · intro h
        cases h
      · intro h
        have := (branch_build_none_iff cvs master _ branch _ hbuild).mpr h
        cases this
    · intro h hh
      simp only [Option.some.injEq] at hh
      exact hh.symm
    · intro j v pt hv
      obtain ⟨c1, hc1, e1, e2, e3, e4, e5⟩ :=
        dates_only_fields hdates _ _ (h3 j v pt hv)
      exact ⟨c1, hc1, e1, e2, e3, e4, e5⟩
    · intro hsorted j v pt hv
      have hcons := build_commits_consecutive
        (cvs.find_version (branch_key branch)) master.commits
      have hnoop := repair_dates_noop master.commits.length
        ((build_commits (cvs.find_version (branch_key branch)) master.commits
          none).1.length + 1)
        (build_commits (cvs.find_version (branch_key branch)) master.commits
          none).1
        (master.commits.length +
          (versioned (cvs.find_version (branch_key branch))).length - 1)
        none hcons (by omega) (by rw [h1]; omega) (by rw [h1]; omega)
        (by
          intro i ci pi hi1 hi2 hci hpi
          have hj1 : i - master.commits.length <
              (versioned (cvs.find_version (branch_key branch))).length := by
            omega
          have hj0 : i - master.commits.length - 1 <
              (versioned (cvs.find_version (branch_key branch))).length := by
            omega
          have ha := h3 _ _ _ (List.getElem?_eq_getElem hj1)
          have hb := h3 _ _ _ (List.getElem?_eq_getElem hj0)
          have ea : master.commits.length + (i - master.commits.length) = i := by
            omega
          have eb : master.commits.length + (i - master.commits.length - 1) =
              i - 1 := by omega
          rw [ea, hci] at ha
          rw [eb, hpi] at hb
          simp only [Option.some.injEq] at ha hb
          rw [ha, hb]
          have hs := hsorted (i - master.commits.length - 1) _ _ _ _
            (List.getElem?_eq_getElem hj0)
            (by
              have e : i - master.commits.length - 1 + 1 =
                  i - master.commits.length := by omega
              rw [e]
              exact List.getElem?_eq_getElem hj1)
          exact hs)
      rw [hnoop] at hrep
      simp only [Option.some.injEq] at hrep
      subst hrep
      exact ⟨_, h3 j v pt hv, rfl⟩

/-- Witness of the amended C22 on the trunk of `grafted_file`. -/
theorem build_branch_chain_witness :
    ∃ cs1 head, cvs_master_branch_build grafted_file empty_master [1, 1] =
        some ({ empty_master with commits := cs1 }, head) ∧
      (head = none ↔
        ∀ node ∈ grafted_file.find_version (branch_key [1, 1]),
          node.version = none) ∧
      (∀ (h : Nat), head = some h →
        h = empty_master.commits.length + grafted_trunk_records.length - 1) ∧
      cs1.length = empty_master.commits.length + grafted_trunk_records.length ∧
      (∀ (i : Nat), i < empty_master.commits.length →
        cs1[i]? = empty_master.commits[i]?) ∧
      (∀ (j : Nat) (v : CvsVersion) (pt : Option CvsPatch),
        grafted_trunk_records[j]? = some (v, pt) →
        ∃ c, cs1[empty_master.commits.length + j]? = some c ∧
          c.number = v.number ∧ c.author = v.author ∧
          c.commitid = v.commitid ∧ c.dead = v.dead ∧
          c.parent =
            (if j = 0 then none
             else some (empty_master.commits.length + j - 1))) ∧
      (∀ (j : Nat) (v : CvsVersion) (pt : Option CvsPatch),
        grafted_trunk_records[j]? = some (v, pt) →
        ∃ c0, (build_commits (grafted_file.find_version (branch_key [1, 1]))
            empty_master.commits none).1[empty_master.commits.length + j]? =
              some c0 ∧
          c0.date = v.date) ∧
      ((∀ (j : Nat) (v v1 : CvsVersion) (pt pt1 : Option CvsPatch),
          grafted_trunk_records[j]? = some (v, pt) →
          grafted_trunk_records[j + 1]? = some (v1, pt1) →
          v.date ≤ v1.date) →
        ∀ (j : Nat) (v : CvsVersion) (pt : Option CvsPatch),
          grafted_trunk_records[j]? = some (v, pt) →
          ∃ c, cs1[empty_master.commits.length + j]? = some c ∧
            c.date = v.date) :=
  build_branch_chain grafted_file empty_master [1, 1] grafted_trunk_records
    (by decide)


/-- Claim C23 fails on the code: for `tipless_branch_file` the trunk builds,
`cvs_master_branch_build` returns `NULL` for the branch record `1.1.2.1`, and
`cvs_master_digest` registers a head for it all the same, so the head list
handed to the passes holds a head without tip.  The vendor and graft passes
step over it; the symbol pass evaluates `h->commit->number` on it, which has
no result, and so the digest has none. -/
theorem branch_head_without_tip :
    cvs_master_branch_build tipless_branch_file tipless_master [1, 1, 2, 1] =
      some (tipless_master, none) ∧
    digest_build tipless_branch_file empty_cm empty_master =
      some (some 0, tipless_cm, tipless_master) ∧
    tipless_cm.heads = [0, 1] ∧
    (tipless_cm.refs[1]?).map (fun r => r.commit) = some none ∧
    cvs_master_patch_vendor_branch tipless_cm tipless_master.commits =
      some (tipless_cm, tipless_master.commits) ∧
    cvs_master_graft_branches tipless_branch_file tipless_cm
      tipless_master.commits = some tipless_master.commits ∧
    find_symbol_head tipless_cm.refs tipless_master.commits [1, 1, 0, 2]
      tipless_cm.heads = none ∧
    cvs_master_set_refs tipless_branch_file tipless_cm
      tipless_master.commits = none ∧
    cvs_master_digest tipless_branch_file empty_cm empty_master = none := by
  refine ⟨by decide, by decide, by decide, by decide, by decide, by decide,
    by decide, by decide, by decide⟩


theorem find_branch_heads_none (refs : List RevRef) (k : CvsNumber) :
    ∀ (heads : List Nat), find_branch_heads refs k heads = some none ↔
      ∀ h ∈ heads, ∃ r n, refs[h]? = some r ∧ r.number = some n ∧
        cvs_same_branch n k = false := by
  intro heads
  induction heads with
  | nil => simp [find_branch_heads]
  | cons hd rest ih =>
    unfold find_branch_heads
    constructor
    · intro h
      split at h
      · cases h
      · rename_i r hr
        split at h
        · cases h
        · rename_i n hn
          split at h
          · cases h
          · rename_i hsb
            intro x hx
            rcases List.mem_cons.mp hx with rfl | hx
            · exact ⟨r, n, hr, hn, by simpa using hsb⟩
            · exact ih.mp h x hx
    · intro h
      obtain ⟨r, n, hr, hn, hsb⟩ := h hd (List.mem_cons_self _ _)
      rw [hr]
      simp only
      rw [hn]
      simp only [hsb]
      exact ih.mpr (fun x hx => h x (List.mem_cons_of_mem _ hx))

theorem find_branch_heads_cases (refs : List RevRef) (k : CvsNumber)
    (heads : List Nat) :
    find_branch_heads refs k heads = none ∨
    find_branch_heads refs k heads = some none ∨
    ∃ h, find_branch_heads refs k heads = some (some h) := by
  cases hf : find_branch_heads refs k heads with
  | none => exact Or.inl rfl
  | some o =>
    cases o with
    | none => exact Or.inr (Or.inl rfl)
    | some h => exact Or.inr (Or.inr ⟨h, rfl⟩)

/-- A lookup that finds no head finds none either in a state with no further
heads in the list and the same numbers. -/
theorem find_branch_loop_transfer (cm cm1 : CvsMaster)
    (hheads : ∀ x ∈ cm1.heads, x ∈ cm.heads)
    (hnum : ∀ (i : Nat) (r : RevRef) (n : CvsNumber), cm.refs[i]? = some r →
      r.number = some n → ∃ r1, cm1.refs[i]? = some r1 ∧ r1.number = some n) :
    ∀ (rounds : Nat) (k : CvsNumber), find_branch_loop cm rounds k = some none →
      find_branch_loop cm1 rounds k = some none := by
  intro rounds
  induction rounds with
  | zero => intro k _; rfl
  | succ rounds ih =>
    intro k h
    unfold find_branch_loop at h ⊢
    rcases find_branch_heads_cases cm.refs k cm.heads with e | e | ⟨x, e⟩
    · rw [e] at h; cases h
    · rw [e] at h
      simp only at h
      have hall := (find_branch_heads_none cm.refs k cm.heads).mp e
      have e1 : find_branch_heads cm1.refs k cm1.heads = some none := by
        apply (find_branch_heads_none cm1.refs k cm1.heads).mpr
        intro x hx
        obtain ⟨r, n, hr, hn, hsb⟩ := hall x (hheads x hx)
        obtain ⟨r1, hr1, hn1⟩ := hnum x r n hr hn
        exact ⟨r1, n, hr1, hn1, hsb⟩
      rw [e1]
      exact ih _ h
    · rw [e] at h; cases h

theorem link_head_orphan (cs : List CvsCommit) (cm cm1 : CvsMaster) (h : Nat)
    (hl : link_head cs cm h = some cm1) :
    cm1.heads = cm.heads ∧ (∀ i, i ≠ h → cm1.refs[i]? = cm.refs[i]?) ∧
    NumbersKept cm cm1 ∧ NamedOrOrphan cm1 h := by
  unfold link_head at hl
  split at hl
  · cases hl
  · rename_i r hr
    have hlt : h < cm.refs.length := getElem?_lt_of_some hr
    split at hl
    · rename_i hzero
      simp only [Option.some.injEq] at hl
      subst hl
      refine ⟨rfl, fun _ _ => rfl, fun i x n hx hn => ⟨x, hx, hn⟩, r, cvs_zero,
        hr, hzero, fun _ hne => absurd rfl hne⟩
    · simp only at hl
      have hkeep : ∀ (refsX : List RevRef) (rx : RevRef),
          refsX[h]? = some rx →
          (∀ i, i ≠ h → refsX[i]? = cm.refs[i]?) →
          rx.number = some (r.number.getD cvs_zero) →
          ∀ (cmY : CvsMaster) (ry : RevRef), cmY.refs[h]? = some ry →
          (∀ i, i ≠ h → cmY.refs[i]? = refsX[i]?) →
          ry.number = rx.number →
          NumbersKept cm cmY ∧
          NumbersKept { refs := refsX, heads := cm.heads } cmY := by
        intro refsX rx hx hoth hnum cmY ry hy hothY hnumY
        constructor
        · intro i x n hxi hn
          by_cases hi : i = h
          · subst hi
            rw [hr] at hxi
            cases hxi
            refine ⟨ry, hy, ?_⟩
            rw [hnumY, hnum, hn]
            rfl
          · exact ⟨x, by rw [hothY i hi, hoth i hi]; exact hxi, hn⟩
        · intro i x n hxi hn
          simp only at hxi
          by_cases hi : i = h
          · subst hi
            rw [hx] at hxi
            cases hxi
            exact ⟨ry, hy, by rw [hnumY]; exact hn⟩
          · exact ⟨x, by rw [hothY i hi]; exact hxi, hn⟩
      split at hl
      · rename_i h4
        split at hl
        · cases hl
        · rename_i ph hfind
          obtain ⟨h1, -, h3, r0, r1, hr0, hr1, e1, e2, e3, -⟩ :=
            name_unnamed_spec cs _ cm1 h hl
          simp only at h1 h3 hr0
          rw [List.getElem?_set_self (by simpa using hlt)] at hr0
          simp only [Option.some.injEq] at hr0
          subst hr0
          simp only at e1 e2
          have hoth : ∀ i, i ≠ h → cm1.refs[i]? = cm.refs[i]? := by
            intro i hi
            rw [h3 i hi, List.getElem?_set_ne (Ne.symm hi),
              List.getElem?_set_ne (Ne.symm hi)]
          obtain ⟨k1, k2⟩ := hkeep
            (cm.refs.set h { r with number := some (r.number.getD cvs_zero) })
            { r with number := some (r.number.getD cvs_zero) }
            (List.getElem?_set_self hlt)
            (fun i hi => List.getElem?_set_ne (Ne.symm hi))
            rfl cm1 r1 hr1
            (fun i hi => by
              rw [hoth i hi, List.getElem?_set_ne (Ne.symm hi)])
            e1
          refine ⟨h1, hoth, k1, r1, r.number.getD cvs_zero, hr1, e1, ?_⟩
          intro hnone _ _
          have hp : r1.parent = none := by
            by_contra hne
            exact e3 hne hnone
          refine ⟨hp, ?_⟩
          rw [e2] at hp
          subst hp
          exact find_branch_loop_transfer _ cm1 (fun x hx => by rw [h1] at hx; exact hx)
            k2 _ _ hfind
      · rename_i h4
        obtain ⟨h1, -, h3, r0, r1, hr0, hr1, e1, -, -, -⟩ :=
          name_unnamed_spec cs _ cm1 h hl
        simp only at h1 h3 hr0
        rw [List.getElem?_set_self hlt] at hr0
        simp only [Option.some.injEq] at hr0
        subst hr0
        simp only at e1
        have hoth : ∀ i, i ≠ h → cm1.refs[i]? = cm.refs[i]? := by
          intro i hi
          rw [h3 i hi, List.getElem?_set_ne (Ne.symm hi)]
        obtain ⟨k1, -⟩ := hkeep
          (cm.refs.set h { r with number := some (r.number.getD cvs_zero) })
          { r with number := some (r.number.getD cvs_zero) }
          (List.getElem?_set_self hlt)
          (fun i hi => List.getElem?_set_ne (Ne.symm hi))
          rfl cm1 r1 hr1
          (fun i hi => by
            rw [hoth i hi, List.getElem?_set_ne (Ne.symm hi)])
          e1
        exact ⟨h1, hoth, k1, r1, r.number.getD cvs_zero, hr1, e1,
          fun _ _ h4' => absurd h4' h4⟩

theorem numbers_kept_trans {a b c : CvsMaster} (h1 : NumbersKept a b)
    (h2 : NumbersKept b c) : NumbersKept a c := by
  intro i r n hr hn
  obtain ⟨r1, hr1, hn1⟩ := h1 i r n hr hn
  exact h2 i r1 n hr1 hn1

theorem named_or_orphan_transfer {cm cm1 : CvsMaster} {x : Nat}
    (hheads : ∀ y ∈ cm1.heads, y ∈ cm.heads) (hnum : NumbersKept cm cm1)
    (hx : cm1.refs[x]? = cm.refs[x]?) (h : NamedOrOrphan cm x) :
    NamedOrOrphan cm1 x := by
  obtain ⟨r, n, hr, hn, hp⟩ := h
  refine ⟨r, n, by rw [hx]; exact hr, hn, ?_⟩
  intro h1 h2 h3
  obtain ⟨p1, p2⟩ := hp h1 h2 h3
  exact ⟨p1, find_branch_loop_transfer cm cm1 hheads hnum _ _ p2⟩

theorem link_heads_orphan (cs : List CvsCommit) :
    ∀ (heads : List Nat) (cm cm1 : CvsMaster),
    link_heads cs heads cm = some cm1 →
    cm1.heads = cm.heads ∧ (∀ i, i ∉ heads → cm1.refs[i]? = cm.refs[i]?) ∧
    NumbersKept cm cm1 ∧ ∀ x ∈ heads, NamedOrOrphan cm1 x := by
  intro heads
  induction heads with
  | nil =>
    intro cm cm1 h
    simp only [link_heads, Option.some.injEq] at h
    subst h
    exact ⟨rfl, fun _ _ => rfl, fun i r n hr hn => ⟨r, hr, hn⟩, by simp⟩
  | cons hd rest ih =>
    intro cm cm1 h
    unfold link_heads at h
    split at h
    · cases h
    · rename_i cm2 h2
      obtain ⟨a1, a2, a3, a4⟩ := link_head_orphan cs cm cm2 hd h2
      obtain ⟨b1, b2, b3, b4⟩ := ih cm2 cm1 h
      refine ⟨by rw [b1, a1], ?_, numbers_kept_trans a3 b3, ?_⟩
      · intro i hi
        have h1 : i ≠ hd := fun e => hi (e ▸ List.mem_cons_self _ _)
        have h2 : i ∉ rest := fun e => hi (List.mem_cons_of_mem _ e)
        rw [b2 i h2, a2 i h1]
      · intro x hx
        by_cases hxr : x ∈ rest
        · exact b4 x hxr
        · rcases List.mem_cons.mp hx with rfl | hx
          · exact named_or_orphan_transfer (fun y hy => by rw [b1] at hy; exact hy)
              b3 (b2 x hxr) a4
          · exact absurd hx hxr

theorem set_refs_orphan (cvs : CvsFile) (cm cm1 : CvsMaster)
    (cs : List CvsCommit) (h : cvs_master_set_refs cvs cm cs = some cm1) :
    ∀ x ∈ cm1.heads, NamedOrOrphan cm1 x := by
  unfold cvs_master_set_refs at h
  split at h
  · cases h
  · split at h
    · cases h
    · simp only at h
      obtain ⟨b1, -, -, b4⟩ := link_heads_orphan cs _ _ _ h
      simp only at b1
      intro x hx
      rw [b1] at hx
      exact b4 x hx

theorem sort_heads_orphan (cvs : CvsFile) (cm cm1 : CvsMaster)
    (h : cvs_master_sort_heads cvs cm = some cm1)
    (hall : ∀ x ∈ cm.heads, NamedOrOrphan cm x) :
    ∀ x ∈ cm1.heads, NamedOrOrphan cm1 x := by
  obtain ⟨h1, h2, -⟩ := sort_heads_spec cvs cm cm1 h
  intro x hx
  exact named_or_orphan_transfer h2
    (fun i r n hr hn => ⟨r, by rw [h1]; exact hr, hn⟩) (by rw [h1])
    (hall x (h2 x hx))

theorem digest_passes_orphan (cvs : CvsFile) (cm cm1 : CvsMaster)
    (cs cs1 : List CvsCommit)
    (h : digest_passes cvs cm cs = some (cm1, cs1)) :
    ∀ x ∈ cm1.heads, NamedOrOrphan cm1 x := by
  unfold digest_passes at h
  split at h
  · cases h
  · split at h
    · cases h
    · split at h
      · cases h
      · rename_i cm3 hset
        split at h
        · cases h
        · rename_i cm4 hsort
          simp only [Option.some.injEq, Prod.mk.injEq] at h
          obtain ⟨rfl, -⟩ := h
          exact sort_heads_orphan cvs cm3 _ hsort
            (set_refs_orphan cvs _ cm3 _ hset)

/-- Claim C7 as amended.  When `cvs_master_digest` on a fresh head list
returns a commit, every head of the finished list carries a number; it
carries a name if it has a parent head; and a head that carries no name
although its number is not the zero number and has at least four elements is
an orphan: `cvs_master_find_branch` finds no head of the finished list for
its number cut by two elements. -/
theorem digest_heads_named_or_orphan (cvs : CvsFile) (master : RevMaster)
    (d : Digest) (hd : cvs_master_digest cvs empty_cm master = some d)
    (hret : d.ret ≠ none) :
    ∀ h ∈ d.cm.heads, ∃ r n, d.cm.refs[h]? = some r ∧ r.number = some n ∧
      (r.parent ≠ none → r.ref_name ≠ none) ∧
      (r.ref_name = none → n ≠ cvs_zero → 4 ≤ n.length →
        cvs_master_find_branch d.cm (n.take (n.length - 2)) = some none) := by
  obtain ⟨t, cm3, m3, news, cs2, -, h2, -, h4, hp⟩ :=
    digest_some_spec cvs master d hd hret
  obtain ⟨a, -, -⟩ := digest_passes_spec cvs cm3 d.cm _ cs2 hp
  intro h hh
  obtain ⟨r1, n, hr1, hn, horph⟩ := digest_passes_orphan cvs cm3 d.cm _ cs2 hp h hh
  refine ⟨r1, n, hr1, hn, ?_, fun e1 e2 e3 => (horph e1 e2 e3).2⟩
  rcases a.2 h r1 hr1 with ⟨r, hr, hc⟩ | ⟨-, hf⟩
  · apply hc.2.1
    have hmem : r ∈ cm3.refs := List.getElem?_mem hr
    rw [h2] at hmem
    rcases List.mem_cons.mp hmem with rfl | hmem
    · intro hpar; exact absurd rfl hpar
    · intro hpar; exact absurd (h4 r hmem).2.2.1 hpar
  · exact hf.1

/-- Witness of the amended C7 on `orphan_child_file`: the head of the branch
`1.1.2` is an orphan and stays without name, the head of the branch
`1.1.2.1.2` has it as parent and is named after it. -/
theorem digest_heads_named_or_orphan_witness :
    cvs_master_digest orphan_child_file empty_cm empty_master
      = some (digest_or_empty orphan_child_file) ∧
    (digest_or_empty orphan_child_file).ret ≠ none ∧
    head_names (digest_or_empty orphan_child_file)
      = [some "master", none, some "(null)-UNNAMED-BRANCH"] ∧
    head_numbers (digest_or_empty orphan_child_file)
      = [some [1, 1, 1, 1], some [1, 1, 0, 2], some [1, 1, 2, 1, 0, 2]] ∧
    head_parents (digest_or_empty orphan_child_file)
      = [none, none, some 2] ∧
    ∀ h ∈ (digest_or_empty orphan_child_file).cm.heads,
      ∃ r n, (digest_or_empty orphan_child_file).cm.refs[h]? = some r ∧
        r.number = some n ∧
        (r.parent ≠ none → r.ref_name ≠ none) ∧
        (r.ref_name = none → n ≠ cvs_zero → 4 ≤ n.length →
          cvs_master_find_branch (digest_or_empty orphan_child_file).cm
            (n.take (n.length - 2)) = some none) :=
  ⟨by decide!, by decide!, by decide!, by decide!, by decide!,
   digest_heads_named_or_orphan orphan_child_file empty_master
     (digest_or_empty orphan_child_file) (by decide!) (by decide!)⟩


theorem atom_dir_fuel_miss (hash : Atom → Nat) (fuel : Nat) (t t1 : DirTable)
    (name : Atom) (r : Nat) (hok : TableOk hash t)
    (hrun : atom_dir_fuel hash fuel t name = some (t1, r))
    (hmiss : ∀ (i : Nat) (di : MasterDir), t.dirs[i]? = some di →
      di.name ≠ name) : r = t.dirs.length := by
  cases fuel with
  | zero => simp [atom_dir_fuel] at hrun
  | succ fuel =>
    unfold atom_dir_fuel at hrun
    rcases find_dir_spec t.dirs name (t.buckets (hash name % DIR_BUCKETS))
        (fun b hb => by
          obtain ⟨d, hd, _⟩ := hok.1 _ b hb
          exact ⟨d, hd⟩) with ⟨b, _, _, d, hd, hdn⟩ | ⟨hfind, _⟩
    · exact absurd hdn (hmiss b d hd)
    · rw [hfind] at hrun
      simp only at hrun
      split at hrun
      · split at hrun
        · cases hrun
        · split at hrun
          · cases hrun
          · split at hrun
            · cases hrun
            · simp only [Option.some.injEq, Prod.mk.injEq] at hrun
              exact hrun.2.symm
      · simp only [Option.some.injEq, Prod.mk.injEq] at hrun
        exact hrun.2.symm

/-- Claim C13: a sequence of calls of `atom_dir` on the empty table, with names
no longer than `PATH_MAX`, returns, each call a record of the table that has
the requested name; the table then holds no two records with the same name,
and two calls of the sequence with the same name have returned the same
record.  A further call returns a record with the requested name and keeps
the records there are: when a record of the table has the name, that record
is returned and the table is left as it is, and when none has, the record
returned is a new one, put after the others. -/
theorem atom_dir_interns (hash : Atom → Nat) (names : List Atom) (name : Atom)
    (hlen : ∀ n ∈ names, n.length ≤ PATH_MAX)
    (hname : name.length ≤ PATH_MAX) :
    ∃ t rs, atom_dir_calls hash names empty_table = some (t, rs) ∧
      (∀ (i j : Nat) (di dj : MasterDir), t.dirs[i]? = some di →
        t.dirs[j]? = some dj → di.name = dj.name → i = j) ∧
      (∀ (a : Nat) (n : Atom), names[a]? = some n →
        ∃ r d, rs[a]? = some r ∧ t.dirs[r]? = some d ∧ d.name = n) ∧
      (∀ (a b : Nat) (n : Atom), names[a]? = some n → names[b]? = some n →
        ∃ r, rs[a]? = some r ∧ rs[b]? = some r) ∧
      ∃ t1 r d, atom_dir hash t name = some (t1, r) ∧
        t1.dirs[r]? = some d ∧ d.name = name ∧
        (∀ (i j : Nat) (di dj : MasterDir), t1.dirs[i]? = some di →
          t1.dirs[j]? = some dj → di.name = dj.name → i = j) ∧
        (∀ (i : Nat), i < t.dirs.length → t1.dirs[i]? = t.dirs[i]?) ∧
        (∀ (i : Nat) (di : MasterDir), t.dirs[i]? = some di →
          di.name = name → t1 = t ∧ r = i) ∧
        ((∀ (i : Nat) (di : MasterDir), t.dirs[i]? = some di →
            di.name ≠ name) →
          r = t.dirs.length ∧ t.dirs.length < t1.dirs.length) := by
  obtain ⟨t, rs, _, hrun, hok, hgood, _, hrs⟩ := atom_dir_calls_spec hash names
    empty_table hlen (table_ok_empty hash) all_good_empty
  obtain ⟨t1, r, ext, hrun1, hok1, _, hdirs, d, hd, hdn⟩ :=
    atom_dir_spec hash t name hname hok hgood
  refine ⟨t, rs, hrun, hok.2.2, hrs, ?_, t1, r, d, hrun1, hd, hdn, hok1.2.2,
    ?_, ?_, ?_⟩
  · intro a b n ha hb
    obtain ⟨ra, da, h1, h2, h3⟩ := hrs a n ha
    obtain ⟨rb, db, h4, h5, h6⟩ := hrs b n hb
    have : ra = rb := hok.2.2 ra rb da db h2 h5 (by rw [h3, h6])
    subst this
    exact ⟨ra, h1, h4⟩
  · intro i hi
    rw [hdirs, List.getElem?_append_left hi]
  · intro i di hdi hn
    have hp := atom_dir_present hash t hok i di hdi
    rw [hn, hrun1] at hp
    simp only [Option.some.injEq, Prod.mk.injEq] at hp
    exact hp
  · intro hmiss
    have hr : r = t.dirs.length :=
      atom_dir_fuel_miss hash _ t t1 name r hok hrun1 hmiss
    refine ⟨hr, ?_⟩
    have := getElem?_lt_of_some hd
    omega

/-- Witness of C13 on the calls `a/b`, `a`, `a/b` and then `a/c`, hashing a
name to its length: four records, `a/b`, `a`, the empty name and `a/c`. -/
theorem atom_dir_interns_witness :
    (atom_dir_calls (fun s => s.length) ["a/b", "a", "a/b", "a/c"]
        empty_table).map
      (fun p => (p.1.dirs.map (fun d => d.name), p.2))
      = some (["a/b", "a", "", "a/c"], [0, 1, 0, 3]) ∧
    ∃ t rs, atom_dir_calls (fun s => s.length) ["a/b", "a", "a/b"] empty_table
        = some (t, rs) ∧
      (∀ (i j : Nat) (di dj : MasterDir), t.dirs[i]? = some di →
        t.dirs[j]? = some dj → di.name = dj.name → i = j) ∧
      (∀ (a : Nat) (n : Atom), ["a/b", "a", "a/b"][a]? = some n →
        ∃ r d, rs[a]? = some r ∧ t.dirs[r]? = some d ∧ d.name = n) ∧
      (∀ (a b : Nat) (n : Atom), ["a/b", "a", "a/b"][a]? = some n →
        ["a/b", "a", "a/b"][b]? = some n →
        ∃ r, rs[a]? = some r ∧ rs[b]? = some r) ∧
      ∃ t1 r d, atom_dir (fun s => s.length) t "a/c" = some (t1, r) ∧
        t1.dirs[r]? = some d ∧ d.name = "a/c" ∧
        (∀ (i j : Nat) (di dj : MasterDir), t1.dirs[i]? = some di →
          t1.dirs[j]? = some dj → di.name = dj.name → i = j) ∧
        (∀ (i : Nat), i < t.dirs.length → t1.dirs[i]? = t.dirs[i]?) ∧
        (∀ (i : Nat) (di : MasterDir), t.dirs[i]? = some di →
          di.name = "a/c" → t1 = t ∧ r = i) ∧
        ((∀ (i : Nat) (di : MasterDir), t.dirs[i]? = some di →
            di.name ≠ "a/c") →
          r = t.dirs.length ∧ t.dirs.length < t1.dirs.length) :=
  ⟨by decide,
   atom_dir_interns (fun s => s.length) ["a/b", "a", "a/b"] "a/c" (by decide)
     (by decide)⟩

end RevCvs
